import Mathlib

/-!
Verification of BPFS (src/bpfs.c) claims over a shallow embedding.

The embedding translates the C sources into executable Lean definitions:
machine integers become `Nat` (with explicit `% 2^w` where C overflow can
occur), in-DRAM `malloc` results become explicit success oracles, and the
staged bitmap allocator becomes a state machine on a `Bitmap` record that
mirrors `struct bitmap`.
-/

set_option linter.unusedVariables false

namespace Bpfs

/-! ## Constants (bpfs_structs.h, bpfs.c) -/

def BPFS_BLOCK_SIZE : Nat := 4096
def BPFS_BLOCKNO_INVALID : Nat := 0
def BPFS_BLOCKNO_SUPER : Nat := 1
def BPFS_BLOCKNO_SUPER_2 : Nat := 2
def BPFS_BLOCKNO_FIRST_ALLOC : Nat := 3
def BPFS_INO_INVALID : Nat := 0
def BPFS_INO_ROOT : Nat := 1
def BPFS_FS_MAGIC : Nat := 0xB9F5
def BPFS_STRUCT_VERSION : Nat := 7
def ATOMIC_SIZE : Nat := 8
def BPFS_BLOCKNOS_PER_INDIR : Nat := 512
def BPFS_INODES_PER_BLOCK : Nat := 32
def sizeof_bpfs_inode : Nat := 128
def BPFS_COMMIT_SP : Nat := 0
def BPFS_COMMIT_SCSP : Nat := 1
/-- bpfs.c compiles with `#define SCSP_ENABLED 1` and `#define COW_OPT SCSP_ENABLED`. -/
def COW_OPT : Bool := true
def UINT32_MOD : Nat := 2 ^ 32

/-! ## Bitmap allocator (bpfs.c `struct bitmap` and its functions)

`struct bitmap` holds the bit array, its size `ntotal`, the free count,
two staged singly-linked lists (`allocs`, `frees`), and `prev_ntotal`
saved for resize abort. The bit array is embedded as a `List Bool` of
length `ntotal` (one entry per index); `ntotal` is recovered as
`bits.length`. -/

structure Bitmap where
  bits : List Bool
  nfree : Nat
  allocs : List Nat
  frees : List Nat
  prev_ntotal : Nat
deriving Repr, DecidableEq

def Bitmap.ntotal (b : Bitmap) : Nat := b.bits.length

/-- bitmap_init: all bits clear, nfree = ntotal, empty staged lists. -/
def bitmap_init (ntotal : Nat) : Bitmap :=
  ⟨List.replicate ntotal false, ntotal, [], [], 0⟩

/-- bitmap_alloc: scan for the first clear bit (the C code scans 8-bit
words and picks the lowest clear bit of the first non-full word, which is
the overall lowest clear index); `malloc` a staged entry (`mallocOk`
oracle; on failure the function returns `ntotal` without modifying the
bitmap); set the bit, push the index on `allocs`, decrement `nfree`.
Returns `ntotal` when every bit is set. -/
def firstClear : List Bool → Option Nat
  | [] => Option.none
  | bit :: rest => if bit then (firstClear rest).map (· + 1) else some 0

def bitmap_alloc (b : Bitmap) (mallocOk : Bool) : Bitmap × Nat :=
  match firstClear b.bits with
  | some i =>
    if mallocOk then
      ({ b with bits := b.bits.set i true,
                allocs := i :: b.allocs,
                nfree := b.nfree - 1 }, i)
    else (b, b.ntotal)
  | none => (b, b.ntotal)

/-- bitmap_free: push the index on the staged `frees` list; the bit stays
set so the slot cannot be reallocated during this transaction. (The C
function `xassert`s its own staged-entry malloc.) -/
def bitmap_free (b : Bitmap) (no : Nat) : Bitmap :=
  { b with frees := no :: b.frees }

/-- bitmap_clear: clear one (set) bit and increment nfree. -/
def bitmap_clear (b : Bitmap) (no : Nat) : Bitmap :=
  { b with bits := b.bits.set no false, nfree := b.nfree + 1 }

/-- bitmap_resize: no-op for equal size; record `prev_ntotal` on first
effective resize; growing appends clear bits and credits `nfree`,
shrinking drops the (all-clear, asserted) tail and debits `nfree`. -/
def bitmap_resize (b : Bitmap) (ntotal' : Nat) : Bitmap :=
  if b.ntotal = ntotal' then b
  else
    let b1 := if b.prev_ntotal = 0 then { b with prev_ntotal := b.ntotal } else b
    if b1.ntotal < ntotal' then
      { b1 with bits := b1.bits ++ List.replicate (ntotal' - b1.ntotal) false,
                nfree := b1.nfree + (ntotal' - b1.ntotal) }
    else
      { b1 with bits := b1.bits.take ntotal',
                nfree := b1.nfree - (b1.ntotal - ntotal') }

/-- bitmap_abort: clear every staged-alloc bit, discard the staged frees
(leaving their bits set), undo a resize via `prev_ntotal`, reset
`prev_ntotal`. -/
def bitmap_abort (b : Bitmap) : Bitmap :=
  let b1 := b.allocs.foldl bitmap_clear b
  let b2 := { b1 with allocs := [], frees := [] }
  let b3 := if b2.prev_ntotal ≠ 0 ∧ b2.ntotal ≠ b2.prev_ntotal then
              bitmap_resize b2 b2.prev_ntotal
            else b2
  { b3 with prev_ntotal := 0 }

/-- bitmap_commit: discard the staged allocs (their bits stay set), clear
every staged-free bit, reset `prev_ntotal`. -/
def bitmap_commit (b : Bitmap) : Bitmap :=
  let b1 := { b with allocs := [] }
  let b2 := b1.frees.foldl bitmap_clear b1
  { b2 with frees := [], prev_ntotal := 0 }

/-- alloc_block: block numbers are bitmap index + 1; bitmap exhaustion
(`ntotal` sentinel) becomes `BPFS_BLOCKNO_INVALID`. -/
def alloc_block (b : Bitmap) (mallocOk : Bool) : Bitmap × Nat :=
  let r := bitmap_alloc b mallocOk
  if r.2 = b.ntotal then (r.1, BPFS_BLOCKNO_INVALID) else (r.1, r.2 + 1)

/-- free_block: stage index blockno - 1 for clearing at commit. -/
def free_block (b : Bitmap) (blockno : Nat) : Bitmap :=
  bitmap_free b (blockno - 1)

/-- free_inode: stage index ino - 1 for clearing at commit. -/
def free_inode (b : Bitmap) (ino : Nat) : Bitmap :=
  bitmap_free b (ino - 1)

/-! ## Superblock and mount (bpfs.c `recover_superblock`, `main`) -/

/-- The fields of `struct bpfs_super` that mount and recovery inspect. -/
structure Super where
  magic : Nat
  version : Nat
  nblocks : Nat
  inode_root_addr : Nat
  inode_root_addr_2 : Nat
  commit_mode : Nat
deriving Repr, DecidableEq

/-- Result of `recover_superblock`: `ok` carries the (possibly rewritten)
contents of the two persistent superblock copies; `err` the C return
code. -/
inductive RecoverResult
  | ok (s1 s2 : Super)
  | err (code : Int)
deriving Repr, DecidableEq

/-- recover_superblock, translated branch for branch from bpfs.c:
mismatched commit modes fail; SCSP needs no recovery; in SP mode the
second copy's magic is checked, then whichever copy has
`inode_root_addr == inode_root_addr_2` is authoritative and overwrites
an inconsistent peer; both inconsistent fails with -2. -/
def recover_superblock (s1 s2 : Super) : RecoverResult :=
  if s1.commit_mode ≠ s2.commit_mode then .err (-1)
  else if s1.commit_mode = BPFS_COMMIT_SCSP then .ok s1 s2
  else if s1.commit_mode ≠ BPFS_COMMIT_SP then .err (-1)
  else if s2.magic ≠ BPFS_FS_MAGIC then .err (-1)
  else if s1.inode_root_addr = s1.inode_root_addr_2 then
    if s2.inode_root_addr ≠ s2.inode_root_addr_2 then .ok s1 s1 else .ok s1 s2
  else if s2.inode_root_addr = s2.inode_root_addr_2 then .ok s2 s2
  else .err (-2)

/-- A superblock copy is self-consistent when its primary and shadow
inode-root pointers agree (the SP commit protocol's integrity check). -/
def super_consistent (s : Super) : Prop :=
  s.inode_root_addr = s.inode_root_addr_2

instance (s : Super) : Decidable (super_consistent s) := by
  unfold super_consistent; infer_instance

/-- Outcome of the superblock validation sequence in `main` (bpfs.c),
in source order: magic, then version, then the region-size comparison
`bpfs_super->nblocks * BPFS_BLOCK_SIZE < bpram_size`, then
`recover_superblock`. -/
inductive MountCheck
  | badMagic
  | badVersion
  | badSize
  | recoverFailed
  | ok
deriving Repr, DecidableEq

/-- The `main` mount validation sequence from bpfs.c, lines 4201-4222.
The size test is embedded exactly as written in the source:
`if (bpfs_super->nblocks * BPFS_BLOCK_SIZE < bpram_size) return -1;`
(error message: "BPRAM is smaller than the file system"). -/
def mount_checks (s1 s2 : Super) (bpram_size : Nat) : MountCheck :=
  if s1.magic ≠ BPFS_FS_MAGIC then .badMagic
  else if s1.version ≠ BPFS_STRUCT_VERSION then .badVersion
  else if s1.nblocks * BPFS_BLOCK_SIZE < bpram_size then .badSize
  else
    match recover_superblock s1 s2 with
    | .err _ => .recoverFailed
    | .ok _ _ => .ok

/-! ## Inode allocation growth (bpfs.c `alloc_inode`)

`alloc_inode` first tries `bitmap_alloc` on the inode bitmap. When the
bitmap reports full it grows the inode tree with
`crawl_inodes(inode_root->nbytes, inode_root->nbytes, COMMIT_ATOMIC,
callback_init_inodes, NULL)` — a crawl of the byte range
[nbytes, nbytes + nbytes), whose `change_size` step in `crawl_tree`
sets `root->nbytes = end = 2 * nbytes` — then resizes the bitmap to
`inode_root->nbytes / sizeof(struct bpfs_inode)` and retries.
`crawlOk` abstracts whether that growing crawl obtained its blocks
(its block-level side effects are not needed for the slot accounting);
`mallocOk` is the staged-entry DRAM oracle of `bitmap_alloc`. -/

structure InodeAllocState where
  nbytes : Nat
  bitmap : Bitmap
deriving Repr, DecidableEq

def alloc_inode (s : InodeAllocState) (crawlOk mallocOk : Bool) :
    InodeAllocState × Nat :=
  let r1 := bitmap_alloc s.bitmap mallocOk
  if r1.2 = s.bitmap.ntotal then
    if !crawlOk then ({ s with bitmap := r1.1 }, BPFS_INO_INVALID)
    else
      let nbytes' := s.nbytes + s.nbytes
      let b2 := bitmap_resize r1.1 (nbytes' / sizeof_bpfs_inode)
      let r2 := bitmap_alloc b2 mallocOk
      (⟨nbytes', r2.1⟩, r2.2 + 1)
  else ({ s with bitmap := r1.1 }, r1.2 + 1)

/-! ## Atomic-write test and the leaf write callback decision
(bpfs.c `can_atomic_write`, `callback_write`) -/

/-- can_atomic_write from bpfs.c: `unsigned` (32-bit) arithmetic,
`last = offset + size - 1`, in-place allowed when
`last - offset < ATOMIC_SIZE && offset % ATOMIC_SIZE <= last % ATOMIC_SIZE`. -/
def can_atomic_write (offset size : Nat) : Bool :=
  let off := offset % UINT32_MOD
  let last := (off + size % UINT32_MOD + (UINT32_MOD - 1)) % UINT32_MOD
  decide ((last + UINT32_MOD - off) % UINT32_MOD < ATOMIC_SIZE) &&
  decide (off % ATOMIC_SIZE ≤ last % ATOMIC_SIZE)

/-- The crawler's `enum commit` policies. -/
inductive Commit
  | none
  | copy
  | atomic
  | free
deriving Repr, DecidableEq

/-- The condition in `callback_write` (bpfs.c:3906-3911) under which the
leaf bytes are written in place; in every other case the block is first
copied with `cow_block` and the write goes into the copy:
`commit == COMMIT_FREE || (COW_OPT && commit == COMMIT_ATOMIC &&
(can_atomic_write(off, size) || off >= valid))`. -/
def callback_write_inplace (commit : Commit) (off size valid : Nat) : Bool :=
  decide (commit = Commit.free) ||
  (COW_OPT && decide (commit = Commit.atomic) &&
    (can_atomic_write off size || decide (valid ≤ off)))

/-! ## Helper lemmas about the bit scan -/

theorem firstClear_eq_none {l : List Bool} (h : ∀ bit ∈ l, bit = true) :
    firstClear l = Option.none := by
  induction l with
  | nil => rfl
  | cons hd tl ih =>
    have hhd : hd = true := h hd (List.mem_cons_self hd tl)
    simp [firstClear, hhd, ih fun bit hb => h bit (List.mem_cons_of_mem hd hb)]

theorem firstClear_spec {l : List Bool} {i : Nat} (h : firstClear l = some i) :
    i < l.length ∧ l.getD i true = false := by
  induction l generalizing i with
  | nil => simp [firstClear] at h
  | cons hd tl ih =>
    by_cases hhd : hd
    · simp only [firstClear, hhd, if_true] at h
      match hi : firstClear tl with
      | Option.none => rw [hi] at h; simp at h
      | some j =>
        rw [hi] at h
        simp only [Option.map_some', Option.some.injEq] at h
        obtain ⟨hj1, hj2⟩ := ih hi
        subst h
        exact ⟨Nat.succ_lt_succ hj1, by simpa [List.getD_cons_succ] using hj2⟩
    · simp only [Bool.not_eq_true] at hhd
      simp only [firstClear, hhd, Bool.false_eq_true, if_false, Option.some_inj] at h
      subst h
      simp [hhd]

theorem firstClear_append_all_true {l1 l2 : List Bool}
    (h : ∀ bit ∈ l1, bit = true) :
    firstClear (l1 ++ l2) = (firstClear l2).map (· + l1.length) := by
  induction l1 with
  | nil => simp
  | cons hd tl ih =>
    have hhd : hd = true := h hd (List.mem_cons_self hd tl)
    have ih' := ih fun bit hb => h bit (List.mem_cons_of_mem hd hb)
    simp only [List.cons_append, firstClear, hhd, if_true, List.append_eq, ih',
      Option.map_map]
    cases firstClear l2 with
    | none => simp
    | some j =>
      simp only [Option.map_some', Function.comp_apply, Option.some.injEq,
        List.length_cons]
      omega

theorem firstClear_replicate_false {k : Nat} (h : 0 < k) :
    firstClear (List.replicate k false) = some 0 := by
  cases k with
  | zero => omega
  | succ n => simp [List.replicate_succ, firstClear]

/-! ## Claim C3: mount size validation

The claim states that mount succeeds only if `nblocks * 4096 ≤ bpram_size`
and that an oversized superblock (`nblocks * 4096 > bpram_size`) is
rejected. The code's test is inverted: it rejects exactly when
`nblocks * 4096 < bpram_size`, i.e. it accepts every oversized file system
and rejects every region strictly larger than the file system — the
opposite of its own error message "BPRAM is smaller than the file
system". -/

/-- C3: with valid magic and version (SCSP mode so recovery is a no-op),
a superblock claiming 4 blocks (16384 bytes) mounts on an 8192-byte
region (the claim requires rejection), while the same superblock on a
32768-byte region — where the file system fits easily — is rejected. -/
theorem C3_mount_size_check_inverted :
    mount_checks ⟨BPFS_FS_MAGIC, 7, 4, 5, 5, 1⟩ ⟨BPFS_FS_MAGIC, 7, 4, 5, 5, 1⟩ 8192
      = MountCheck.ok
    ∧ mount_checks ⟨BPFS_FS_MAGIC, 7, 4, 5, 5, 1⟩ ⟨BPFS_FS_MAGIC, 7, 4, 5, 5, 1⟩ 32768
      = MountCheck.badSize := by
  decide

/-! ## Claim C6: superblock recovery -/

/-- C6: in SP mode (both copies in SP commit mode, the second copy's magic
valid): a self-consistent first copy is kept, and when exactly one copy is
consistent the inconsistent one is overwritten with the consistent copy's
contents; recovery fails exactly when both copies are inconsistent. -/
theorem C6_recover_superblock (s1 s2 : Super)
    (h1 : s1.commit_mode = BPFS_COMMIT_SP)
    (h2 : s2.commit_mode = BPFS_COMMIT_SP)
    (hm : s2.magic = BPFS_FS_MAGIC) :
    (super_consistent s1 → ¬ super_consistent s2 →
      recover_superblock s1 s2 = RecoverResult.ok s1 s1)
    ∧ (¬ super_consistent s1 → super_consistent s2 →
      recover_superblock s1 s2 = RecoverResult.ok s2 s2)
    ∧ (super_consistent s1 → super_consistent s2 →
      recover_superblock s1 s2 = RecoverResult.ok s1 s2)
    ∧ ((∃ c, recover_superblock s1 s2 = RecoverResult.err c) ↔
      (¬ super_consistent s1 ∧ ¬ super_consistent s2)) := by
  have hmode : BPFS_COMMIT_SP ≠ BPFS_COMMIT_SCSP := by decide
  unfold recover_superblock super_consistent
  rw [h1, h2, hm]
  simp only [ne_eq, not_true_eq_false, if_false, not_false_eq_true, if_true,
    BPFS_COMMIT_SP, BPFS_COMMIT_SCSP]
  norm_num
  constructor
  · intro hc1 hc2
    simp [super_consistent, hc1, hc2]
  constructor
  · intro hc1 hc2
    simp [super_consistent, hc1, hc2]
  constructor
  · intro hc1 hc2
    simp [super_consistent, hc1, hc2]
  · by_cases hc1 : s1.inode_root_addr = s1.inode_root_addr_2 <;>
      by_cases hc2 : s2.inode_root_addr = s2.inode_root_addr_2 <;>
      simp [super_consistent, hc1, hc2]

/-- Witness for C6 at concrete superblocks: the first copy is consistent
(roots 5 = 5), the second is not (9 ≠ 7), so the second is overwritten
with the first. -/
theorem C6_witness :
    recover_superblock ⟨BPFS_FS_MAGIC, 7, 8, 5, 5, 0⟩ ⟨BPFS_FS_MAGIC, 7, 8, 9, 7, 0⟩
      = RecoverResult.ok ⟨BPFS_FS_MAGIC, 7, 8, 5, 5, 0⟩ ⟨BPFS_FS_MAGIC, 7, 8, 5, 5, 0⟩ :=
  (C6_recover_superblock _ _ rfl rfl rfl).1 (by decide) (by decide)

/-! ## Claim C8: the ATOMIC leaf-write decision -/

/-- `can_atomic_write off size` holds exactly when the write is nonempty,
at most 8 bytes, and start and end land in the same aligned 8-byte word;
bounds are the `crawl_leaf` asserts `off < BPFS_BLOCK_SIZE` and
`off + size <= BPFS_BLOCK_SIZE`. -/
theorem can_atomic_write_iff (off size : Nat)
    (hoff : off < BPFS_BLOCK_SIZE) (hsz : off + size ≤ BPFS_BLOCK_SIZE) :
    can_atomic_write off size = true ↔
      (1 ≤ size ∧ size ≤ 8 ∧ off / 8 = (off + size - 1) / 8) := by
  have hoff' : off < 4096 := by simpa [BPFS_BLOCK_SIZE] using hoff
  have hsz' : off + size ≤ 4096 := by simpa [BPFS_BLOCK_SIZE] using hsz
  have h32 : UINT32_MOD = 4294967296 := by norm_num [UINT32_MOD]
  simp only [can_atomic_write, ATOMIC_SIZE, h32, Bool.and_eq_true,
    decide_eq_true_eq]
  omega

/-- C8: under the ATOMIC commit policy, `callback_write` performs the leaf
write in place exactly when the write fits a single aligned 8-byte word
(1 ≤ size ≤ 8 with both ends in one word) or starts at or beyond the
block's valid length; otherwise the block is first copied. -/
theorem C8_atomic_write_decision (off size valid : Nat)
    (hoff : off < BPFS_BLOCK_SIZE) (hsz : off + size ≤ BPFS_BLOCK_SIZE) :
    callback_write_inplace Commit.atomic off size valid = true ↔
      ((1 ≤ size ∧ size ≤ 8 ∧ off / 8 = (off + size - 1) / 8) ∨ valid ≤ off) := by
  simp only [callback_write_inplace, COW_OPT, Bool.true_and, Bool.or_eq_true,
    decide_eq_true_eq, reduceCtorEq, Bool.and_eq_true, false_or, true_and,
    can_atomic_write_iff off size hoff hsz]

/-- Witness for C8: the 8-byte write at offset 16 of a block with valid
length 4096 is performed in place (16 and 23 share the aligned word
[16, 24)). -/
theorem C8_witness :
    callback_write_inplace Commit.atomic 16 8 4096 = true :=
  (C8_atomic_write_decision 16 8 4096 (by decide) (by decide)).2
    (Or.inl (by decide))

/-! ## Claim C10: exhaustion sentinel of bitmap_alloc -/

/-- C10: `bitmap_alloc` returns its exhaustion sentinel (`ntotal`, which
`alloc_block` translates to `BPFS_BLOCKNO_INVALID` and callers surface as
-ENOSPC) both when every index is set and when the in-DRAM `malloc` of
the staged entry fails — so DRAM exhaustion during allocation is reported
as out of space, not out of memory. In both situations the bitmap is
unchanged. -/
theorem C10_alloc_exhaustion_sentinel (b : Bitmap) (mallocOk : Bool)
    (h : (∀ bit ∈ b.bits, bit = true) ∨ mallocOk = false) :
    bitmap_alloc b mallocOk = (b, b.ntotal)
    ∧ alloc_block b mallocOk = (b, BPFS_BLOCKNO_INVALID) := by
  have halloc : bitmap_alloc b mallocOk = (b, b.ntotal) := by
    rcases h with hfull | hm
    · simp [bitmap_alloc, firstClear_eq_none hfull]
    · subst hm
      unfold bitmap_alloc
      cases firstClear b.bits <;> simp
  refine ⟨halloc, ?_⟩
  simp [alloc_block, halloc]

/-- Witness for C10 at a fully-set 2-bit bitmap (with `malloc`
available): the sentinel 2 and the invalid block number 0 come back. -/
theorem C10_witness :
    bitmap_alloc ⟨[true, true], 0, [], [], 0⟩ true
        = (⟨[true, true], 0, [], [], 0⟩, 2)
    ∧ alloc_block ⟨[true, true], 0, [], [], 0⟩ true
        = (⟨[true, true], 0, [], [], 0⟩, BPFS_BLOCKNO_INVALID) :=
  C10_alloc_exhaustion_sentinel _ _ (Or.inl (by decide))

/-! ## Claim C4: inode-table growth on exhaustion

The claim says `alloc_inode` extends the inode tree by exactly one block
(4096 bytes, 32 slots). The code instead doubles the table: the growing
crawl is `crawl_inodes(inode_root->nbytes, inode_root->nbytes, ...)`,
whose end offset — and therefore the new `root->nbytes` — is
`2 * nbytes`. -/

/-- A full 64-slot (8192-byte) inode table, the smallest configuration
that separates "one block" from "doubling". -/
def c4_state : InodeAllocState :=
  ⟨8192, ⟨List.replicate 64 true, 0, [], [], 0⟩⟩

set_option maxRecDepth 4000 in
/-- C4 counterexample: growing a full 8192-byte (64-slot) inode table
yields a 16384-byte (128-slot) table, not the 8192 + 4096 bytes
(64 + 32 slots) the claim requires. -/
theorem C4_counterexample :
    (alloc_inode c4_state true true).1.nbytes = 16384
    ∧ ¬ (alloc_inode c4_state true true).1.nbytes
        = c4_state.nbytes + BPFS_BLOCK_SIZE
    ∧ (alloc_inode c4_state true true).1.bitmap.ntotal = 128
    ∧ ¬ (alloc_inode c4_state true true).1.bitmap.ntotal
        = 64 + BPFS_INODES_PER_BLOCK := by
  decide

/-- C4 amended: when the inode bitmap reports every slot in use,
`alloc_inode` doubles the inode tree (new nbytes = 2 × old), resizes the
bitmap to the new slot count (nbytes / 128), and the retried allocation
succeeds, returning the first slot past the old table. Hypotheses: the
bitmap is full and tracks the table (`ntotal = nbytes / 128`), the table
is a nonempty whole number of inodes, and the growing crawl and the
staged-entry malloc succeed. -/
theorem C4_amended (s : InodeAllocState)
    (hfull : ∀ bit ∈ s.bitmap.bits, bit = true)
    (hsz : s.bitmap.ntotal = s.nbytes / sizeof_bpfs_inode)
    (hdvd : sizeof_bpfs_inode ∣ s.nbytes) (hpos : 0 < s.nbytes) :
    (alloc_inode s true true).1.nbytes = 2 * s.nbytes
    ∧ (alloc_inode s true true).1.bitmap.ntotal
        = (2 * s.nbytes) / sizeof_bpfs_inode
    ∧ (alloc_inode s true true).2 = s.bitmap.ntotal + 1
    ∧ (alloc_inode s true true).2 ≠ BPFS_INO_INVALID
    ∧ (alloc_inode s true true).2 - 1 < (alloc_inode s true true).1.bitmap.ntotal := by
  obtain ⟨q, hq⟩ := hdvd
  have hsize : sizeof_bpfs_inode = 128 := by norm_num [sizeof_bpfs_inode]
  rw [hsize] at hq
  have hqpos : 0 < q := by omega
  have hntot : s.bitmap.ntotal = q := by
    rw [hsz, hq, hsize]; omega
  have halloc1 : bitmap_alloc s.bitmap true = (s.bitmap, s.bitmap.ntotal) := by
    simp [bitmap_alloc, firstClear_eq_none hfull]
  have hlen : s.bitmap.bits.length = q := hntot
  have hnb2 : (s.nbytes + s.nbytes) / sizeof_bpfs_inode = 2 * q := by
    rw [hsize, hq]; omega
  have hresize :
      bitmap_resize s.bitmap ((s.nbytes + s.nbytes) / sizeof_bpfs_inode)
        = { s.bitmap with
              bits := s.bitmap.bits ++ List.replicate q false,
              nfree := s.bitmap.nfree + q,
              prev_ntotal := if s.bitmap.prev_ntotal = 0 then q
                             else s.bitmap.prev_ntotal } := by
    rw [hnb2]
    unfold bitmap_resize
    have hne : ¬ s.bitmap.ntotal = 2 * q := by omega
    rw [if_neg hne]
    by_cases hp : s.bitmap.prev_ntotal = 0 <;>
      simp only [hp, if_true, if_false, Bitmap.ntotal, hlen] <;>
      rw [if_pos (by omega)] <;>
      simp [Bitmap.ntotal, hlen, hntot] <;>
      omega
  have halloc2 :
      firstClear (s.bitmap.bits ++ List.replicate q false) = some q := by
    rw [firstClear_append_all_true hfull, firstClear_replicate_false hqpos]
    simp [hlen]
  have hshape : alloc_inode s true true
      = (⟨s.nbytes + s.nbytes,
          (bitmap_alloc
            (bitmap_resize s.bitmap
              ((s.nbytes + s.nbytes) / sizeof_bpfs_inode)) true).1⟩,
         (bitmap_alloc
            (bitmap_resize s.bitmap
              ((s.nbytes + s.nbytes) / sizeof_bpfs_inode)) true).2 + 1) := by
    unfold alloc_inode
    rw [halloc1]
    simp
  have hfinal2 :
      bitmap_alloc
        (bitmap_resize s.bitmap ((s.nbytes + s.nbytes) / sizeof_bpfs_inode))
        true
      = ({ bits := (s.bitmap.bits ++ List.replicate q false).set q true,
           nfree := s.bitmap.nfree + q - 1,
           allocs := q :: s.bitmap.allocs,
           frees := s.bitmap.frees,
           prev_ntotal := if s.bitmap.prev_ntotal = 0 then q
                          else s.bitmap.prev_ntotal }, q) := by
    rw [hresize]
    unfold bitmap_alloc
    simp [halloc2]
  rw [hshape, hfinal2]
  refine ⟨by simp; omega, ?_, by simp [hntot], by simp [BPFS_INO_INVALID], ?_⟩
  · simp only [Bitmap.ntotal, List.length_set, List.length_append,
      List.length_replicate, hlen, hsize, hq]
    omega
  · simp only [Bitmap.ntotal, List.length_set, List.length_append,
      List.length_replicate, hlen, hntot]
    omega

/-- Witness for C4 amended at a concrete full 2-slot (256-byte) table:
it doubles to 4 slots and the retry returns slot number 3. -/
theorem C4_witness :
    (alloc_inode ⟨256, ⟨[true, true], 0, [], [], 0⟩⟩ true true).1.nbytes = 2 * 256
    ∧ (alloc_inode ⟨256, ⟨[true, true], 0, [], [], 0⟩⟩ true true).1.bitmap.ntotal
        = (2 * 256) / sizeof_bpfs_inode
    ∧ (alloc_inode ⟨256, ⟨[true, true], 0, [], [], 0⟩⟩ true true).2
        = (⟨[true, true], 0, [], [], 0⟩ : Bitmap).ntotal + 1
    ∧ (alloc_inode ⟨256, ⟨[true, true], 0, [], [], 0⟩⟩ true true).2 ≠ BPFS_INO_INVALID
    ∧ (alloc_inode ⟨256, ⟨[true, true], 0, [], [], 0⟩⟩ true true).2 - 1
        < (alloc_inode ⟨256, ⟨[true, true], 0, [], [], 0⟩⟩ true true).1.bitmap.ntotal :=
  C4_amended ⟨256, ⟨[true, true], 0, [], [], 0⟩⟩ (by decide) (by decide)
    (by decide) (by decide)

/-! ## Claim C5: inode-number reuse

The claim says an inode number freed (and committed) is never returned
again within the session. In the code, `bitmap_commit` clears the staged
freed bit and the next `bitmap_alloc` scans from index 0, so the lowest
freed number is returned again immediately. Only while the freeing
transaction is still open is the number protected (its bit stays set). -/

/-- The concrete session: allocate ino 1 from a fresh 32-slot inode
bitmap, commit; free ino 1 (`free_inode`), commit; allocate again. -/
def c5_run : Nat × Nat :=
  let s0 : InodeAllocState := ⟨4096, bitmap_init 32⟩
  let r1 := alloc_inode s0 true true
  let b2 := bitmap_commit r1.1.bitmap
  let b3 := free_inode b2 r1.2
  let b4 := bitmap_commit b3
  let r5 := alloc_inode ⟨r1.1.nbytes, b4⟩ true true
  (r1.2, r5.2)

/-- C5 counterexample: the inode number allocated, freed, and committed
(ino 1) is returned again by the very next allocation in the same
session. -/
theorem C5_counterexample : c5_run.1 = 1 ∧ c5_run.2 = c5_run.1 := by
  decide

/-- C5 amended: while the freeing transaction is still open (the free of
`ino` is staged on the inode bitmap's `frees` list, whose bits remain
set), `bitmap_alloc` never returns `ino`'s slot, so the number cannot be
reallocated before the free commits; after commit it can (see the
counterexample). -/
theorem C5_amended (b : Bitmap) (mallocOk : Bool) (ino : Nat)
    (hfree : (ino - 1) ∈ b.frees)
    (hset : b.bits.getD (ino - 1) true = true)
    (hlt : ino - 1 < b.ntotal) :
    (bitmap_alloc b mallocOk).2 ≠ ino - 1 := by
  simp only [Bitmap.ntotal] at hlt
  unfold bitmap_alloc
  match hfc : firstClear b.bits with
  | Option.none => simp [Bitmap.ntotal]; omega
  | some i =>
    obtain ⟨hi1, hi2⟩ := firstClear_spec hfc
    by_cases hm : mallocOk
    · subst hm
      simp only [if_true]
      intro hcon
      rw [hcon] at hi2
      rw [hset] at hi2
      exact absurd hi2 (by simp)
    · simp only [Bool.not_eq_true] at hm
      subst hm
      simp only [Bool.false_eq_true, if_false]
      simp [Bitmap.ntotal]
      omega

/-- Witness for C5 amended: with the free of ino 1 staged (bit 0 still
set), allocation returns index 1, not the protected index 0. -/
theorem C5_witness :
    (bitmap_alloc ⟨[true, false], 1, [], [0], 0⟩ true).2 ≠ 0 :=
  C5_amended ⟨[true, false], 1, [], [0], 0⟩ true 1 (by decide) (by decide)
    (by decide)

/-! ## Claim C7: bitmap transaction abort and commit

The transaction machine: any interleaving of `bitmap_alloc`,
`bitmap_free`, and `bitmap_resize` calls starting from a bitmap with
empty staged lists, closed by `bitmap_abort` or `bitmap_commit`.
Helper view: `bitD l i` is bit `i` of the array (clear beyond the end,
like the C bitmap's addressable range). -/

def bitD (l : List Bool) (i : Nat) : Bool := l.getD i false

def countFalse (l : List Bool) : Nat := l.countP (fun bit => !bit)

inductive BitmapOp
  | alloc (mallocOk : Bool)
  | free (no : Nat)
  | resize (ntotal' : Nat)
deriving Repr, DecidableEq

def applyBitmapOp (b : Bitmap) : BitmapOp → Bitmap
  | .alloc ok => (bitmap_alloc b ok).1
  | .free no => bitmap_free b no
  | .resize n => bitmap_resize b n

def applyBitmapOps (b : Bitmap) : List BitmapOp → Bitmap
  | [] => b
  | op :: ops => applyBitmapOps (applyBitmapOp b op) ops

/-- The preconditions bpfs.c enforces with asserts: `bitmap_free` needs
an in-range, set, not-already-staged index; a shrinking `bitmap_resize`
needs empty staged lists and an all-clear dropped tail. -/
def legalBitmapOp (b : Bitmap) : BitmapOp → Bool
  | .alloc _ => true
  | .free no => decide (no < b.ntotal) && bitD b.bits no && !(decide (no ∈ b.frees))
  | .resize n => decide (b.ntotal ≤ n) ||
      (decide (b.allocs = []) && decide (b.frees = []) &&
        (b.bits.drop n).all (fun bit => !bit))

def legalBitmapOps : Bitmap → List BitmapOp → Bool
  | _, [] => true
  | b, op :: ops => legalBitmapOp b op && legalBitmapOps (applyBitmapOp b op) ops

/-! ### Bit-array helper lemmas -/

theorem bitD_set (l : List Bool) (i j : Nat) (x : Bool) :
    bitD (l.set i x) j = if i = j ∧ i < l.length then x else bitD l j := by
  unfold bitD
  rw [List.getD_eq_getElem?_getD, List.getD_eq_getElem?_getD, List.getElem?_set]
  by_cases hij : i = j
  · subst hij
    by_cases hlt : i < l.length
    · simp [hlt]
    · simp only [if_pos rfl, if_neg hlt, hlt, and_false, if_false]
      rw [List.getElem?_eq_none (by omega)]
      rfl
  · simp [hij]

theorem bitD_ge_len {l : List Bool} {i : Nat} (h : l.length ≤ i) :
    bitD l i = false := by
  unfold bitD
  rw [List.getD_eq_getElem?_getD, List.getElem?_eq_none h]
  rfl

theorem bitD_append (l1 l2 : List Bool) (i : Nat) :
    bitD (l1 ++ l2) i = if i < l1.length then bitD l1 i
                        else bitD l2 (i - l1.length) := by
  unfold bitD
  rw [List.getD_eq_getElem?_getD, List.getElem?_append]
  by_cases h : i < l1.length <;>
    simp [h, List.getD_eq_getElem?_getD]

theorem bitD_take (l : List Bool) (n i : Nat) :
    bitD (l.take n) i = if i < n then bitD l i else false := by
  unfold bitD
  rw [List.getD_eq_getElem?_getD, List.getElem?_take]
  by_cases h : i < n <;> simp [h, List.getD_eq_getElem?_getD]

theorem bitD_replicate_false (k i : Nat) :
    bitD (List.replicate k false) i = false := by
  unfold bitD
  rw [List.getD_eq_getElem?_getD]
  by_cases h : i < k
  · rw [List.getElem?_eq_getElem (by simpa using h)]
    simp
  · rw [List.getElem?_eq_none (by simpa using h)]
    rfl

theorem ext_bitD {l1 l2 : List Bool} (hlen : l1.length = l2.length)
    (h : ∀ i, bitD l1 i = bitD l2 i) : l1 = l2 := by
  refine List.ext_getElem hlen fun i h1 h2 => ?_
  have := h i
  unfold bitD at this
  rw [List.getD_eq_getElem?_getD, List.getD_eq_getElem?_getD,
    List.getElem?_eq_getElem h1, List.getElem?_eq_getElem h2] at this
  simpa using this

theorem countFalse_set_true {l : List Bool} {i : Nat}
    (hbit : bitD l i = false) (hlt : i < l.length) :
    countFalse (l.set i true) + 1 = countFalse l := by
  induction l generalizing i with
  | nil => simp at hlt
  | cons hd tl ih =>
    cases i with
    | zero =>
      unfold bitD at hbit
      simp at hbit
      subst hbit
      simp [countFalse, List.countP_cons]
    | succ n =>
      have hbit' : bitD tl n = false := by
        unfold bitD at hbit ⊢
        simpa [List.getD_cons_succ] using hbit
      have hlt' : n < tl.length := by simpa using hlt
      have := ih hbit' hlt'
      simp only [List.set_cons_succ, countFalse, List.countP_cons] at *
      omega

theorem countFalse_set_false {l : List Bool} {i : Nat}
    (hbit : bitD l i = true) :
    countFalse (l.set i false) = countFalse l + 1 := by
  induction l generalizing i with
  | nil =>
    unfold bitD at hbit
    simp [List.getD] at hbit
  | cons hd tl ih =>
    cases i with
    | zero =>
      unfold bitD at hbit
      simp at hbit
      subst hbit
      simp [countFalse, List.countP_cons]
    | succ n =>
      have hbit' : bitD tl n = true := by
        unfold bitD at hbit ⊢
        simpa [List.getD_cons_succ] using hbit
      have := ih hbit'
      simp only [List.set_cons_succ, countFalse, List.countP_cons] at *
      omega

theorem countFalse_append (l1 l2 : List Bool) :
    countFalse (l1 ++ l2) = countFalse l1 + countFalse l2 :=
  List.countP_append _ _ _

theorem countFalse_replicate_false (k : Nat) :
    countFalse (List.replicate k false) = k := by
  simp [countFalse, List.countP_replicate]

theorem countFalse_drop_all_false {l : List Bool} {n : Nat}
    (hn : n ≤ l.length) (h : ∀ i, n ≤ i → bitD l i = false) :
    countFalse l = countFalse (l.take n) + (l.length - n) := by
  conv_lhs => rw [← List.take_append_drop n l]
  rw [countFalse_append]
  have hdrop : countFalse (l.drop n) = (l.drop n).length := by
    rw [countFalse, List.countP_eq_length]
    intro bit hb
    obtain ⟨i, hi, hbit⟩ := List.mem_iff_getElem.mp hb
    have hlen : n + i < l.length := by
      have := hi; simp only [List.length_drop] at this; omega
    have hfalse : bitD l (n + i) = false := h _ (by omega)
    unfold bitD at hfalse
    rw [List.getD_eq_getElem?_getD,
      List.getElem?_eq_getElem hlen] at hfalse
    simp only [Option.getD_some] at hfalse
    rw [← hbit, List.getElem_drop, hfalse]
    rfl
  rw [hdrop]
  simp

/-! ### foldl bitmap_clear lemmas -/

theorem foldl_clear_bits (L : List Nat) (b : Bitmap) (i : Nat) :
    bitD (L.foldl bitmap_clear b).bits i
      = (bitD b.bits i && !(decide (i ∈ L))) := by
  induction L generalizing b with
  | nil => simp
  | cons j L' ih =>
    rw [List.foldl_cons, ih]
    have hstep : bitD (bitmap_clear b j).bits i
        = (bitD b.bits i && !(decide (i = j))) := by
      unfold bitmap_clear
      rw [bitD_set]
      by_cases hij : j = i
      · subst hij
        by_cases hlt : j < b.bits.length
        · simp [hlt]
        · simp only [hlt, and_false, if_false]
          rw [bitD_ge_len (by omega)]
          simp
      · simp only [hij, false_and, if_false]
        have : ¬ (i = j) := fun h => hij h.symm
        simp [this]
    rw [hstep]
    simp only [List.mem_cons, decide_eq_true_eq]
    by_cases h1 : i = j <;> by_cases h2 : i ∈ L' <;> simp [h1, h2]

theorem foldl_clear_len (L : List Nat) (b : Bitmap) :
    (L.foldl bitmap_clear b).bits.length = b.bits.length := by
  induction L generalizing b with
  | nil => rfl
  | cons j L' ih => rw [List.foldl_cons, ih]; simp [bitmap_clear]

theorem foldl_clear_fields (L : List Nat) (b : Bitmap) :
    (L.foldl bitmap_clear b).allocs = b.allocs
    ∧ (L.foldl bitmap_clear b).frees = b.frees
    ∧ (L.foldl bitmap_clear b).prev_ntotal = b.prev_ntotal := by
  induction L generalizing b with
  | nil => exact ⟨rfl, rfl, rfl⟩
  | cons j L' ih => rw [List.foldl_cons]; exact ih _

theorem foldl_clear_nfree (L : List Nat) (b : Bitmap)
    (hset : ∀ i ∈ L, bitD b.bits i = true) (hnd : L.Nodup)
    (hn : b.nfree = countFalse b.bits) :
    (L.foldl bitmap_clear b).nfree = countFalse (L.foldl bitmap_clear b).bits := by
  induction L generalizing b with
  | nil => simpa using hn
  | cons j L' ih =>
    rw [List.foldl_cons]
    have hj : bitD b.bits j = true := hset j (List.mem_cons_self j L')
    refine ih _ ?_ (List.nodup_cons.mp hnd).2 ?_
    · intro i hi
      have hne : i ≠ j := by
        rintro rfl
        exact (List.nodup_cons.mp hnd).1 hi
      unfold bitmap_clear
      rw [bitD_set, if_neg (by rintro ⟨h1, -⟩; exact hne h1.symm)]
      exact hset i (List.mem_cons_of_mem j hi)
    · show b.nfree + 1 = countFalse (b.bits.set j false)
      rw [countFalse_set_false hj, hn]

/-! ### The transaction invariant -/

theorem Bitmap.eq_of_fields {a b : Bitmap} (h1 : a.bits = b.bits)
    (h2 : a.nfree = b.nfree) (h3 : a.allocs = b.allocs)
    (h4 : a.frees = b.frees) (h5 : a.prev_ntotal = b.prev_ntotal) : a = b := by
  cases a; cases b; simp_all

theorem firstClear_bitD {l : List Bool} {i : Nat} (h : firstClear l = some i) :
    i < l.length ∧ bitD l i = false := by
  obtain ⟨h1, h2⟩ := firstClear_spec h
  refine ⟨h1, ?_⟩
  unfold bitD
  rw [List.getD_eq_getElem?_getD, List.getElem?_eq_getElem h1]
  rw [List.getD_eq_getElem?_getD, List.getElem?_eq_getElem h1] at h2
  simpa using h2

theorem bitmap_alloc_stuck {b : Bitmap} {ok : Bool}
    (h : firstClear b.bits = Option.none ∨ ok = false) :
    bitmap_alloc b ok = (b, b.ntotal) := by
  unfold bitmap_alloc
  rcases h with h | h
  · rw [h]
  · subst h
    cases hfc : firstClear b.bits <;> simp

theorem bitmap_alloc_found {b : Bitmap} {i : Nat}
    (h : firstClear b.bits = some i) :
    bitmap_alloc b true
      = ({ b with bits := b.bits.set i true,
                  allocs := i :: b.allocs,
                  nfree := b.nfree - 1 }, i) := by
  unfold bitmap_alloc
  rw [h]
  rfl

/-- Relates the working bitmap `b` to the pre-transaction bitmap `b0`
across a transaction: clearing the staged-alloc bits and undoing the
resize recovers `b0` exactly. -/
structure BitmapTxnInv (b0 b : Bitmap) : Prop where
  undo : ∀ i, bitD b0.bits i = (bitD b.bits i && !(decide (i ∈ b.allocs)))
  allocs_set : ∀ i ∈ b.allocs, bitD b.bits i = true
  allocs_nodup : b.allocs.Nodup
  frees_set : ∀ i ∈ b.frees, bitD b.bits i = true
  nfree_eq : b.nfree = countFalse b.bits
  prev_rel : (b.prev_ntotal = 0 ∧ b.ntotal = b0.ntotal) ∨ b.prev_ntotal = b0.ntotal

theorem bitmapTxnInv_init (b0 : Bitmap) (hA : b0.allocs = [])
    (hF : b0.frees = []) (hP : b0.prev_ntotal = 0)
    (hN : b0.nfree = countFalse b0.bits) :
    BitmapTxnInv b0 b0 where
  undo i := by simp [hA]
  allocs_set i hi := by rw [hA] at hi; cases hi
  allocs_nodup := by rw [hA]; exact List.nodup_nil
  frees_set i hi := by rw [hF] at hi; cases hi
  nfree_eq := hN
  prev_rel := Or.inl ⟨hP, rfl⟩

theorem bitmapTxnInv_alloc {b0 b : Bitmap} (inv : BitmapTxnInv b0 b)
    (ok : Bool) : BitmapTxnInv b0 (bitmap_alloc b ok).1 := by
  match hfc : firstClear b.bits, ok with
  | Option.none, ok =>
    rw [bitmap_alloc_stuck (Or.inl hfc)]
    exact inv
  | some i, false =>
    rw [bitmap_alloc_stuck (Or.inr rfl)]
    exact inv
  | some i, true =>
    rw [bitmap_alloc_found hfc]
    obtain ⟨hilt, hibit⟩ := firstClear_bitD hfc
    have hmem : i ∉ b.allocs := fun hi => by
      rw [inv.allocs_set i hi] at hibit; cases hibit
    refine ⟨?_, ?_, ?_, ?_, ?_, ?_⟩
    · intro k
      rw [inv.undo k]
      by_cases hk : k = i
      · subst hk
        rw [hibit, bitD_set, if_pos ⟨rfl, hilt⟩]
        simp
      · rw [bitD_set, if_neg (by rintro ⟨rfl, -⟩; exact hk rfl)]
        simp only [List.mem_cons, decide_eq_true_eq]
        by_cases hmem' : k ∈ b.allocs <;> simp [hmem', hk]
    · intro k hk
      simp only [List.mem_cons] at hk
      rcases hk with rfl | hk
      · rw [bitD_set, if_pos ⟨rfl, hilt⟩]
      · rw [bitD_set, if_neg (by
          rintro ⟨rfl, -⟩
          exact hmem hk)]
        exact inv.allocs_set k hk
    · exact List.nodup_cons.mpr ⟨hmem, inv.allocs_nodup⟩
    · intro k hk
      have hne : k ≠ i := fun h => by
        subst h
        rw [inv.frees_set k hk] at hibit; cases hibit
      rw [bitD_set, if_neg (by rintro ⟨rfl, -⟩; exact hne rfl)]
      exact inv.frees_set k hk
    · show b.nfree - 1 = countFalse (b.bits.set i true)
      have := countFalse_set_true hibit hilt
      have := inv.nfree_eq
      omega
    · show (b.prev_ntotal = 0 ∧ (b.bits.set i true).length = b0.ntotal)
          ∨ b.prev_ntotal = b0.ntotal
      rw [List.length_set]
      exact inv.prev_rel

theorem bitmapTxnInv_free {b0 b : Bitmap} (inv : BitmapTxnInv b0 b)
    {no : Nat} (hleg : legalBitmapOp b (BitmapOp.free no) = true) :
    BitmapTxnInv b0 (bitmap_free b no) := by
  simp only [legalBitmapOp, Bool.and_eq_true, decide_eq_true_eq,
    Bool.not_eq_true', decide_eq_false_iff_not] at hleg
  obtain ⟨⟨hlt, hbit⟩, hnotin⟩ := hleg
  refine ⟨inv.undo, inv.allocs_set, inv.allocs_nodup, ?_, inv.nfree_eq,
    inv.prev_rel⟩
  intro k hk
  simp only [bitmap_free, List.mem_cons] at hk
  rcases hk with rfl | hk
  · exact hbit
  · exact inv.frees_set k hk

theorem bitmap_resize_eq_self {b : Bitmap} {n : Nat} (h : b.ntotal = n) :
    bitmap_resize b n = b := by
  unfold bitmap_resize
  rw [if_pos h]

theorem bitmap_resize_grow {b : Bitmap} {n : Nat} (h : b.ntotal < n) :
    bitmap_resize b n =
      { bits := b.bits ++ List.replicate (n - b.ntotal) false,
        nfree := b.nfree + (n - b.ntotal),
        allocs := b.allocs, frees := b.frees,
        prev_ntotal := if b.prev_ntotal = 0 then b.ntotal
                       else b.prev_ntotal } := by
  unfold bitmap_resize
  rw [if_neg (by omega)]
  by_cases hp : b.prev_ntotal = 0
  · rw [if_pos hp, if_pos hp,
      if_pos (show ({ b with prev_ntotal := b.ntotal } : Bitmap).ntotal < n
        from h)]
    exact rfl
  · rw [if_neg hp, if_neg hp, if_pos h]

theorem bitmap_resize_shrink {b : Bitmap} {n : Nat} (h : n < b.ntotal) :
    bitmap_resize b n =
      { bits := b.bits.take n,
        nfree := b.nfree - (b.ntotal - n),
        allocs := b.allocs, frees := b.frees,
        prev_ntotal := if b.prev_ntotal = 0 then b.ntotal
                       else b.prev_ntotal } := by
  unfold bitmap_resize
  rw [if_neg (by omega)]
  by_cases hp : b.prev_ntotal = 0
  · rw [if_pos hp, if_pos hp,
      if_neg (show ¬ ({ b with prev_ntotal := b.ntotal } : Bitmap).ntotal < n
        from (by omega : ¬ b.ntotal < n))]
    exact rfl
  · rw [if_neg hp, if_neg hp, if_neg (by omega : ¬ b.ntotal < n)]

theorem bitmapTxnInv_resize {b0 b : Bitmap} (hpos : 0 < b0.ntotal)
    (inv : BitmapTxnInv b0 b) {n : Nat}
    (hleg : legalBitmapOp b (BitmapOp.resize n) = true) :
    BitmapTxnInv b0 (bitmap_resize b n) := by
  have hprev : (if b.prev_ntotal = 0 then b.ntotal else b.prev_ntotal)
      = b0.ntotal := by
    rcases inv.prev_rel with ⟨h1, h2⟩ | h1
    · rw [if_pos h1]; exact h2
    · rw [if_neg (by omega)]; exact h1
  rcases Nat.lt_trichotomy b.ntotal n with hlt | heq | hgt
  · rw [bitmap_resize_grow hlt]
    refine ⟨?_, ?_, inv.allocs_nodup, ?_, ?_, Or.inr hprev⟩
    · intro i
      rw [inv.undo i]
      show _ = (bitD (b.bits ++ _) i && _)
      rw [bitD_append]
      by_cases hi : i < b.bits.length
      · rw [if_pos hi]
      · rw [if_neg hi, bitD_replicate_false,
          bitD_ge_len (show b.bits.length ≤ i by omega)]
    · intro k hk
      have hkb := inv.allocs_set k hk
      have hklt : k < b.bits.length := by
        by_contra hc
        rw [bitD_ge_len (by omega)] at hkb; cases hkb
      show bitD (b.bits ++ _) k = true
      rw [bitD_append, if_pos hklt]; exact hkb
    · intro k hk
      have hkb := inv.frees_set k hk
      have hklt : k < b.bits.length := by
        by_contra hc
        rw [bitD_ge_len (by omega)] at hkb; cases hkb
      show bitD (b.bits ++ _) k = true
      rw [bitD_append, if_pos hklt]; exact hkb
    · show b.nfree + (n - b.ntotal)
        = countFalse (b.bits ++ List.replicate (n - b.ntotal) false)
      rw [countFalse_append, countFalse_replicate_false, inv.nfree_eq]
  · rw [bitmap_resize_eq_self heq]; exact inv
  · have hshr : b.allocs = [] ∧ b.frees = []
        ∧ ∀ i, n ≤ i → bitD b.bits i = false := by
      simp only [legalBitmapOp, Bool.or_eq_true, Bool.and_eq_true,
        decide_eq_true_eq, List.all_eq_true] at hleg
      rcases hleg with hle | ⟨⟨ha, hf⟩, hall⟩
      · omega
      · refine ⟨ha, hf, fun i hni => ?_⟩
        by_cases hilt : i < b.bits.length
        · have hmem : b.bits[i] ∈ b.bits.drop n := by
            rw [List.mem_iff_getElem]
            refine ⟨i - n, by simp only [List.length_drop]; omega, ?_⟩
            rw [List.getElem_drop]
            congr 1
            omega
          have hb := hall _ hmem
          unfold bitD
          rw [List.getD_eq_getElem?_getD, List.getElem?_eq_getElem hilt]
          simpa using hb
        · exact bitD_ge_len (by omega)
    obtain ⟨ha, hf, htail⟩ := hshr
    rw [bitmap_resize_shrink hgt]
    refine ⟨?_, ?_, ?_, ?_, ?_, Or.inr hprev⟩
    · intro i
      rw [inv.undo i]
      show _ = (bitD (b.bits.take n) i && !(decide (i ∈ b.allocs)))
      rw [bitD_take, ha]
      by_cases hi : i < n
      · rw [if_pos hi]
      · rw [if_neg hi, htail i (by omega)]
    · intro k hk; rw [ha] at hk; cases hk
    · rw [ha]; exact List.nodup_nil
    · intro k hk; rw [hf] at hk; cases hk
    · show b.nfree - (b.ntotal - n) = countFalse (b.bits.take n)
      have hc := countFalse_drop_all_false
        (show n ≤ b.bits.length by
          have := hgt; simp only [Bitmap.ntotal] at this; omega) htail
      have := inv.nfree_eq
      simp only [Bitmap.ntotal] at *
      omega

theorem bitmapTxnInv_step {b0 b : Bitmap} (hpos : 0 < b0.ntotal)
    (inv : BitmapTxnInv b0 b) {op : BitmapOp}
    (hleg : legalBitmapOp b op = true) :
    BitmapTxnInv b0 (applyBitmapOp b op) := by
  match op with
  | .alloc ok => exact bitmapTxnInv_alloc inv ok
  | .free no => exact bitmapTxnInv_free inv hleg
  | .resize n => exact bitmapTxnInv_resize hpos inv hleg

theorem bitmapTxnInv_run {b0 : Bitmap} (hpos : 0 < b0.ntotal)
    {b : Bitmap} (inv : BitmapTxnInv b0 b) (ops : List BitmapOp)
    (hleg : legalBitmapOps b ops = true) :
    BitmapTxnInv b0 (applyBitmapOps b ops) := by
  induction ops generalizing b with
  | nil => exact inv
  | cons op ops ih =>
    simp only [legalBitmapOps, Bool.and_eq_true] at hleg
    exact ih (bitmapTxnInv_step hpos inv hleg.1) hleg.2

/-- Unfolding of `bitmap_abort` into explicit record form. -/
theorem bitmap_abort_eq (b : Bitmap) :
    bitmap_abort b =
      (let bc := b.allocs.foldl bitmap_clear b
       let b2 : Bitmap := ⟨bc.bits, bc.nfree, [], [], bc.prev_ntotal⟩
       let b3 := if bc.prev_ntotal ≠ 0 ∧ bc.bits.length ≠ bc.prev_ntotal
                 then bitmap_resize b2 bc.prev_ntotal else b2
       ⟨b3.bits, b3.nfree, b3.allocs, b3.frees, 0⟩) := rfl

/-- Abort restores the pre-transaction bitmap exactly: bit array, total,
free count, staged lists, and the resize memo. -/
theorem bitmap_abort_restores {b0 b : Bitmap} (hpos : 0 < b0.ntotal)
    (hA : b0.allocs = []) (hF : b0.frees = []) (hP : b0.prev_ntotal = 0)
    (hN : b0.nfree = countFalse b0.bits)
    (inv : BitmapTxnInv b0 b) :
    bitmap_abort b = b0 := by
  have hbitsc : ∀ i, bitD (b.allocs.foldl bitmap_clear b).bits i
      = bitD b0.bits i := fun i => by
    rw [foldl_clear_bits, inv.undo i]
  have hlenc : (b.allocs.foldl bitmap_clear b).bits.length = b.bits.length :=
    foldl_clear_len _ _
  obtain ⟨hca, hcf, hcp⟩ := foldl_clear_fields b.allocs b
  have hnfc : (b.allocs.foldl bitmap_clear b).nfree
      = countFalse (b.allocs.foldl bitmap_clear b).bits :=
    foldl_clear_nfree _ _ inv.allocs_set inv.allocs_nodup inv.nfree_eq
  rw [bitmap_abort_eq]
  set bc := b.allocs.foldl bitmap_clear b with hbc
  simp only
  rcases inv.prev_rel with ⟨hp0, hnt⟩ | hpv
  · rw [if_neg (by rw [hcp, hp0]; simp)]
    have hbeq : bc.bits = b0.bits := by
      refine ext_bitD ?_ hbitsc
      rw [hlenc]
      exact hnt
    refine Bitmap.eq_of_fields hbeq ?_ hA.symm hF.symm hP.symm
    show bc.nfree = b0.nfree
    rw [hnfc, hbeq, ← hN]
  · have hpv0 : b.prev_ntotal ≠ 0 := by omega
    by_cases hsame : bc.bits.length = bc.prev_ntotal
    · rw [if_neg (by rw [hsame]; simp)]
      have hbeq : bc.bits = b0.bits := by
        refine ext_bitD ?_ hbitsc
        rw [hsame, hcp, hpv]
        rfl
      refine Bitmap.eq_of_fields hbeq ?_ hA.symm hF.symm hP.symm
      show bc.nfree = b0.nfree
      rw [hnfc, hbeq, ← hN]
    · rw [if_pos ⟨by rw [hcp]; exact hpv0, hsame⟩]
      have hcpv : bc.prev_ntotal = b0.ntotal := by rw [hcp, hpv]
      have hcpv' : bc.prev_ntotal = b0.bits.length := hcpv
      have hne : bc.bits.length ≠ b0.bits.length := fun hcon =>
        hsame (hcon.trans hcpv'.symm)
      rcases Nat.lt_or_ge bc.bits.length b0.bits.length with hlt | hge
      · have hgrow : (⟨bc.bits, bc.nfree, [], [], bc.prev_ntotal⟩ :
            Bitmap).ntotal < bc.prev_ntotal := by
          simp only [Bitmap.ntotal]
          rw [hcpv']
          exact hlt
        rw [bitmap_resize_grow hgrow]
        simp only
        have hbeq : bc.bits
            ++ List.replicate (bc.prev_ntotal - bc.bits.length) false
            = b0.bits := by
          refine ext_bitD ?_ ?_
          · simp only [List.length_append, List.length_replicate]
            rw [hcpv']
            omega
          · intro i
            rw [bitD_append]
            by_cases hi : i < bc.bits.length
            · rw [if_pos hi]; exact hbitsc i
            · rw [if_neg hi, bitD_replicate_false]
              rw [← hbitsc i, bitD_ge_len (by omega)]
        refine Bitmap.eq_of_fields hbeq ?_ hA.symm hF.symm hP.symm
        show bc.nfree + (bc.prev_ntotal - (⟨bc.bits, bc.nfree, [], [],
          bc.prev_ntotal⟩ : Bitmap).ntotal) = b0.nfree
        simp only [Bitmap.ntotal]
        rw [hnfc, hN, ← hbeq, countFalse_append, countFalse_replicate_false]
      · have hgt : bc.prev_ntotal
            < (⟨bc.bits, bc.nfree, [], [], bc.prev_ntotal⟩ : Bitmap).ntotal := by
          simp only [Bitmap.ntotal]
          rw [hcpv']
          omega
        rw [bitmap_resize_shrink hgt]
        simp only
        have htail : ∀ i, bc.prev_ntotal ≤ i → bitD bc.bits i = false := by
          intro i hi
          rw [hbitsc i]
          exact bitD_ge_len (hcpv' ▸ hi)
        have hbeq : bc.bits.take bc.prev_ntotal = b0.bits := by
          refine ext_bitD ?_ ?_
          · rw [List.length_take, hcpv']
            omega
          · intro i
            rw [bitD_take]
            by_cases hi : i < bc.prev_ntotal
            · rw [if_pos hi]; exact hbitsc i
            · rw [if_neg hi, ← hbitsc i, htail i (by omega)]
        refine Bitmap.eq_of_fields hbeq ?_ hA.symm hF.symm hP.symm
        show bc.nfree - ((⟨bc.bits, bc.nfree, [], [],
          bc.prev_ntotal⟩ : Bitmap).ntotal - bc.prev_ntotal) = b0.nfree
        simp only [Bitmap.ntotal]
        have hc := countFalse_drop_all_false
          (show bc.prev_ntotal ≤ bc.bits.length by rw [hcpv]; omega) htail
        rw [hbeq] at hc
        rw [hnfc] at *
        omega

/-- Commit clears exactly the staged-freed bits (the staged allocs are
discarded with their bits left set). -/
theorem bitmap_commit_bits (b : Bitmap) (i : Nat) :
    bitD (bitmap_commit b).bits i
      = (bitD b.bits i && !(decide (i ∈ b.frees))) := by
  show bitD ((b.frees.foldl bitmap_clear ⟨b.bits, b.nfree, [], b.frees,
    b.prev_ntotal⟩).bits) i = _
  rw [foldl_clear_bits]

/-- C7: starting from a bitmap with empty staged lists, for every legal
sequence of alloc, free, and resize calls: `bitmap_abort` restores the
bitmap — bit array, total count, free count, staged lists, resize memo —
to exactly its pre-transaction value (staged allocs are cleared, staged
frees discarded leaving their bits set, a resize undone), while
`bitmap_commit` leaves a bit set iff it was set in the working bitmap and
not staged free; in particular every staged-allocated index that was not
subsequently staged free remains set after commit. -/
theorem C7_bitmap_txn (b0 : Bitmap) (ops : List BitmapOp)
    (hA : b0.allocs = []) (hF : b0.frees = []) (hP : b0.prev_ntotal = 0)
    (hN : b0.nfree = countFalse b0.bits) (hpos : 0 < b0.ntotal)
    (hleg : legalBitmapOps b0 ops = true) :
    bitmap_abort (applyBitmapOps b0 ops) = b0
    ∧ (∀ i, bitD (bitmap_commit (applyBitmapOps b0 ops)).bits i
        = (bitD (applyBitmapOps b0 ops).bits i
            && !(decide (i ∈ (applyBitmapOps b0 ops).frees))))
    ∧ (∀ i ∈ (applyBitmapOps b0 ops).allocs,
        i ∉ (applyBitmapOps b0 ops).frees →
        bitD (bitmap_commit (applyBitmapOps b0 ops)).bits i = true) := by
  have inv := bitmapTxnInv_run hpos (bitmapTxnInv_init b0 hA hF hP hN)
    ops hleg
  refine ⟨bitmap_abort_restores hpos hA hF hP hN inv,
    fun i => bitmap_commit_bits _ i, ?_⟩
  intro i hi hni
  rw [bitmap_commit_bits, inv.allocs_set i hi]
  simp [hni]

/-- Witness for C7: a fresh 8-bit bitmap; the transaction allocates
index 0, grows to 16 bits, allocates index 1, and stages index 0 free;
abort restores the fresh 8-bit bitmap exactly. -/
theorem C7_witness :
    bitmap_abort (applyBitmapOps (bitmap_init 8)
        [BitmapOp.alloc true, BitmapOp.resize 16, BitmapOp.alloc true,
         BitmapOp.free 0]) = bitmap_init 8
    ∧ (∀ i, bitD (bitmap_commit (applyBitmapOps (bitmap_init 8)
        [BitmapOp.alloc true, BitmapOp.resize 16, BitmapOp.alloc true,
         BitmapOp.free 0])).bits i
        = (bitD (applyBitmapOps (bitmap_init 8)
            [BitmapOp.alloc true, BitmapOp.resize 16, BitmapOp.alloc true,
             BitmapOp.free 0]).bits i
            && !(decide (i ∈ (applyBitmapOps (bitmap_init 8)
            [BitmapOp.alloc true, BitmapOp.resize 16, BitmapOp.alloc true,
             BitmapOp.free 0]).frees))))
    ∧ (∀ i ∈ (applyBitmapOps (bitmap_init 8)
        [BitmapOp.alloc true, BitmapOp.resize 16, BitmapOp.alloc true,
         BitmapOp.free 0]).allocs,
        i ∉ (applyBitmapOps (bitmap_init 8)
        [BitmapOp.alloc true, BitmapOp.resize 16, BitmapOp.alloc true,
         BitmapOp.free 0]).frees →
        bitD (bitmap_commit (applyBitmapOps (bitmap_init 8)
        [BitmapOp.alloc true, BitmapOp.resize 16, BitmapOp.alloc true,
         BitmapOp.free 0])).bits i = true) :=
  C7_bitmap_txn (bitmap_init 8)
    [BitmapOp.alloc true, BitmapOp.resize 16, BitmapOp.alloc true,
     BitmapOp.free 0]
    (by decide) (by decide) (by decide) (by decide) (by decide) (by decide)

/-! ## Claim C9: directory link counts

A state machine over the directory graph, with each transition's effect
on `nlinks` and on the dirent set translated from the operation handlers
in bpfs.c (`create_file`, `callback_addrem_dirent`, `do_unlink`,
`do_unlink_inode`, `fuse_rmdir`, `fuse_rename`, `fuse_link`). Byte-level
dirent storage, timestamps, and the crawler are abstracted away: a
dirent is (parent ino, name, child ino), "." and ".." are not stored
(as on the BPFS medium). Operation arguments carry the inos that the
handlers resolve through `find_dirent`, constrained by the legality
predicate; legality also includes the checks the FUSE/VFS layer performs
before the handler runs (type match and non-identity on rename). -/

structure FsNode where
  isDir : Bool
  nlinks : Nat
deriving Repr, DecidableEq

structure Dirent where
  parent : Nat
  name : Nat
  child : Nat
deriving Repr, DecidableEq

structure FsTree where
  nodes : Nat → Option FsNode
  dirents : Finset Dirent

def isDirB (s : FsTree) (i : Nat) : Bool :=
  match s.nodes i with
  | some n => n.isDir
  | Option.none => false

def nlinksOf (s : FsTree) (i : Nat) : Nat :=
  match s.nodes i with
  | some n => n.nlinks
  | Option.none => 0

/-- Number of dirents referencing `i` as child. -/
def refCount (s : FsTree) (i : Nat) : Nat :=
  (s.dirents.filter (fun e => e.child = i)).card

/-- Number of subdirectory children of directory `d`. -/
def subdirCount (s : FsTree) (d : Nat) : Nat :=
  (s.dirents.filter (fun e => e.parent = d ∧ isDirB s e.child = true)).card

def setNode (s : FsTree) (i : Nat) (v : Option FsNode) : FsTree :=
  { s with nodes := fun j => if j = i then v else s.nodes j }

def adjustNlinks (s : FsTree) (i : Nat) (f : Nat → Nat) : FsTree :=
  { s with nodes := fun j =>
      if j = i then (s.nodes j).map fun n => { n with nlinks := f n.nlinks }
      else s.nodes j }

def setDirents (s : FsTree) (d : Finset Dirent) : FsTree :=
  { s with dirents := d }

inductive FsOp
  | mkdir (parent name newIno : Nat)
  | create (parent name newIno : Nat)
  | link (ino parent name : Nat)
  | unlink (parent name ino : Nat)
  | rmdir (parent name ino : Nat)
  | rename (srcParent srcName dstParent dstName ino : Nat)
      (target : Option Nat)
deriving Repr, DecidableEq

/-- Preconditions: what the handler itself checks (`find_dirent` hit or
miss, `callback_empty_dir`), what its asserts require, and what the
FUSE/VFS layer guarantees before dispatch (fresh ino from the allocator,
link only on non-directories, unlink never on a directory, rename type
match, rename never onto itself or its own parent). -/
def legalFsOp (s : FsTree) : FsOp → Bool
  | .mkdir p nm ι =>
      isDirB s p && decide (s.nodes ι = Option.none)
      && decide (∀ e ∈ s.dirents, ¬(e.parent = p ∧ e.name = nm))
  | .create p nm ι =>
      isDirB s p && decide (s.nodes ι = Option.none)
      && decide (∀ e ∈ s.dirents, ¬(e.parent = p ∧ e.name = nm))
  | .link ι p nm =>
      isDirB s p && decide (s.nodes ι ≠ Option.none) && !(isDirB s ι)
      && decide (∀ e ∈ s.dirents, ¬(e.parent = p ∧ e.name = nm))
  | .unlink p nm ι =>
      decide (⟨p, nm, ι⟩ ∈ s.dirents) && !(isDirB s ι)
  | .rmdir p nm ι =>
      decide (⟨p, nm, ι⟩ ∈ s.dirents) && isDirB s ι
      && decide (∀ e ∈ s.dirents, e.parent ≠ ι)
  | .rename sp sn dp dn ι τopt =>
      decide (⟨sp, sn, ι⟩ ∈ s.dirents)
      && decide (¬(sp = dp ∧ sn = dn))
      && decide (ι ≠ sp) && decide (ι ≠ dp)
      && isDirB s dp
      && match τopt with
         | Option.none =>
             decide (∀ e ∈ s.dirents, ¬(e.parent = dp ∧ e.name = dn))
         | some τ =>
             decide (⟨dp, dn, τ⟩ ∈ s.dirents)
             && decide (isDirB s τ = isDirB s ι)
             && decide (τ ≠ ι) && decide (τ ≠ sp) && decide (τ ≠ dp)
             && (!(isDirB s τ) || decide (∀ e ∈ s.dirents, e.parent ≠ τ))

/-- The state transition; each branch is annotated with the source
function whose effect it translates. -/
def applyFsOp (s : FsTree) : FsOp → FsTree
  | .mkdir p nm ι =>
      -- create_file: callback_init_inode sets nlinks=1, then
      -- `inode->nlinks++` for "..", so the new directory starts at 2;
      -- callback_addrem_dirent (cadd.dir, add) increments the parent.
      let s1 := setNode s ι (some ⟨true, 2⟩)
      let s2 := adjustNlinks s1 p (· + 1)
      setDirents s2 (insert ⟨p, nm, ι⟩ s2.dirents)
  | .create p nm ι =>
      -- create_file for regular files/symlinks: nlinks=1, parent count
      -- untouched (cadd.dir false).
      let s1 := setNode s ι (some ⟨false, 1⟩)
      setDirents s1 (insert ⟨p, nm, ι⟩ s1.dirents)
  | .link ι p nm =>
      -- fuse_link: callback_change_nlinks +1 on the existing inode.
      let s1 := adjustNlinks s ι (· + 1)
      setDirents s1 (insert ⟨p, nm, ι⟩ s1.dirents)
  | .unlink p nm ι =>
      -- do_unlink: clear the dirent; do_unlink_inode: nlinks==1 frees
      -- the inode, otherwise callback_change_nlinks -1.
      let s1 := setDirents s (s.dirents.erase ⟨p, nm, ι⟩)
      if nlinksOf s ι = 1 then setNode s1 ι Option.none
      else adjustNlinks s1 ι (· - 1)
  | .rmdir p nm ι =>
      -- fuse_rmdir → do_unlink: callback_addrem_dirent (cadd.dir, rem)
      -- decrements the parent; do_unlink_inode frees the directory.
      let s1 := setDirents s (s.dirents.erase ⟨p, nm, ι⟩)
      let s2 := adjustNlinks s1 p (· - 1)
      setNode s2 ι Option.none
  | .rename sp sn dp dn ι τopt =>
      -- fuse_rename: set dst dirent's ino to the child (overwriting any
      -- target), clear the src dirent; for a directory child decrement
      -- the src parent and increment the dst parent only when no target
      -- existed; finally do_unlink_inode on the overwritten target.
      let d0 := match τopt with
                | some τ => s.dirents.erase ⟨dp, dn, τ⟩
                | Option.none => s.dirents
      let s1 := setDirents s (insert ⟨dp, dn, ι⟩ (d0.erase ⟨sp, sn, ι⟩))
      let s2 := if isDirB s ι then
          let t1 := adjustNlinks s1 sp (· - 1)
          match τopt with
          | Option.none => adjustNlinks t1 dp (· + 1)
          | some _ => t1
        else s1
      match τopt with
      | Option.none => s2
      | some τ =>
          if isDirB s τ ∨ nlinksOf s τ = 1 then setNode s2 τ Option.none
          else adjustNlinks s2 τ (· - 1)

def applyFsOps (s : FsTree) : List FsOp → FsTree
  | [] => s
  | op :: ops => applyFsOps (applyFsOp s op) ops

def legalFsOps : FsTree → List FsOp → Bool
  | _, [] => true
  | s, op :: ops => legalFsOp s op && legalFsOps (applyFsOp s op) ops

/-- The state mkbpfs lays down: only the root directory (ino 1,
nlinks 2), no dirents. -/
def fs_init : FsTree :=
  { nodes := fun i => if i = BPFS_INO_ROOT then some ⟨true, 2⟩
             else Option.none,
    dirents := ∅ }

/-- The run for the counterexample: mkdir /a (ino 2), mkdir /b (ino 3),
mkdir /a/x (ino 4), mkdir /b/y (ino 5); then rename /a/x over the
existing empty directory /b/y. -/
def c9_pre : FsTree :=
  applyFsOps fs_init
    [FsOp.mkdir 1 10 2, FsOp.mkdir 1 11 3,
     FsOp.mkdir 2 12 4, FsOp.mkdir 3 13 5]

def c9_post : FsTree :=
  applyFsOp c9_pre (FsOp.rename 2 12 3 13 4 (some 5))

/-- C9 counterexample: renaming directory ino 4 from parent 2 into
parent 3 over the existing empty directory ino 5 leaves the destination
parent's nlinks at 3 — it is not incremented, contradicting the claim's
"rename of a directory between parents ... increments the destination
parent's nlinks" (the legality of every step is checked). -/
theorem C9_counterexample :
    legalFsOps fs_init
      [FsOp.mkdir 1 10 2, FsOp.mkdir 1 11 3, FsOp.mkdir 2 12 4,
       FsOp.mkdir 3 13 5] = true
    ∧ legalFsOp c9_pre (FsOp.rename 2 12 3 13 4 (some 5)) = true
    ∧ isDirB c9_pre 4 = true
    ∧ nlinksOf c9_pre 3 = 3
    ∧ nlinksOf c9_post 3 = 3 := by
  refine ⟨by decide, by decide, by decide, by decide, by decide⟩

/-! ### Observation helper lemmas for the C9 machine -/

theorem isDirB_setNode (s : FsTree) (i : Nat) (v : Option FsNode) (j : Nat) :
    isDirB (setNode s i v) j
      = if j = i then (match v with
          | some n => n.isDir
          | Option.none => false)
        else isDirB s j := by
  unfold isDirB setNode
  by_cases h : j = i <;> simp [h]

theorem isDirB_adjust (s : FsTree) (i : Nat) (f : Nat → Nat) (j : Nat) :
    isDirB (adjustNlinks s i f) j = isDirB s j := by
  unfold isDirB adjustNlinks
  by_cases h : j = i
  · simp only [h, if_pos rfl]
    cases s.nodes i <;> rfl
  · simp [h]

theorem nlinksOf_setNode (s : FsTree) (i : Nat) (v : Option FsNode) (j : Nat) :
    nlinksOf (setNode s i v) j
      = if j = i then (match v with
          | some n => n.nlinks
          | Option.none => 0)
        else nlinksOf s j := by
  unfold nlinksOf setNode
  by_cases h : j = i <;> simp [h]

theorem nlinksOf_adjust (s : FsTree) (i : Nat) (f : Nat → Nat) (j : Nat) :
    nlinksOf (adjustNlinks s i f) j
      = if j = i ∧ s.nodes i ≠ Option.none then f (nlinksOf s i)
        else nlinksOf s j := by
  unfold nlinksOf adjustNlinks
  by_cases h : j = i
  · subst h
    cases hn : s.nodes j <;> simp [hn]
  · simp [h]

theorem nodes_setNode (s : FsTree) (i : Nat) (v : Option FsNode) (j : Nat) :
    (setNode s i v).nodes j = if j = i then v else s.nodes j := rfl

theorem nodes_adjust (s : FsTree) (i : Nat) (f : Nat → Nat) (j : Nat) :
    (adjustNlinks s i f).nodes j
      = if j = i then (s.nodes j).map fun n => { n with nlinks := f n.nlinks }
        else s.nodes j := rfl

theorem card_filter_insert {e : Dirent} {d : Finset Dirent} (he : e ∉ d)
    (p : Dirent → Prop) [DecidablePred p] :
    (Finset.filter p (insert e d)).card
      = (Finset.filter p d).card + if p e then 1 else 0 := by
  rw [Finset.filter_insert]
  by_cases hp : p e
  · rw [if_pos hp, if_pos hp,
      Finset.card_insert_of_not_mem fun hc => he (Finset.mem_filter.mp hc).1]
  · rw [if_neg hp, if_neg hp]
    omega

theorem card_filter_erase {e : Dirent} {d : Finset Dirent} (he : e ∈ d)
    (p : Dirent → Prop) [DecidablePred p] :
    (Finset.filter p d).card
      = (Finset.filter p (d.erase e)).card + if p e then 1 else 0 := by
  rw [Finset.filter_erase]
  by_cases hp : p e
  · rw [if_pos hp,
      Finset.card_erase_of_mem (Finset.mem_filter.mpr ⟨he, hp⟩)]
    have : 0 < (Finset.filter p d).card :=
      Finset.card_pos.mpr ⟨e, Finset.mem_filter.mpr ⟨he, hp⟩⟩
    omega
  · rw [if_neg hp,
      Finset.erase_eq_of_not_mem fun hc => hp (Finset.mem_filter.mp hc).2]
    omega

/-- The link-count invariant bundle maintained by every legal operation. -/
structure FsInv (s : FsTree) : Prop where
  root_dir : isDirB s BPFS_INO_ROOT = true
  parent_is_dir : ∀ e ∈ s.dirents, isDirB s e.parent = true
  child_live : ∀ e ∈ s.dirents, s.nodes e.child ≠ Option.none
  root_unref : ∀ e ∈ s.dirents, e.child ≠ BPFS_INO_ROOT
  names_unique : ∀ e1 ∈ s.dirents, ∀ e2 ∈ s.dirents,
      e1.parent = e2.parent → e1.name = e2.name → e1 = e2
  dir_ref : ∀ i, isDirB s i = true → i ≠ BPFS_INO_ROOT → refCount s i = 1
  nondir_nlinks : ∀ i n, s.nodes i = some n → n.isDir = false →
      n.nlinks = refCount s i
  dir_nlinks : ∀ i n, s.nodes i = some n → n.isDir = true →
      n.nlinks = 2 + subdirCount s i

theorem fsInv_init : FsInv fs_init where
  root_dir := by decide
  parent_is_dir e he := by cases he
  child_live e he := by cases he
  root_unref e he := by cases he
  names_unique e1 he1 := by cases he1
  dir_ref i hdir hne := by
    have hni : fs_init.nodes i
        = if i = BPFS_INO_ROOT then some ⟨true, 2⟩ else Option.none := rfl
    unfold isDirB at hdir
    rw [hni, if_neg hne] at hdir
    simp at hdir
  nondir_nlinks i n hn hd := by
    have hni : fs_init.nodes i
        = if i = BPFS_INO_ROOT then some ⟨true, 2⟩ else Option.none := rfl
    rw [hni] at hn
    by_cases h : i = BPFS_INO_ROOT
    · rw [if_pos h] at hn
      injection hn with hn
      subst hn
      simp at hd
    · rw [if_neg h] at hn
      cases hn
  dir_nlinks i n hn hd := by
    have hni : fs_init.nodes i
        = if i = BPFS_INO_ROOT then some ⟨true, 2⟩ else Option.none := rfl
    rw [hni] at hn
    by_cases h : i = BPFS_INO_ROOT
    · rw [if_pos h] at hn
      injection hn with hn
      subst hn
      simp [subdirCount, fs_init]
    · rw [if_neg h] at hn
      cases hn

theorem refCount_zero_of_unref {s : FsTree} {i : Nat}
    (h : ∀ e ∈ s.dirents, e.child ≠ i) : refCount s i = 0 := by
  unfold refCount
  rw [Finset.card_eq_zero, Finset.filter_eq_empty_iff]
  intro e he
  simp [h e he]

theorem subdirCount_zero_of_no_parent {s : FsTree} {i : Nat}
    (h : ∀ e ∈ s.dirents, e.parent ≠ i) : subdirCount s i = 0 := by
  unfold subdirCount
  rw [Finset.card_eq_zero, Finset.filter_eq_empty_iff]
  intro e he
  simp [h e he]

theorem unref_of_none {s : FsTree} (inv : FsInv s) {i : Nat}
    (h : s.nodes i = Option.none) : ∀ e ∈ s.dirents, e.child ≠ i :=
  fun e he hc => inv.child_live e he (hc ▸ h)

theorem no_parent_of_none {s : FsTree} (inv : FsInv s) {i : Nat}
    (h : s.nodes i = Option.none) : ∀ e ∈ s.dirents, e.parent ≠ i := by
  intro e he hc
  have hpd := inv.parent_is_dir e he
  rw [hc] at hpd
  unfold isDirB at hpd
  rw [h] at hpd
  simp at hpd

theorem isDirB_ne_of_none {s : FsTree} {i p : Nat} (hd : isDirB s p = true)
    (h : s.nodes i = Option.none) : p ≠ i := by
  intro hc
  subst hc
  unfold isDirB at hd
  rw [h] at hd
  simp at hd

theorem live_of_isDirB {s : FsTree} {p : Nat} (hd : isDirB s p = true) :
    s.nodes p ≠ Option.none := by
  unfold isDirB at hd
  intro hc
  rw [hc] at hd
  simp at hd

theorem fsInv_mkdir {s : FsTree} (inv : FsInv s) {p nm ι : Nat}
    (hleg : legalFsOp s (FsOp.mkdir p nm ι) = true) :
    FsInv (applyFsOp s (FsOp.mkdir p nm ι)) := by
  simp only [legalFsOp, Bool.and_eq_true, decide_eq_true_eq] at hleg
  obtain ⟨⟨hpd, hfresh⟩, hname⟩ := hleg
  have hpι : p ≠ ι := isDirB_ne_of_none hpd hfresh
  have hrootι : (BPFS_INO_ROOT : Nat) ≠ ι :=
    isDirB_ne_of_none inv.root_dir hfresh
  have hunref : ∀ e ∈ s.dirents, e.child ≠ ι := unref_of_none inv hfresh
  have hnopar : ∀ e ∈ s.dirents, e.parent ≠ ι := no_parent_of_none inv hfresh
  have hmem : (⟨p, nm, ι⟩ : Dirent) ∉ s.dirents := fun hc =>
    hname _ hc ⟨rfl, rfl⟩
  set s' := applyFsOp s (FsOp.mkdir p nm ι) with hs'
  have hDs' : s'.dirents = insert ⟨p, nm, ι⟩ s.dirents := rfl
  have hNs' : ∀ j, s'.nodes j =
      if j = p then (s.nodes p).map (fun n => { n with nlinks := n.nlinks + 1 })
      else if j = ι then some ⟨true, 2⟩
      else s.nodes j := by
    intro j
    show (adjustNlinks (setNode s ι (some ⟨true, 2⟩)) p (· + 1)).nodes j = _
    rw [nodes_adjust]
    by_cases hjp : j = p
    · rw [if_pos hjp, if_pos hjp, nodes_setNode, if_neg (hjp ▸ hpι), hjp]
    · rw [if_neg hjp, if_neg hjp, nodes_setNode]
  have hdir' : ∀ j, isDirB s' j = if j = ι then true else isDirB s j := by
    intro j
    by_cases hjι : j = ι
    · subst hjι
      rw [if_pos rfl]
      unfold isDirB
      rw [hNs' j, if_neg (fun hc => hpι hc.symm), if_pos rfl]
    · rw [if_neg hjι]
      unfold isDirB
      rw [hNs' j]
      by_cases hjp : j = p
      · subst hjp
        rw [if_pos rfl]
        cases hn : s.nodes j with
        | none => exact absurd hn (live_of_isDirB hpd)
        | some m => simp
      · rw [if_neg hjp, if_neg hjι]
  have hdir_mono : ∀ j, isDirB s j = true → isDirB s' j = true := by
    intro j hj
    rw [hdir' j]
    by_cases hjι : j = ι <;> simp [hjι, hj]
  have hlive' : ∀ c, s.nodes c ≠ Option.none → s'.nodes c ≠ Option.none := by
    intro c hc
    rw [hNs' c]
    by_cases hcp : c = p
    · rw [if_pos hcp]
      subst hcp
      cases hn : s.nodes c
      · exact absurd hn hc
      · simp
    · rw [if_neg hcp]
      by_cases hcι : c = ι <;> simp [hcι, hc]
  have href' : ∀ j, refCount s' j = refCount s j + if ι = j then 1 else 0 := by
    intro j
    unfold refCount
    rw [hDs', card_filter_insert hmem]
  have hsub' : ∀ d, subdirCount s' d
      = subdirCount s d + if p = d then 1 else 0 := by
    intro d
    unfold subdirCount
    rw [hDs', card_filter_insert hmem]
    have hcong : Finset.filter
        (fun e => e.parent = d ∧ isDirB s' e.child = true) s.dirents
        = Finset.filter (fun e => e.parent = d ∧ isDirB s e.child = true)
            s.dirents := by
      apply Finset.filter_congr
      intro e he
      rw [hdir' e.child, if_neg (hunref e he)]
    rw [hcong]
    congr 1
    show (if (⟨p, nm, ι⟩ : Dirent).parent = d
        ∧ isDirB s' (⟨p, nm, ι⟩ : Dirent).child = true then 1 else 0) = _
    rw [hdir' ι, if_pos rfl]
    by_cases hpd' : p = d <;> simp [hpd']
  refine ⟨?_, ?_, ?_, ?_, ?_, ?_, ?_, ?_⟩
  · exact hdir_mono _ inv.root_dir
  · intro e he
    rw [hDs', Finset.mem_insert] at he
    rcases he with rfl | he
    · exact hdir_mono _ hpd
    · exact hdir_mono _ (inv.parent_is_dir e he)
  · intro e he
    rw [hDs', Finset.mem_insert] at he
    rcases he with rfl | he
    · rw [hNs']
      show (if ι = p then _ else _) ≠ _
      rw [if_neg (fun hc => hpι hc.symm), if_pos rfl]
      simp
    · exact hlive' _ (inv.child_live e he)
  · intro e he
    rw [hDs', Finset.mem_insert] at he
    rcases he with rfl | he
    · exact fun hc => hrootι hc.symm
    · exact inv.root_unref e he
  · intro e1 he1 e2 he2 hp hn
    rw [hDs', Finset.mem_insert] at he1 he2
    rcases he1 with rfl | he1 <;> rcases he2 with rfl | he2
    · rfl
    · exact absurd ⟨hp.symm, hn.symm⟩ (hname e2 he2)
    · exact absurd ⟨hp, hn⟩ (hname e1 he1)
    · exact inv.names_unique e1 he1 e2 he2 hp hn
  · intro j hj hjroot
    rw [hdir' j] at hj
    by_cases hjι : j = ι
    · subst hjι
      rw [href' j, if_pos rfl, refCount_zero_of_unref hunref]
    · rw [if_neg hjι] at hj
      rw [href' j, if_neg (fun hc => hjι hc.symm)]
      simpa using inv.dir_ref j hj hjroot
  · intro i n hn hnd
    rw [hNs' i] at hn
    by_cases hip : i = p
    · rw [if_pos hip] at hn
      cases hsn : s.nodes p with
      | none => rw [hsn] at hn; cases hn
      | some m =>
        rw [hsn] at hn
        simp only [Option.map_some'] at hn
        injection hn with hn
        subst hn
        have : isDirB s p = true := hpd
        unfold isDirB at this
        rw [hsn] at this
        simp only at this
        rw [this] at hnd
        cases hnd
    · rw [if_neg hip] at hn
      by_cases hiι : i = ι
      · rw [if_pos hiι] at hn
        injection hn with hn
        subst hn
        cases hnd
      · rw [if_neg hiι] at hn
        rw [href' i, if_neg (fun hc => hiι hc.symm)]
        simpa using inv.nondir_nlinks i n hn hnd
  · intro i n hn hnd
    rw [hNs' i] at hn
    by_cases hip : i = p
    · subst hip
      rw [if_pos rfl] at hn
      cases hsn : s.nodes i with
      | none => rw [hsn] at hn; cases hn
      | some m =>
        rw [hsn] at hn
        simp only [Option.map_some'] at hn
        injection hn with hn
        subst hn
        have hmd : m.isDir = true := hnd
        have hml := inv.dir_nlinks i m hsn hmd
        show m.nlinks + 1 = 2 + subdirCount s' i
        rw [hsub' i, if_pos rfl, hml]
        omega
    · rw [if_neg hip] at hn
      by_cases hiι : i = ι
      · rw [if_pos hiι] at hn
        injection hn with hn
        subst hn
        show 2 = 2 + subdirCount s' i
        rw [hsub' i, if_neg (hiι ▸ hpι), hiι,
          subdirCount_zero_of_no_parent hnopar]
      · rw [if_neg hiι] at hn
        rw [hsub' i, if_neg (fun hc => hip hc.symm)]
        simpa using inv.dir_nlinks i n hn hnd

theorem fsInv_create {s : FsTree} (inv : FsInv s) {p nm ι : Nat}
    (hleg : legalFsOp s (FsOp.create p nm ι) = true) :
    FsInv (applyFsOp s (FsOp.create p nm ι)) := by
  simp only [legalFsOp, Bool.and_eq_true, decide_eq_true_eq] at hleg
  obtain ⟨⟨hpd, hfresh⟩, hname⟩ := hleg
  have hpι : p ≠ ι := isDirB_ne_of_none hpd hfresh
  have hrootι : (BPFS_INO_ROOT : Nat) ≠ ι :=
    isDirB_ne_of_none inv.root_dir hfresh
  have hunref : ∀ e ∈ s.dirents, e.child ≠ ι := unref_of_none inv hfresh
  have hmem : (⟨p, nm, ι⟩ : Dirent) ∉ s.dirents := fun hc =>
    hname _ hc ⟨rfl, rfl⟩
  set s' := applyFsOp s (FsOp.create p nm ι) with hs'
  have hDs' : s'.dirents = insert ⟨p, nm, ι⟩ s.dirents := rfl
  have hNs' : ∀ j, s'.nodes j =
      if j = ι then some ⟨false, 1⟩ else s.nodes j := fun j => rfl
  have hdir' : ∀ j, isDirB s' j = if j = ι then false else isDirB s j := by
    intro j
    unfold isDirB
    rw [hNs' j]
    by_cases hjι : j = ι <;> simp [hjι]
  have hdir_mono : ∀ j, isDirB s j = true → isDirB s' j = true := by
    intro j hj
    rw [hdir' j]
    have : j ≠ ι := isDirB_ne_of_none hj hfresh
    simp [this, hj]
  have href' : ∀ j, refCount s' j = refCount s j + if ι = j then 1 else 0 := by
    intro j
    unfold refCount
    rw [hDs', card_filter_insert hmem]
  have hsub' : ∀ d, subdirCount s' d = subdirCount s d := by
    intro d
    unfold subdirCount
    rw [hDs', card_filter_insert hmem]
    have hcong : Finset.filter
        (fun e => e.parent = d ∧ isDirB s' e.child = true) s.dirents
        = Finset.filter (fun e => e.parent = d ∧ isDirB s e.child = true)
            s.dirents := by
      apply Finset.filter_congr
      intro e he
      rw [hdir' e.child, if_neg (hunref e he)]
    rw [hcong]
    have : ¬ ((⟨p, nm, ι⟩ : Dirent).parent = d
        ∧ isDirB s' (⟨p, nm, ι⟩ : Dirent).child = true) := by
      rintro ⟨-, hc⟩
      rw [hdir' ι, if_pos rfl] at hc
      cases hc
    rw [if_neg this]
    omega
  refine ⟨?_, ?_, ?_, ?_, ?_, ?_, ?_, ?_⟩
  · exact hdir_mono _ inv.root_dir
  · intro e he
    rw [hDs', Finset.mem_insert] at he
    rcases he with rfl | he
    · exact hdir_mono _ hpd
    · exact hdir_mono _ (inv.parent_is_dir e he)
  · intro e he
    rw [hDs', Finset.mem_insert] at he
    rcases he with rfl | he
    · rw [hNs']
      show (if ι = ι then _ else _) ≠ _
      rw [if_pos rfl]
      simp
    · rw [hNs']
      have : e.child ≠ ι := hunref e he
      rw [if_neg this]
      exact inv.child_live e he
  · intro e he
    rw [hDs', Finset.mem_insert] at he
    rcases he with rfl | he
    · exact fun hc => hrootι hc.symm
    · exact inv.root_unref e he
  · intro e1 he1 e2 he2 hp hn
    rw [hDs', Finset.mem_insert] at he1 he2
    rcases he1 with rfl | he1 <;> rcases he2 with rfl | he2
    · rfl
    · exact absurd ⟨hp.symm, hn.symm⟩ (hname e2 he2)
    · exact absurd ⟨hp, hn⟩ (hname e1 he1)
    · exact inv.names_unique e1 he1 e2 he2 hp hn
  · intro j hj hjroot
    rw [hdir' j] at hj
    by_cases hjι : j = ι
    · rw [if_pos hjι] at hj; cases hj
    · rw [if_neg hjι] at hj
      rw [href' j, if_neg (fun hc => hjι hc.symm)]
      simpa using inv.dir_ref j hj hjroot
  · intro i n hn hnd
    rw [hNs' i] at hn
    by_cases hiι : i = ι
    · rw [if_pos hiι] at hn
      injection hn with hn
      subst hn
      show 1 = refCount s' i
      rw [href' i, if_pos hiι.symm, hiι, refCount_zero_of_unref hunref]
    · rw [if_neg hiι] at hn
      rw [href' i, if_neg (fun hc => hiι hc.symm)]
      simpa using inv.nondir_nlinks i n hn hnd
  · intro i n hn hnd
    rw [hNs' i] at hn
    by_cases hiι : i = ι
    · rw [if_pos hiι] at hn
      injection hn with hn
      subst hn
      cases hnd
    · rw [if_neg hiι] at hn
      rw [hsub' i]
      exact inv.dir_nlinks i n hn hnd

theorem fsInv_link {s : FsTree} (inv : FsInv s) {ι p nm : Nat}
    (hleg : legalFsOp s (FsOp.link ι p nm) = true) :
    FsInv (applyFsOp s (FsOp.link ι p nm)) := by
  simp only [legalFsOp, Bool.and_eq_true, decide_eq_true_eq,
    Bool.not_eq_true'] at hleg
  obtain ⟨⟨⟨hpd, hlive⟩, hnd⟩, hname⟩ := hleg
  have hmem : (⟨p, nm, ι⟩ : Dirent) ∉ s.dirents := fun hc =>
    hname _ hc ⟨rfl, rfl⟩
  set s' := applyFsOp s (FsOp.link ι p nm) with hs'
  have hDs' : s'.dirents = insert ⟨p, nm, ι⟩ s.dirents := rfl
  have hNs' : ∀ j, s'.nodes j =
      if j = ι then (s.nodes ι).map (fun n => { n with nlinks := n.nlinks + 1 })
      else s.nodes j := by
    intro j
    show (adjustNlinks s ι (· + 1)).nodes j = _
    rw [nodes_adjust]
    by_cases hjι : j = ι
    · rw [if_pos hjι, if_pos hjι, hjι]
    · rw [if_neg hjι, if_neg hjι]
  have hdir' : ∀ j, isDirB s' j = isDirB s j := by
    intro j
    show isDirB (adjustNlinks s ι (· + 1)) j = _
    exact isDirB_adjust s ι _ j
  have hlive' : ∀ c, s.nodes c ≠ Option.none → s'.nodes c ≠ Option.none := by
    intro c hc
    rw [hNs' c]
    by_cases hcι : c = ι
    · rw [if_pos hcι]
      subst hcι
      cases hn : s.nodes c with
      | none => exact absurd hn hc
      | some m => simp
    · rw [if_neg hcι]; exact hc
  have href' : ∀ j, refCount s' j = refCount s j + if ι = j then 1 else 0 := by
    intro j
    unfold refCount
    rw [hDs', card_filter_insert hmem]
  have hsub' : ∀ d, subdirCount s' d = subdirCount s d := by
    intro d
    unfold subdirCount
    rw [hDs', card_filter_insert hmem]
    have hcong : Finset.filter
        (fun e => e.parent = d ∧ isDirB s' e.child = true) s.dirents
        = Finset.filter (fun e => e.parent = d ∧ isDirB s e.child = true)
            s.dirents := by
      apply Finset.filter_congr
      intro e he
      rw [hdir' e.child]
    rw [hcong]
    have : ¬ ((⟨p, nm, ι⟩ : Dirent).parent = d
        ∧ isDirB s' (⟨p, nm, ι⟩ : Dirent).child = true) := by
      rintro ⟨-, hc⟩
      rw [hdir' ι, hnd] at hc
      cases hc
    rw [if_neg this]
    omega
  have hrootι : ι ≠ BPFS_INO_ROOT := by
    intro hc
    rw [hc] at hnd
    rw [inv.root_dir] at hnd
    cases hnd
  refine ⟨?_, ?_, ?_, ?_, ?_, ?_, ?_, ?_⟩
  · rw [hdir' _]; exact inv.root_dir
  · intro e he
    rw [hDs', Finset.mem_insert] at he
    rw [hdir' _]
    rcases he with rfl | he
    · exact hpd
    · exact inv.parent_is_dir e he
  · intro e he
    rw [hDs', Finset.mem_insert] at he
    rcases he with rfl | he
    · exact hlive' _ hlive
    · exact hlive' _ (inv.child_live e he)
  · intro e he
    rw [hDs', Finset.mem_insert] at he
    rcases he with rfl | he
    · exact hrootι
    · exact inv.root_unref e he
  · intro e1 he1 e2 he2 hp hn
    rw [hDs', Finset.mem_insert] at he1 he2
    rcases he1 with rfl | he1 <;> rcases he2 with rfl | he2
    · rfl
    · exact absurd ⟨hp.symm, hn.symm⟩ (hname e2 he2)
    · exact absurd ⟨hp, hn⟩ (hname e1 he1)
    · exact inv.names_unique e1 he1 e2 he2 hp hn
  · intro j hj hjroot
    rw [hdir' j] at hj
    have hjι : ι ≠ j := by
      intro hc
      rw [hc] at hnd
      rw [hj] at hnd
      cases hnd
    rw [href' j, if_neg hjι]
    simpa using inv.dir_ref j hj hjroot
  · intro i n hn hnd'
    rw [hNs' i] at hn
    by_cases hiι : i = ι
    · subst hiι
      rw [if_pos rfl] at hn
      cases hsn : s.nodes i with
      | none => rw [hsn] at hn; cases hn
      | some m =>
        rw [hsn] at hn
        simp only [Option.map_some'] at hn
        injection hn with hn
        subst hn
        have hml := inv.nondir_nlinks i m hsn hnd'
        show m.nlinks + 1 = refCount s' i
        rw [href' i, if_pos rfl, hml]
    · rw [if_neg hiι] at hn
      rw [href' i, if_neg (fun hc => hiι hc.symm)]
      simpa using inv.nondir_nlinks i n hn hnd'
  · intro i n hn hnd'
    rw [hNs' i] at hn
    by_cases hiι : i = ι
    · subst hiι
      rw [if_pos rfl] at hn
      cases hsn : s.nodes i with
      | none => rw [hsn] at hn; cases hn
      | some m =>
        rw [hsn] at hn
        simp only [Option.map_some'] at hn
        injection hn with hn
        subst hn
        have : isDirB s i = false := hnd
        unfold isDirB at this
        rw [hsn] at this
        simp only at this
        rw [this] at hnd'
        cases hnd'
    · rw [if_neg hiι] at hn
      rw [hsub' i]
      exact inv.dir_nlinks i n hn hnd'

theorem unref_of_refCount_zero {s : FsTree} {i : Nat}
    (h : refCount s i = 0) : ∀ e ∈ s.dirents, e.child ≠ i := by
  intro e he hc
  unfold refCount at h
  rw [Finset.card_eq_zero, Finset.filter_eq_empty_iff] at h
  exact h he hc

theorem refCount_pos_of_mem {s : FsTree} {e : Dirent} (he : e ∈ s.dirents) :
    1 ≤ refCount s e.child := by
  unfold refCount
  exact Finset.card_pos.mpr ⟨e, Finset.mem_filter.mpr ⟨he, rfl⟩⟩

theorem fsInv_unlink {s : FsTree} (inv : FsInv s) {p nm ι : Nat}
    (hleg : legalFsOp s (FsOp.unlink p nm ι) = true) :
    FsInv (applyFsOp s (FsOp.unlink p nm ι)) := by
  simp only [legalFsOp, Bool.and_eq_true, decide_eq_true_eq,
    Bool.not_eq_true'] at hleg
  obtain ⟨he, hnd⟩ := hleg
  have hrefeq : ∀ j, refCount s j
      = refCount (setDirents s (s.dirents.erase ⟨p, nm, ι⟩)) j
        + if ι = j then 1 else 0 := by
    intro j
    unfold refCount
    exact card_filter_erase he _
  obtain ⟨nι, hnι⟩ : ∃ n, s.nodes ι = some n := by
    cases hn : s.nodes ι
    · exact absurd hn (inv.child_live _ he)
    · exact ⟨_, rfl⟩
  have hnιd : nι.isDir = false := by
    unfold isDirB at hnd
    rw [hnι] at hnd
    exact hnd
  have hrc : nι.nlinks = refCount s ι := inv.nondir_nlinks ι nι hnι hnιd
  have hrc1 : 1 ≤ refCount s ι := refCount_pos_of_mem he
  have hnl : nlinksOf s ι = nι.nlinks := by
    unfold nlinksOf
    rw [hnι]
  set s' := applyFsOp s (FsOp.unlink p nm ι) with hs'
  have hDs' : s'.dirents = s.dirents.erase ⟨p, nm, ι⟩ := by
    show (if nlinksOf s ι = 1 then _ else _ : FsTree).dirents = _
    by_cases h1 : nlinksOf s ι = 1 <;> simp [h1, setNode, adjustNlinks,
      setDirents]
  have hmemsub : ∀ e ∈ s'.dirents, e ∈ s.dirents := by
    intro e he'
    rw [hDs'] at he'
    exact Finset.mem_of_mem_erase he'
  by_cases h1 : nlinksOf s ι = 1
  · -- last link: the inode is freed
    have hrc1' : refCount s ι = 1 := by rw [← hrc, ← hnl]; exact h1
    have hrz : refCount (setDirents s (s.dirents.erase ⟨p, nm, ι⟩)) ι = 0 := by
      have := hrefeq ι
      rw [if_pos rfl] at this
      omega
    have hunref' : ∀ e ∈ s.dirents.erase ⟨p, nm, ι⟩, e.child ≠ ι := by
      have := unref_of_refCount_zero hrz
      intro e he'
      exact this e he'
    have hNs' : ∀ j, s'.nodes j = if j = ι then Option.none else s.nodes j := by
      intro j
      show (if nlinksOf s ι = 1 then _ else _ : FsTree).nodes j = _
      rw [if_pos h1]
      rfl
    have hdir' : ∀ j, isDirB s' j = isDirB s j := by
      intro j
      unfold isDirB
      rw [hNs' j]
      by_cases hjι : j = ι
      · subst hjι
        rw [if_pos rfl, hnι]
        simp [hnιd]
      · rw [if_neg hjι]
    have hsub' : ∀ d, subdirCount s' d = subdirCount s d := by
      intro d
      unfold subdirCount
      rw [hDs']
      have hcong : Finset.filter
          (fun e => e.parent = d ∧ isDirB s' e.child = true)
          (s.dirents.erase ⟨p, nm, ι⟩)
          = Finset.filter (fun e => e.parent = d ∧ isDirB s e.child = true)
              (s.dirents.erase ⟨p, nm, ι⟩) := by
        apply Finset.filter_congr
        intro e he'
        rw [hdir' e.child]
      rw [hcong]
      have := card_filter_erase he
        (fun e => e.parent = d ∧ isDirB s e.child = true)
      have hpe : ¬ ((⟨p, nm, ι⟩ : Dirent).parent = d
          ∧ isDirB s (⟨p, nm, ι⟩ : Dirent).child = true) := by
        rintro ⟨-, hc⟩
        rw [hnd] at hc
        cases hc
      rw [if_neg hpe] at this
      omega
    refine ⟨?_, ?_, ?_, ?_, ?_, ?_, ?_, ?_⟩
    · rw [hdir' _]; exact inv.root_dir
    · intro e he'
      rw [hdir' _]
      exact inv.parent_is_dir e (hmemsub e he')
    · intro e he'
      rw [hNs' _]
      have : e.child ≠ ι := by
        rw [hDs'] at he'
        exact hunref' e he'
      rw [if_neg this]
      exact inv.child_live e (hmemsub e he')
    · intro e he'
      exact inv.root_unref e (hmemsub e he')
    · intro e1 he1 e2 he2 hp hn
      exact inv.names_unique e1 (hmemsub e1 he1) e2 (hmemsub e2 he2) hp hn
    · intro j hj hjroot
      rw [hdir' j] at hj
      have hjι : ι ≠ j := by
        intro hc
        rw [hc] at hnd
        rw [hj] at hnd
        cases hnd
      have := hrefeq j
      rw [if_neg hjι] at this
      have hrc' := inv.dir_ref j hj hjroot
      show refCount s' j = 1
      have hds : refCount s' j
          = refCount (setDirents s (s.dirents.erase ⟨p, nm, ι⟩)) j := by
        unfold refCount
        rw [hDs']
        rfl
      omega
    · intro i n hn hnd'
      rw [hNs' i] at hn
      by_cases hiι : i = ι
      · rw [if_pos hiι] at hn; cases hn
      · rw [if_neg hiι] at hn
        have := hrefeq i
        rw [if_neg (fun hc => hiι hc.symm)] at this
        have hds : refCount s' i
            = refCount (setDirents s (s.dirents.erase ⟨p, nm, ι⟩)) i := by
          unfold refCount
          rw [hDs']
          rfl
        have := inv.nondir_nlinks i n hn hnd'
        omega
    · intro i n hn hnd'
      rw [hNs' i] at hn
      by_cases hiι : i = ι
      · rw [if_pos hiι] at hn; cases hn
      · rw [if_neg hiι] at hn
        rw [hsub' i]
        exact inv.dir_nlinks i n hn hnd'
  · -- other links remain: decrement
    have hrc2 : 2 ≤ refCount s ι := by
      rw [← hrc]
      rw [hnl] at h1
      omega
    have hNs' : ∀ j, s'.nodes j =
        if j = ι then (s.nodes ι).map
          (fun n => { n with nlinks := n.nlinks - 1 })
        else s.nodes j := by
      intro j
      show (if nlinksOf s ι = 1 then _ else _ : FsTree).nodes j = _
      rw [if_neg h1]
      show (adjustNlinks _ ι _).nodes j = _
      rw [nodes_adjust]
      by_cases hjι : j = ι
      · rw [if_pos hjι, if_pos hjι, hjι]
        rfl
      · rw [if_neg hjι, if_neg hjι]
        rfl
    have hdir' : ∀ j, isDirB s' j = isDirB s j := by
      intro j
      unfold isDirB
      rw [hNs' j]
      by_cases hjι : j = ι
      · subst hjι
        rw [if_pos rfl, hnι]
        simp [hnιd]
      · rw [if_neg hjι]
    have hsub' : ∀ d, subdirCount s' d = subdirCount s d := by
      intro d
      unfold subdirCount
      rw [hDs']
      have hcong : Finset.filter
          (fun e => e.parent = d ∧ isDirB s' e.child = true)
          (s.dirents.erase ⟨p, nm, ι⟩)
          = Finset.filter (fun e => e.parent = d ∧ isDirB s e.child = true)
              (s.dirents.erase ⟨p, nm, ι⟩) := by
        apply Finset.filter_congr
        intro e he'
        rw [hdir' e.child]
      rw [hcong]
      have := card_filter_erase he
        (fun e => e.parent = d ∧ isDirB s e.child = true)
      have hpe : ¬ ((⟨p, nm, ι⟩ : Dirent).parent = d
          ∧ isDirB s (⟨p, nm, ι⟩ : Dirent).child = true) := by
        rintro ⟨-, hc⟩
        rw [hnd] at hc
        cases hc
      rw [if_neg hpe] at this
      omega
    have hlive' : ∀ c, s.nodes c ≠ Option.none → s'.nodes c ≠ Option.none := by
      intro c hc
      rw [hNs' c]
      by_cases hcι : c = ι
      · rw [if_pos hcι, hnι]
        simp
      · rw [if_neg hcι]; exact hc
    refine ⟨?_, ?_, ?_, ?_, ?_, ?_, ?_, ?_⟩
    · rw [hdir' _]; exact inv.root_dir
    · intro e he'
      rw [hdir' _]
      exact inv.parent_is_dir e (hmemsub e he')
    · intro e he'
      exact hlive' _ (inv.child_live e (hmemsub e he'))
    · intro e he'
      exact inv.root_unref e (hmemsub e he')
    · intro e1 he1 e2 he2 hp hn
      exact inv.names_unique e1 (hmemsub e1 he1) e2 (hmemsub e2 he2) hp hn
    · intro j hj hjroot
      rw [hdir' j] at hj
      have hjι : ι ≠ j := by
        intro hc
        rw [hc] at hnd
        rw [hj] at hnd
        cases hnd
      have := hrefeq j
      rw [if_neg hjι] at this
      have hrc' := inv.dir_ref j hj hjroot
      have hds : refCount s' j
          = refCount (setDirents s (s.dirents.erase ⟨p, nm, ι⟩)) j := by
        unfold refCount
        rw [hDs']
        rfl
      omega
    · intro i n hn hnd'
      rw [hNs' i] at hn
      have hds : refCount s' i
          = refCount (setDirents s (s.dirents.erase ⟨p, nm, ι⟩)) i := by
        unfold refCount
        rw [hDs']
        rfl
      by_cases hiι : i = ι
      · subst hiι
        rw [if_pos rfl, hnι] at hn
        simp only [Option.map_some'] at hn
        injection hn with hn
        subst hn
        show nι.nlinks - 1 = refCount s' i
        have := hrefeq i
        rw [if_pos rfl] at this
        omega
      · rw [if_neg hiι] at hn
        have := hrefeq i
        rw [if_neg (fun hc => hiι hc.symm)] at this
        have := inv.nondir_nlinks i n hn hnd'
        omega
    · intro i n hn hnd'
      rw [hNs' i] at hn
      by_cases hiι : i = ι
      · subst hiι
        rw [if_pos rfl, hnι] at hn
        simp only [Option.map_some'] at hn
        injection hn with hn
        subst hn
        rw [hnιd] at hnd'
        cases hnd'
      · rw [if_neg hiι] at hn
        rw [hsub' i]
        exact inv.dir_nlinks i n hn hnd'

theorem fsInv_rmdir {s : FsTree} (inv : FsInv s) {p nm ι : Nat}
    (hleg : legalFsOp s (FsOp.rmdir p nm ι) = true) :
    FsInv (applyFsOp s (FsOp.rmdir p nm ι)) := by
  simp only [legalFsOp, Bool.and_eq_true, decide_eq_true_eq] at hleg
  obtain ⟨⟨he, hdι⟩, hempty⟩ := hleg
  have hιroot : ι ≠ BPFS_INO_ROOT := inv.root_unref _ he
  have hrc1 : refCount s ι = 1 := inv.dir_ref ι hdι hιroot
  have hpι : p ≠ ι := hempty _ he
  have hpd : isDirB s p = true := inv.parent_is_dir _ he
  have hrefeq : ∀ j, refCount s j
      = refCount (setDirents s (s.dirents.erase ⟨p, nm, ι⟩)) j
        + if ι = j then 1 else 0 := by
    intro j
    unfold refCount
    exact card_filter_erase he _
  have hrz : refCount (setDirents s (s.dirents.erase ⟨p, nm, ι⟩)) ι = 0 := by
    have := hrefeq ι
    rw [if_pos rfl] at this
    omega
  have hunref' : ∀ e ∈ s.dirents.erase ⟨p, nm, ι⟩, e.child ≠ ι :=
    fun e he' => unref_of_refCount_zero hrz e he'
  set s' := applyFsOp s (FsOp.rmdir p nm ι) with hs'
  have hDs' : s'.dirents = s.dirents.erase ⟨p, nm, ι⟩ := rfl
  have hmemsub : ∀ e ∈ s'.dirents, e ∈ s.dirents := by
    intro e he'
    rw [hDs'] at he'
    exact Finset.mem_of_mem_erase he'
  have hNs' : ∀ j, s'.nodes j =
      if j = ι then Option.none
      else if j = p then (s.nodes p).map
        (fun n => { n with nlinks := n.nlinks - 1 })
      else s.nodes j := by
    intro j
    show (setNode (adjustNlinks _ p _) ι Option.none).nodes j = _
    rw [nodes_setNode]
    by_cases hjι : j = ι
    · rw [if_pos hjι, if_pos hjι]
    · rw [if_neg hjι, if_neg hjι, nodes_adjust]
      by_cases hjp : j = p
      · rw [if_pos hjp, if_pos hjp, hjp]
        rfl
      · rw [if_neg hjp, if_neg hjp]
        rfl
  have hdir' : ∀ j, isDirB s' j = if j = ι then false else isDirB s j := by
    intro j
    unfold isDirB
    rw [hNs' j]
    by_cases hjι : j = ι
    · rw [if_pos hjι, if_pos hjι]
    · rw [if_neg hjι, if_neg hjι]
      by_cases hjp : j = p
      · subst hjp
        rw [if_pos rfl]
        cases hn : s.nodes j with
        | none => exact absurd hn (live_of_isDirB hpd)
        | some m => simp
      · rw [if_neg hjp]
  have hds : ∀ j, refCount s' j
      = refCount (setDirents s (s.dirents.erase ⟨p, nm, ι⟩)) j := by
    intro j
    unfold refCount
    rw [hDs']
    rfl
  have hsub' : ∀ d, subdirCount s d
      = subdirCount s' d + if p = d then 1 else 0 := by
    intro d
    have hcong : Finset.filter
        (fun e => e.parent = d ∧ isDirB s' e.child = true)
        (s.dirents.erase ⟨p, nm, ι⟩)
        = Finset.filter (fun e => e.parent = d ∧ isDirB s e.child = true)
            (s.dirents.erase ⟨p, nm, ι⟩) := by
      apply Finset.filter_congr
      intro e he'
      rw [hdir' e.child, if_neg (hunref' e he')]
    have hce := card_filter_erase he
      (fun e => e.parent = d ∧ isDirB s e.child = true)
    have hpe : ((⟨p, nm, ι⟩ : Dirent).parent = d
        ∧ isDirB s (⟨p, nm, ι⟩ : Dirent).child = true) ↔ p = d := by
      constructor
      · rintro ⟨h1, -⟩; exact h1
      · intro h1; exact ⟨h1, hdι⟩
    show subdirCount s d = (Finset.filter
        (fun e => e.parent = d ∧ isDirB s' e.child = true)
        s'.dirents).card + _
    rw [hDs', hcong]
    unfold subdirCount at hce ⊢
    by_cases hpd' : p = d
    · rw [if_pos (hpe.mpr hpd')] at hce
      rw [if_pos hpd']
      omega
    · rw [if_neg (fun hc => hpd' (hpe.mp hc))] at hce
      rw [if_neg hpd']
      omega
  refine ⟨?_, ?_, ?_, ?_, ?_, ?_, ?_, ?_⟩
  · rw [hdir' _, if_neg (fun hc => hιroot hc.symm)]
    exact inv.root_dir
  · intro e he'
    rw [hdir' _, if_neg (by
      rw [hDs'] at he'
      exact hempty e (Finset.mem_of_mem_erase he'))]
    exact inv.parent_is_dir e (hmemsub e he')
  · intro e he'
    rw [hNs' _]
    have hcι : e.child ≠ ι := by
      rw [hDs'] at he'
      exact hunref' e he'
    rw [if_neg hcι]
    by_cases hcp : e.child = p
    · rw [if_pos hcp]
      cases hn : s.nodes p with
      | none => exact absurd hn (live_of_isDirB hpd)
      | some m => simp
    · rw [if_neg hcp]
      exact inv.child_live e (hmemsub e he')
  · intro e he'
    exact inv.root_unref e (hmemsub e he')
  · intro e1 he1 e2 he2 hp hn
    exact inv.names_unique e1 (hmemsub e1 he1) e2 (hmemsub e2 he2) hp hn
  · intro j hj hjroot
    rw [hdir' j] at hj
    by_cases hjι : j = ι
    · rw [if_pos hjι] at hj; cases hj
    · rw [if_neg hjι] at hj
      have := hrefeq j
      rw [if_neg (fun hc => hjι hc.symm)] at this
      have := inv.dir_ref j hj hjroot
      rw [hds j]
      omega
  · intro i n hn hnd'
    rw [hNs' i] at hn
    by_cases hiι : i = ι
    · rw [if_pos hiι] at hn; cases hn
    · rw [if_neg hiι] at hn
      by_cases hip : i = p
      · subst hip
        rw [if_pos rfl] at hn
        cases hsn : s.nodes i with
        | none => rw [hsn] at hn; cases hn
        | some m =>
          rw [hsn] at hn
          simp only [Option.map_some'] at hn
          injection hn with hn
          subst hn
          have : isDirB s i = true := hpd
          unfold isDirB at this
          rw [hsn] at this
          simp only at this
          rw [this] at hnd'
          cases hnd'
      · rw [if_neg hip] at hn
        have := hrefeq i
        rw [if_neg (fun hc => hiι hc.symm)] at this
        have := inv.nondir_nlinks i n hn hnd'
        rw [hds i]
        omega
  · intro i n hn hnd'
    rw [hNs' i] at hn
    by_cases hiι : i = ι
    · rw [if_pos hiι] at hn; cases hn
    · rw [if_neg hiι] at hn
      by_cases hip : i = p
      · subst hip
        rw [if_pos rfl] at hn
        cases hsn : s.nodes i with
        | none => rw [hsn] at hn; cases hn
        | some m =>
          rw [hsn] at hn
          simp only [Option.map_some'] at hn
          injection hn with hn
          subst hn
          have hmd : m.isDir = true := hnd'
          have hml := inv.dir_nlinks i m hsn hmd
          have hsd := hsub' i
          rw [if_pos rfl] at hsd
          show m.nlinks - 1 = 2 + subdirCount s' i
          omega
      · rw [if_neg hip] at hn
        have hsd := hsub' i
        rw [if_neg (fun hc => hip hc.symm)] at hsd
        have := inv.dir_nlinks i n hn hnd'
        omega

theorem nodes_setDirents (s : FsTree) (d : Finset Dirent) (j : Nat) :
    (setDirents s d).nodes j = s.nodes j := rfl

theorem adjust_live {s : FsTree} {i : Nat} {f : Nat → Nat} {c : Nat}
    (h : s.nodes c ≠ Option.none) :
    (adjustNlinks s i f).nodes c ≠ Option.none := by
  rw [nodes_adjust]
  by_cases hc : c = i
  · rw [if_pos hc]
    cases hn : s.nodes c with
    | none => exact absurd hn h
    | some m => simp
  · rw [if_neg hc]; exact h

theorem fsInv_rename_none {s : FsTree} (inv : FsInv s) {sp sn dp dn ι : Nat}
    (hleg : legalFsOp s (FsOp.rename sp sn dp dn ι Option.none) = true) :
    FsInv (applyFsOp s (FsOp.rename sp sn dp dn ι Option.none)) := by
  simp only [legalFsOp, Bool.and_eq_true, decide_eq_true_eq] at hleg
  obtain ⟨⟨⟨⟨⟨hse, hid⟩, hιsp⟩, hιdp⟩, hdpd⟩, hnodst⟩ := hleg
  have hspd : isDirB s sp = true := inv.parent_is_dir _ hse
  have hιroot : ι ≠ BPFS_INO_ROOT := inv.root_unref _ hse
  have hιlive : s.nodes ι ≠ Option.none := inv.child_live _ hse
  have hne_mem : (⟨dp, dn, ι⟩ : Dirent) ∉ s.dirents := fun hc =>
    hnodst _ hc ⟨rfl, rfl⟩
  set s' := applyFsOp s (FsOp.rename sp sn dp dn ι Option.none) with hs'
  have hs'' : s' = if isDirB s ι then
      adjustNlinks (adjustNlinks
        (setDirents s (insert ⟨dp, dn, ι⟩ (s.dirents.erase ⟨sp, sn, ι⟩)))
        sp (· - 1)) dp (· + 1)
    else
      setDirents s (insert ⟨dp, dn, ι⟩ (s.dirents.erase ⟨sp, sn, ι⟩)) := by
    show (if isDirB s ι then _ else _ : FsTree) = _
    by_cases hb : isDirB s ι
    · rw [if_pos hb]
    · rw [if_neg hb]
  have hDs' : s'.dirents
      = insert ⟨dp, dn, ι⟩ (s.dirents.erase ⟨sp, sn, ι⟩) := by
    rw [hs'']
    by_cases hb : isDirB s ι
    · rw [if_pos hb]; rfl
    · rw [if_neg hb]; rfl
  have hcnt : ∀ (p : Dirent → Prop), ∀ [DecidablePred p],
      (Finset.filter p s'.dirents).card
        + (if p ⟨sp, sn, ι⟩ then 1 else 0)
      = (Finset.filter p s.dirents).card
        + (if p ⟨dp, dn, ι⟩ then 1 else 0) := by
    intro p hp
    rw [hDs',
      card_filter_insert (fun hc => hne_mem (Finset.mem_of_mem_erase hc)) p]
    have h2 := card_filter_erase hse p
    omega
  have href' : ∀ j, refCount s' j = refCount s j := by
    intro j
    have hc := hcnt (fun e => e.child = j)
    show (Finset.filter (fun e => e.child = j) s'.dirents).card
        = (Finset.filter (fun e => e.child = j) s.dirents).card
    by_cases hj : ι = j
    · rw [if_pos (show ((⟨sp, sn, ι⟩ : Dirent).child = j) from hj)] at hc
      omega
    · rw [if_neg (show ¬((⟨sp, sn, ι⟩ : Dirent).child = j) from hj)] at hc
      omega
  have hdir' : ∀ j, isDirB s' j = isDirB s j := by
    intro j
    rw [hs'']
    by_cases hb : isDirB s ι
    · rw [if_pos hb, isDirB_adjust, isDirB_adjust]
      rfl
    · rw [if_neg hb]
      rfl
  have hlive' : ∀ c, s.nodes c ≠ Option.none → s'.nodes c ≠ Option.none := by
    intro c hc
    rw [hs'']
    by_cases hb : isDirB s ι
    · rw [if_pos hb]
      exact adjust_live (adjust_live hc)
    · rw [if_neg hb]
      exact hc
  have hsub' : ∀ d, subdirCount s' d
        + (if sp = d ∧ isDirB s ι = true then 1 else 0)
      = subdirCount s d
        + (if dp = d ∧ isDirB s ι = true then 1 else 0) := by
    intro d
    have hc := hcnt (fun e => e.parent = d ∧ isDirB s e.child = true)
    have hcong : Finset.filter
        (fun e => e.parent = d ∧ isDirB s' e.child = true) s'.dirents
        = Finset.filter (fun e => e.parent = d ∧ isDirB s e.child = true)
            s'.dirents :=
      Finset.filter_congr (fun e he => by rw [hdir'])
    unfold subdirCount
    rw [hcong]
    by_cases h1 : sp = d <;> by_cases h2 : dp = d <;>
      by_cases hb : isDirB s ι <;>
      simp only [h1, h2, hb, true_and, false_and, and_true, and_false,
        if_true, if_false] at hc ⊢ <;>
      omega
  have hmemsub : ∀ e ∈ s'.dirents, e = ⟨dp, dn, ι⟩ ∨ e ∈ s.dirents := by
    intro e he'
    rw [hDs', Finset.mem_insert] at he'
    rcases he' with rfl | he'
    · exact Or.inl rfl
    · exact Or.inr (Finset.mem_of_mem_erase he')
  refine ⟨?_, ?_, ?_, ?_, ?_, ?_, ?_, ?_⟩
  · rw [hdir' _]; exact inv.root_dir
  · intro e he'
    rw [hdir' _]
    rcases hmemsub e he' with rfl | he''
    · exact hdpd
    · exact inv.parent_is_dir e he''
  · intro e he'
    rcases hmemsub e he' with rfl | he''
    · exact hlive' _ hιlive
    · exact hlive' _ (inv.child_live e he'')
  · intro e he'
    rcases hmemsub e he' with rfl | he''
    · exact hιroot
    · exact inv.root_unref e he''
  · intro e1 he1 e2 he2 hp hn
    rw [hDs', Finset.mem_insert] at he1 he2
    rcases he1 with rfl | he1 <;> rcases he2 with rfl | he2
    · rfl
    · exact absurd (hp ▸ hn ▸ ⟨rfl, rfl⟩)
        (hnodst e2 (Finset.mem_of_mem_erase he2))
    · exact absurd (hp ▸ hn ▸ ⟨rfl, rfl⟩)
        (hnodst e1 (Finset.mem_of_mem_erase he1))
    · exact inv.names_unique e1 (Finset.mem_of_mem_erase he1)
        e2 (Finset.mem_of_mem_erase he2) hp hn
  · intro j hj hjroot
    rw [hdir' j] at hj
    rw [href' j]
    exact inv.dir_ref j hj hjroot
  · intro i n hn hnd'
    rw [href' i]
    have hidir : isDirB s i = false := by
      rw [← hdir' i]
      unfold isDirB
      rw [hn]
      exact hnd'
    rw [hs''] at hn
    by_cases hb : isDirB s ι
    · rw [if_pos hb] at hn
      have hisp : i ≠ sp := by
        intro hc
        rw [hc] at hidir
        rw [hspd] at hidir
        cases hidir
      have hidp : i ≠ dp := by
        intro hc
        rw [hc] at hidir
        rw [hdpd] at hidir
        cases hidir
      rw [nodes_adjust, if_neg hidp, nodes_adjust, if_neg hisp] at hn
      exact inv.nondir_nlinks i n hn hnd'
    · rw [if_neg hb] at hn
      exact inv.nondir_nlinks i n hn hnd'
  · intro i n hn hnd'
    have hidir : isDirB s i = true := by
      rw [← hdir' i]
      unfold isDirB
      rw [hn]
      exact hnd'
    rw [hs''] at hn
    by_cases hb : isDirB s ι
    · rw [if_pos hb] at hn
      rw [nodes_adjust] at hn
      by_cases hidp : i = dp
      · rw [if_pos hidp, nodes_adjust] at hn
        by_cases hdpsp : dp = sp
        · rw [hidp, if_pos hdpsp, nodes_setDirents, hdpsp] at hn
          show _ = 2 + subdirCount s' i
          cases hsn : s.nodes sp with
          | none => rw [hsn] at hn; cases hn
          | some m =>
            rw [hsn] at hn
            simp only [Option.map_some'] at hn
            injection hn with hn
            subst hn
            have hmd : m.isDir = true := hnd'
            have hml := inv.dir_nlinks sp m hsn hmd
            have hsd := hsub' i
            rw [if_pos ⟨hdpsp.symm.trans hidp.symm, hb⟩,
              if_pos ⟨hidp.symm, hb⟩] at hsd
            have hsub1 : 1 ≤ subdirCount s sp := by
              unfold subdirCount
              refine Finset.card_pos.mpr ⟨⟨sp, sn, ι⟩,
                Finset.mem_filter.mpr ⟨hse, rfl, hb⟩⟩
            rw [hidp, hdpsp] at hsd ⊢
            show m.nlinks - 1 + 1 = 2 + subdirCount s' sp
            omega
        · rw [hidp, if_neg hdpsp, nodes_setDirents] at hn
          cases hsn : s.nodes dp with
          | none => rw [hsn] at hn; cases hn
          | some m =>
            rw [hsn] at hn
            simp only [Option.map_some'] at hn
            injection hn with hn
            subst hn
            have hmd : m.isDir = true := hnd'
            have hml := inv.dir_nlinks dp m hsn hmd
            have hsd := hsub' i
            rw [if_neg (fun hc => hdpsp (hidp.symm.trans hc.1.symm)),
              if_pos ⟨hidp.symm, hb⟩] at hsd
            show m.nlinks + 1 = 2 + subdirCount s' i
            rw [hidp] at hsd ⊢
            omega
      · rw [if_neg hidp, nodes_adjust] at hn
        by_cases hisp : i = sp
        · rw [hisp, if_pos rfl, nodes_setDirents] at hn
          cases hsn : s.nodes sp with
          | none => rw [hsn] at hn; cases hn
          | some m =>
            rw [hsn] at hn
            simp only [Option.map_some'] at hn
            injection hn with hn
            subst hn
            have hmd : m.isDir = true := hnd'
            have hml := inv.dir_nlinks sp m hsn hmd
            have hsd := hsub' i
            rw [if_pos ⟨hisp.symm, hb⟩,
              if_neg (fun hc => hidp hc.1.symm)] at hsd
            have hsub1 : 1 ≤ subdirCount s sp := by
              unfold subdirCount
              refine Finset.card_pos.mpr ⟨⟨sp, sn, ι⟩,
                Finset.mem_filter.mpr ⟨hse, rfl, hb⟩⟩
            show m.nlinks - 1 = 2 + subdirCount s' i
            rw [hisp] at hsd ⊢
            omega
        · rw [if_neg hisp] at hn
          have hsd := hsub' i
          rw [if_neg (fun hc => hisp hc.1.symm),
            if_neg (fun hc => hidp hc.1.symm)] at hsd
          have := inv.dir_nlinks i n hn hnd'
          omega
    · rw [if_neg hb] at hn
      have hsd := hsub' i
      rw [if_neg (fun hc => hb hc.2), if_neg (fun hc => hb hc.2)] at hsd
      have := inv.dir_nlinks i n hn hnd'
      omega

theorem fsInv_rename_some {s : FsTree} (inv : FsInv s) {sp sn dp dn ι τ : Nat}
    (hleg : legalFsOp s (FsOp.rename sp sn dp dn ι (some τ)) = true) :
    FsInv (applyFsOp s (FsOp.rename sp sn dp dn ι (some τ))) := by
  simp only [legalFsOp, Bool.and_eq_true, decide_eq_true_eq, Bool.or_eq_true,
    Bool.not_eq_true'] at hleg
  obtain ⟨⟨⟨⟨⟨hse, hid⟩, hιsp⟩, hιdp⟩, hdpd⟩,
    ⟨⟨⟨⟨⟨hde, htype⟩, hτι⟩, hτsp⟩, hτdp⟩, hτe⟩⟩ := hleg
  have hspd : isDirB s sp = true := inv.parent_is_dir _ hse
  have hιroot : ι ≠ BPFS_INO_ROOT := inv.root_unref _ hse
  have hτroot : τ ≠ BPFS_INO_ROOT := inv.root_unref _ hde
  have hιlive : s.nodes ι ≠ Option.none := inv.child_live _ hse
  have hτlive : s.nodes τ ≠ Option.none := inv.child_live _ hde
  have hpτ : ∀ e ∈ s.dirents, e.parent ≠ τ := by
    intro e he hc
    rcases hτe with hτf | hτe
    · have hp := inv.parent_is_dir e he
      rw [hc, hτf] at hp
      cases hp
    · exact hτe e he hc
  have hsede : (⟨sp, sn, ι⟩ : Dirent) ≠ ⟨dp, dn, τ⟩ := by
    intro hc
    exact hτι (congrArg Dirent.child hc).symm
  have hnotne : (⟨dp, dn, ι⟩ : Dirent) ∉ s.dirents := by
    intro hc
    exact hτι (congrArg Dirent.child (inv.names_unique _ hde _ hc rfl rfl))
  have hse' : (⟨sp, sn, ι⟩ : Dirent) ∈ s.dirents.erase ⟨dp, dn, τ⟩ :=
    Finset.mem_erase.mpr ⟨hsede, hse⟩
  have hne_notin : (⟨dp, dn, ι⟩ : Dirent)
      ∉ (s.dirents.erase ⟨dp, dn, τ⟩).erase ⟨sp, sn, ι⟩ := fun hc =>
    hnotne (Finset.mem_of_mem_erase (Finset.mem_of_mem_erase hc))
  set s2 : FsTree := if isDirB s ι = true then
      adjustNlinks (setDirents s (insert ⟨dp, dn, ι⟩
        ((s.dirents.erase ⟨dp, dn, τ⟩).erase ⟨sp, sn, ι⟩))) sp (· - 1)
    else setDirents s (insert ⟨dp, dn, ι⟩
        ((s.dirents.erase ⟨dp, dn, τ⟩).erase ⟨sp, sn, ι⟩)) with hs2
  set s' := applyFsOp s (FsOp.rename sp sn dp dn ι (some τ)) with hs'
  have hs'' : s' = if isDirB s τ = true ∨ nlinksOf s τ = 1
      then setNode s2 τ Option.none else adjustNlinks s2 τ (· - 1) := by
    show (if isDirB s τ = true ∨ nlinksOf s τ = 1 then _ else _ : FsTree) = _
    by_cases hk : isDirB s τ = true ∨ nlinksOf s τ = 1
    · rw [if_pos hk]
    · rw [if_neg hk]
  have hDs2 : s2.dirents = insert ⟨dp, dn, ι⟩
      ((s.dirents.erase ⟨dp, dn, τ⟩).erase ⟨sp, sn, ι⟩) := by
    rw [hs2]
    by_cases hb : isDirB s ι
    · rw [if_pos hb]; rfl
    · rw [if_neg hb]; rfl
  have hDs' : s'.dirents = insert ⟨dp, dn, ι⟩
      ((s.dirents.erase ⟨dp, dn, τ⟩).erase ⟨sp, sn, ι⟩) := by
    rw [hs'']
    by_cases hk : isDirB s τ = true ∨ nlinksOf s τ = 1
    · rw [if_pos hk]
      show s2.dirents = _
      exact hDs2
    · rw [if_neg hk]
      show s2.dirents = _
      exact hDs2
  have hcnt : ∀ (p : Dirent → Prop), ∀ [DecidablePred p],
      (Finset.filter p s'.dirents).card
        + (if p ⟨sp, sn, ι⟩ then 1 else 0) + (if p ⟨dp, dn, τ⟩ then 1 else 0)
      = (Finset.filter p s.dirents).card
        + (if p ⟨dp, dn, ι⟩ then 1 else 0) := by
    intro p hp
    rw [hDs', card_filter_insert hne_notin p]
    have h1 := card_filter_erase hse' p
    have h2 := card_filter_erase hde p
    omega
  have href' : ∀ j, refCount s' j + (if τ = j then 1 else 0)
      = refCount s j := by
    intro j
    have hc := hcnt (fun e => e.child = j)
    show (Finset.filter (fun e => e.child = j) s'.dirents).card + _
        = (Finset.filter (fun e => e.child = j) s.dirents).card
    by_cases hj : ι = j
    · rw [if_pos (show ((⟨sp, sn, ι⟩ : Dirent).child = j) from hj)] at hc
      by_cases hk : τ = j
      · rw [if_pos (show ((⟨dp, dn, τ⟩ : Dirent).child = j) from hk)] at hc
        rw [if_pos hk]
        omega
      · rw [if_neg (show ¬((⟨dp, dn, τ⟩ : Dirent).child = j) from hk)] at hc
        rw [if_neg hk]
        omega
    · rw [if_neg (show ¬((⟨sp, sn, ι⟩ : Dirent).child = j) from hj)] at hc
      by_cases hk : τ = j
      · rw [if_pos (show ((⟨dp, dn, τ⟩ : Dirent).child = j) from hk)] at hc
        rw [if_pos hk]
        omega
      · rw [if_neg (show ¬((⟨dp, dn, τ⟩ : Dirent).child = j) from hk)] at hc
        rw [if_neg hk]
        omega
  have hdirs2 : ∀ j, isDirB s2 j = isDirB s j := by
    intro j
    rw [hs2]
    by_cases hb : isDirB s ι
    · rw [if_pos hb, isDirB_adjust]
      rfl
    · rw [if_neg hb]
      rfl
  have hs2nodes : ∀ j, s2.nodes j =
      if j = sp ∧ isDirB s ι = true
      then (s.nodes j).map (fun n => { n with nlinks := n.nlinks - 1 })
      else s.nodes j := by
    intro j
    rw [hs2]
    by_cases hb : isDirB s ι
    · rw [if_pos hb, nodes_adjust]
      by_cases hj : j = sp
      · rw [if_pos hj, if_pos (⟨hj, hb⟩ : j = sp ∧ isDirB s ι = true),
          nodes_setDirents]
      · rw [if_neg hj,
          if_neg (fun hc : j = sp ∧ isDirB s ι = true => hj hc.1),
          nodes_setDirents]
    · rw [if_neg hb,
        if_neg (fun hc : j = sp ∧ isDirB s ι = true => hb hc.2),
        nodes_setDirents]
  have hdirτ' : isDirB s' τ = false := by
    rw [hs'']
    by_cases hk : isDirB s τ = true ∨ nlinksOf s τ = 1
    · rw [if_pos hk, isDirB_setNode, if_pos rfl]
    · rw [if_neg hk, isDirB_adjust, hdirs2]
      cases hτb : isDirB s τ
      · rfl
      · exact absurd (Or.inl hτb) hk
  have hdir' : ∀ j, j ≠ τ → isDirB s' j = isDirB s j := by
    intro j hj
    rw [hs'']
    by_cases hk : isDirB s τ = true ∨ nlinksOf s τ = 1
    · rw [if_pos hk, isDirB_setNode, if_neg hj, hdirs2]
    · rw [if_neg hk, isDirB_adjust, hdirs2]
  have hnodes' : ∀ j, j ≠ τ → s'.nodes j = s2.nodes j := by
    intro j hj
    rw [hs'']
    by_cases hk : isDirB s τ = true ∨ nlinksOf s τ = 1
    · rw [if_pos hk, nodes_setNode, if_neg hj]
    · rw [if_neg hk, nodes_adjust, if_neg hj]
  have hτrefκ : (isDirB s τ = true ∨ nlinksOf s τ = 1) →
      refCount s τ = 1 := by
    intro hk
    by_cases hτd : isDirB s τ = true
    · exact inv.dir_ref τ hτd hτroot
    · have hτ1 : nlinksOf s τ = 1 := by
        rcases hk with h | h
        · exact absurd h hτd
        · exact h
      cases hm : s.nodes τ with
      | none => exact absurd hm hτlive
      | some m =>
        have hτf : isDirB s τ = false := by
          cases h : isDirB s τ
          · rfl
          · exact absurd h hτd
        unfold isDirB at hτf
        rw [hm] at hτf
        have hmd : m.isDir = false := hτf
        have hml := inv.nondir_nlinks τ m hm hmd
        unfold nlinksOf at hτ1
        rw [hm] at hτ1
        have hm1 : m.nlinks = 1 := hτ1
        omega
  have hτgone : (isDirB s τ = true ∨ nlinksOf s τ = 1) →
      ∀ e ∈ s'.dirents, e.child ≠ τ := by
    intro hk e he hc
    have h1 : refCount s τ = 1 := hτrefκ hk
    rw [hDs'] at he
    rcases Finset.mem_insert.mp he with rfl | he2
    · exact hτι hc.symm
    · have heD : e ∈ s.dirents :=
        Finset.mem_of_mem_erase (Finset.mem_of_mem_erase he2)
      have hede : e ≠ ⟨dp, dn, τ⟩ :=
        (Finset.mem_erase.mp (Finset.mem_of_mem_erase he2)).1
      have h2 : 1 < (Finset.filter (fun x => x.child = τ) s.dirents).card :=
        Finset.one_lt_card_iff.mpr ⟨e, ⟨dp, dn, τ⟩,
          Finset.mem_filter.mpr ⟨heD, hc⟩,
          Finset.mem_filter.mpr ⟨hde, rfl⟩, hede⟩
      unfold refCount at h1
      omega
  have hchild_cong : ∀ e ∈ s'.dirents,
      isDirB s' e.child = isDirB s e.child := by
    intro e he
    by_cases hc : e.child = τ
    · by_cases hk : isDirB s τ = true ∨ nlinksOf s τ = 1
      · exact absurd hc (hτgone hk e he)
      · have hτf : isDirB s τ = false := by
          cases h : isDirB s τ
          · rfl
          · exact absurd (Or.inl h) hk
        rw [hc, hdirτ', hτf]
    · exact hdir' e.child hc
  have hsub' : ∀ d, subdirCount s' d
        + (if sp = d ∧ isDirB s ι = true then 1 else 0)
      = subdirCount s d := by
    intro d
    have hc := hcnt (fun e => e.parent = d ∧ isDirB s e.child = true)
    have hcong : Finset.filter
        (fun e => e.parent = d ∧ isDirB s' e.child = true) s'.dirents
        = Finset.filter (fun e => e.parent = d ∧ isDirB s e.child = true)
            s'.dirents :=
      Finset.filter_congr (fun e he => by rw [hchild_cong e he])
    unfold subdirCount
    rw [hcong]
    by_cases h1 : sp = d <;> by_cases h2 : dp = d <;>
      by_cases hb : isDirB s ι <;>
      simp only [h1, h2, hb, htype, true_and, false_and, and_true, and_false,
        if_true, if_false] at hc ⊢ <;>
      omega
  have hmemsub : ∀ e ∈ s'.dirents, e = ⟨dp, dn, ι⟩ ∨ e ∈ s.dirents := by
    intro e he'
    rw [hDs', Finset.mem_insert] at he'
    rcases he' with rfl | he'
    · exact Or.inl rfl
    · exact Or.inr (Finset.mem_of_mem_erase (Finset.mem_of_mem_erase he'))
  refine ⟨?_, ?_, ?_, ?_, ?_, ?_, ?_, ?_⟩
  · rw [hdir' BPFS_INO_ROOT (fun hc => hτroot hc.symm)]
    exact inv.root_dir
  · intro e he'
    rcases hmemsub e he' with rfl | he''
    · rw [hdir' dp (fun hc => hτdp hc.symm)]
      exact hdpd
    · rw [hdir' e.parent (hpτ e he'')]
      exact inv.parent_is_dir e he''
  · intro e he'
    by_cases hc : e.child = τ
    · by_cases hk : isDirB s τ = true ∨ nlinksOf s τ = 1
      · exact absurd hc (hτgone hk e he')
      · rw [hc, hs'', if_neg hk, nodes_adjust, if_pos rfl, hs2nodes,
          if_neg (fun hcc : τ = sp ∧ isDirB s ι = true => hτsp hcc.1)]
        cases hm : s.nodes τ with
        | none => exact absurd hm hτlive
        | some m => simp
    · rw [hnodes' e.child hc, hs2nodes]
      have hlive0 : s.nodes e.child ≠ Option.none := by
        rcases hmemsub e he' with rfl | he''
        · exact hιlive
        · exact inv.child_live e he''
      by_cases hcond : e.child = sp ∧ isDirB s ι = true
      · rw [if_pos hcond]
        cases hm : s.nodes e.child with
        | none => exact absurd hm hlive0
        | some m => simp
      · rw [if_neg hcond]
        exact hlive0
  · intro e he'
    rcases hmemsub e he' with rfl | he''
    · exact hιroot
    · exact inv.root_unref e he''
  · intro e1 he1 e2 he2 hp hn
    rw [hDs', Finset.mem_insert] at he1 he2
    rcases he1 with rfl | he1 <;> rcases he2 with rfl | he2
    · rfl
    · exfalso
      have he2D : e2 ∈ s.dirents :=
        Finset.mem_of_mem_erase (Finset.mem_of_mem_erase he2)
      have he2de : e2 ≠ ⟨dp, dn, τ⟩ :=
        (Finset.mem_erase.mp (Finset.mem_of_mem_erase he2)).1
      exact he2de (inv.names_unique e2 he2D _ hde hp.symm hn.symm)
    · exfalso
      have he1D : e1 ∈ s.dirents :=
        Finset.mem_of_mem_erase (Finset.mem_of_mem_erase he1)
      have he1de : e1 ≠ ⟨dp, dn, τ⟩ :=
        (Finset.mem_erase.mp (Finset.mem_of_mem_erase he1)).1
      exact he1de (inv.names_unique e1 he1D _ hde hp hn)
    · exact inv.names_unique e1
        (Finset.mem_of_mem_erase (Finset.mem_of_mem_erase he1)) e2
        (Finset.mem_of_mem_erase (Finset.mem_of_mem_erase he2)) hp hn
  · intro j hj hjroot
    have hjτ : j ≠ τ := by
      intro hc
      rw [hc, hdirτ'] at hj
      cases hj
    rw [hdir' j hjτ] at hj
    have hr := href' j
    rw [if_neg (fun hc => hjτ hc.symm)] at hr
    have := inv.dir_ref j hj hjroot
    omega
  · intro i n hn hnd'
    by_cases hiτ : i = τ
    · subst hiτ
      by_cases hk : isDirB s i = true ∨ nlinksOf s i = 1
      · rw [hs'', if_pos hk, nodes_setNode, if_pos rfl] at hn
        cases hn
      · rw [hs'', if_neg hk, nodes_adjust, if_pos rfl, hs2nodes,
          if_neg (fun hcc : i = sp ∧ isDirB s ι = true => hτsp hcc.1)] at hn
        cases hm : s.nodes i with
        | none => rw [hm] at hn; cases hn
        | some m =>
          rw [hm] at hn
          simp only [Option.map_some'] at hn
          injection hn with hn
          subst hn
          have hmd : m.isDir = false := hnd'
          have hml := inv.nondir_nlinks i m hm hmd
          have hr := href' i
          rw [if_pos rfl] at hr
          have hnl : nlinksOf s i = m.nlinks := by
            unfold nlinksOf
            rw [hm]
          have hk2 : ¬(nlinksOf s i = 1) := fun hc => hk (Or.inr hc)
          show m.nlinks - 1 = refCount s' i
          omega
    · rw [hnodes' i hiτ, hs2nodes] at hn
      by_cases hcond : i = sp ∧ isDirB s ι = true
      · exfalso
        rw [if_pos hcond] at hn
        cases hm : s.nodes i with
        | none => rw [hm] at hn; cases hn
        | some m =>
          rw [hm] at hn
          simp only [Option.map_some'] at hn
          injection hn with hn
          subst hn
          have hsd2 : isDirB s i = true := by
            rw [hcond.1]
            exact hspd
          unfold isDirB at hsd2
          rw [hm] at hsd2
          have h1 : m.isDir = true := hsd2
          have h2 : m.isDir = false := hnd'
          rw [h1] at h2
          cases h2
      · rw [if_neg hcond] at hn
        have hml := inv.nondir_nlinks i n hn hnd'
        have hr := href' i
        rw [if_neg (fun hc => hiτ hc.symm)] at hr
        omega
  · intro i n hn hnd'
    by_cases hiτ : i = τ
    · exfalso
      subst hiτ
      by_cases hk : isDirB s i = true ∨ nlinksOf s i = 1
      · rw [hs'', if_pos hk, nodes_setNode, if_pos rfl] at hn
        cases hn
      · have hτf : isDirB s i = false := by
          cases h : isDirB s i
          · rfl
          · exact absurd (Or.inl h) hk
        rw [hs'', if_neg hk, nodes_adjust, if_pos rfl, hs2nodes,
          if_neg (fun hcc : i = sp ∧ isDirB s ι = true => hτsp hcc.1)] at hn
        cases hm : s.nodes i with
        | none => rw [hm] at hn; cases hn
        | some m =>
          rw [hm] at hn
          simp only [Option.map_some'] at hn
          injection hn with hn
          subst hn
          have h1 : m.isDir = true := hnd'
          unfold isDirB at hτf
          rw [hm] at hτf
          have h2 : m.isDir = false := hτf
          rw [h1] at h2
          cases h2
    · rw [hnodes' i hiτ, hs2nodes] at hn
      by_cases hcond : i = sp ∧ isDirB s ι = true
      · rw [if_pos hcond] at hn
        cases hm : s.nodes i with
        | none => rw [hm] at hn; cases hn
        | some m =>
          rw [hm] at hn
          simp only [Option.map_some'] at hn
          injection hn with hn
          subst hn
          have hmd : m.isDir = true := hnd'
          have hml := inv.dir_nlinks i m hm hmd
          have hsd := hsub' i
          rw [if_pos ⟨hcond.1.symm, hcond.2⟩] at hsd
          show m.nlinks - 1 = 2 + subdirCount s' i
          omega
      · rw [if_neg hcond] at hn
        have hml := inv.dir_nlinks i n hn hnd'
        have hsd := hsub' i
        rw [if_neg (fun hc => hcond ⟨hc.1.symm, hc.2⟩)] at hsd
        omega

theorem fsInv_step {s : FsTree} (inv : FsInv s) {op : FsOp}
    (hleg : legalFsOp s op = true) : FsInv (applyFsOp s op) := by
  cases op with
  | mkdir p nm ι => exact fsInv_mkdir inv hleg
  | create p nm ι => exact fsInv_create inv hleg
  | link ι p nm => exact fsInv_link inv hleg
  | unlink p nm ι => exact fsInv_unlink inv hleg
  | rmdir p nm ι => exact fsInv_rmdir inv hleg
  | rename sp sn dp dn ι τopt =>
      cases τopt with
      | none => exact fsInv_rename_none inv hleg
      | some τ => exact fsInv_rename_some inv hleg

theorem fsInv_run : ∀ (ops : List FsOp) (s : FsTree), FsInv s →
    legalFsOps s ops = true → FsInv (applyFsOps s ops)
  | [], _, inv, _ => inv
  | op :: ops, s, inv, hleg => by
      simp only [legalFsOps, Bool.and_eq_true] at hleg
      exact fsInv_run ops _ (fsInv_step inv hleg.1) hleg.2

theorem nlinks_mkdir {s : FsTree} {p nm ι : Nat}
    (hleg : legalFsOp s (FsOp.mkdir p nm ι) = true) :
    nlinksOf (applyFsOp s (FsOp.mkdir p nm ι)) p = nlinksOf s p + 1 := by
  simp only [legalFsOp, Bool.and_eq_true, decide_eq_true_eq] at hleg
  obtain ⟨⟨hpd, hι⟩, hnm⟩ := hleg
  have hpι : p ≠ ι := isDirB_ne_of_none hpd hι
  have hlive : (setNode s ι (some ⟨true, 2⟩)).nodes p ≠ Option.none := by
    rw [nodes_setNode, if_neg hpι]
    exact live_of_isDirB hpd
  show nlinksOf (adjustNlinks (setNode s ι (some ⟨true, 2⟩)) p (· + 1)) p = _
  rw [nlinksOf_adjust, if_pos ⟨rfl, hlive⟩, nlinksOf_setNode, if_neg hpι]

theorem nlinks_rmdir {s : FsTree} (inv : FsInv s) {p nm ι : Nat}
    (hleg : legalFsOp s (FsOp.rmdir p nm ι) = true) :
    nlinksOf (applyFsOp s (FsOp.rmdir p nm ι)) p + 1 = nlinksOf s p := by
  simp only [legalFsOp, Bool.and_eq_true, decide_eq_true_eq] at hleg
  obtain ⟨⟨he, hιd⟩, hemp⟩ := hleg
  have hpd : isDirB s p = true := inv.parent_is_dir _ he
  have hpι : p ≠ ι := fun hc =>
    hemp _ he (show (⟨p, nm, ι⟩ : Dirent).parent = ι from hc)
  have hlive : (setDirents s (s.dirents.erase ⟨p, nm, ι⟩)).nodes p
      ≠ Option.none := live_of_isDirB hpd
  show nlinksOf (setNode (adjustNlinks
      (setDirents s (s.dirents.erase ⟨p, nm, ι⟩)) p (· - 1))
      ι Option.none) p + 1 = _
  rw [nlinksOf_setNode, if_neg hpι, nlinksOf_adjust, if_pos ⟨rfl, hlive⟩]
  have hnl : nlinksOf (setDirents s (s.dirents.erase ⟨p, nm, ι⟩)) p
      = nlinksOf s p := rfl
  rw [hnl]
  cases hm : s.nodes p with
  | none => exact absurd hm (live_of_isDirB hpd)
  | some m =>
    have hmd : m.isDir = true := by
      unfold isDirB at hpd
      rw [hm] at hpd
      exact hpd
    have hml := inv.dir_nlinks p m hm hmd
    have hnl2 : nlinksOf s p = m.nlinks := by
      unfold nlinksOf
      rw [hm]
    omega

theorem nlinks_rename_none {s : FsTree} (inv : FsInv s) {sp sn dp dn ι : Nat}
    (hspdp : sp ≠ dp) (hb : isDirB s ι = true)
    (hleg : legalFsOp s (FsOp.rename sp sn dp dn ι Option.none) = true) :
    nlinksOf (applyFsOp s (FsOp.rename sp sn dp dn ι Option.none)) sp + 1
        = nlinksOf s sp
    ∧ nlinksOf (applyFsOp s (FsOp.rename sp sn dp dn ι Option.none)) dp
        = nlinksOf s dp + 1 := by
  simp only [legalFsOp, Bool.and_eq_true, decide_eq_true_eq] at hleg
  obtain ⟨⟨⟨⟨⟨hse, hid⟩, hιsp⟩, hιdp⟩, hdpd⟩, hnodst⟩ := hleg
  have hspd : isDirB s sp = true := inv.parent_is_dir _ hse
  have happ : applyFsOp s (FsOp.rename sp sn dp dn ι Option.none)
      = adjustNlinks (adjustNlinks
          (setDirents s (insert ⟨dp, dn, ι⟩ (s.dirents.erase ⟨sp, sn, ι⟩)))
          sp (· - 1)) dp (· + 1) := by
    show (if isDirB s ι then _ else _ : FsTree) = _
    rw [if_pos hb]
  have hlivesp : (setDirents s
      (insert ⟨dp, dn, ι⟩ (s.dirents.erase ⟨sp, sn, ι⟩))).nodes sp
      ≠ Option.none := live_of_isDirB hspd
  have hnlsp : 1 ≤ nlinksOf s sp := by
    cases hm : s.nodes sp with
    | none => exact absurd hm (live_of_isDirB hspd)
    | some m =>
      have hmd : m.isDir = true := by
        unfold isDirB at hspd
        rw [hm] at hspd
        exact hspd
      have hml := inv.dir_nlinks sp m hm hmd
      have hnl2 : nlinksOf s sp = m.nlinks := by
        unfold nlinksOf
        rw [hm]
      omega
  constructor
  · rw [happ, nlinksOf_adjust,
      if_neg (fun hc : sp = dp ∧ _ => hspdp hc.1),
      nlinksOf_adjust, if_pos ⟨rfl, hlivesp⟩]
    have hnl : nlinksOf (setDirents s
        (insert ⟨dp, dn, ι⟩ (s.dirents.erase ⟨sp, sn, ι⟩))) sp
        = nlinksOf s sp := rfl
    rw [hnl]
    omega
  · have hlivedp : (adjustNlinks (setDirents s
        (insert ⟨dp, dn, ι⟩ (s.dirents.erase ⟨sp, sn, ι⟩))) sp (· - 1)).nodes
        dp ≠ Option.none := by
      rw [nodes_adjust, if_neg (fun hc => hspdp hc.symm), nodes_setDirents]
      exact live_of_isDirB hdpd
    rw [happ, nlinksOf_adjust, if_pos ⟨rfl, hlivedp⟩, nlinksOf_adjust,
      if_neg (fun hc : dp = sp ∧ _ => hspdp hc.1.symm)]
    exact rfl

theorem nlinks_rename_some {s : FsTree} {sp sn dp dn ι τ : Nat}
    (hspdp : sp ≠ dp)
    (hleg : legalFsOp s (FsOp.rename sp sn dp dn ι (some τ)) = true) :
    nlinksOf (applyFsOp s (FsOp.rename sp sn dp dn ι (some τ))) dp
        = nlinksOf s dp := by
  simp only [legalFsOp, Bool.and_eq_true, decide_eq_true_eq, Bool.or_eq_true,
    Bool.not_eq_true'] at hleg
  obtain ⟨⟨⟨⟨⟨hse, hid⟩, hιsp⟩, hιdp⟩, hdpd⟩,
    ⟨⟨⟨⟨⟨hde, htype⟩, hτι⟩, hτsp⟩, hτdp⟩, hτe⟩⟩ := hleg
  set s2 : FsTree := if isDirB s ι = true then
      adjustNlinks (setDirents s (insert ⟨dp, dn, ι⟩
        ((s.dirents.erase ⟨dp, dn, τ⟩).erase ⟨sp, sn, ι⟩))) sp (· - 1)
    else setDirents s (insert ⟨dp, dn, ι⟩
        ((s.dirents.erase ⟨dp, dn, τ⟩).erase ⟨sp, sn, ι⟩)) with hs2
  set s' := applyFsOp s (FsOp.rename sp sn dp dn ι (some τ)) with hs'
  have hs'' : s' = if isDirB s τ = true ∨ nlinksOf s τ = 1
      then setNode s2 τ Option.none else adjustNlinks s2 τ (· - 1) := by
    show (if isDirB s τ = true ∨ nlinksOf s τ = 1 then _ else _ : FsTree) = _
    by_cases hk : isDirB s τ = true ∨ nlinksOf s τ = 1
    · rw [if_pos hk]
    · rw [if_neg hk]
  have h2 : s2.nodes dp = s.nodes dp := by
    rw [hs2]
    by_cases hb : isDirB s ι
    · rw [if_pos hb, nodes_adjust, if_neg (fun hc => hspdp hc.symm),
        nodes_setDirents]
    · rw [if_neg hb, nodes_setDirents]
  have hnodes : s'.nodes dp = s.nodes dp := by
    rw [hs'']
    by_cases hk : isDirB s τ = true ∨ nlinksOf s τ = 1
    · rw [if_pos hk, nodes_setNode, if_neg (fun hc => hτdp hc.symm), h2]
    · rw [if_neg hk, nodes_adjust, if_neg (fun hc => hτdp hc.symm), h2]
  unfold nlinksOf
  rw [hnodes]

/-- C9 (amended): in any state reachable from the mkfs state by legal
committed operations, every directory inode's nlinks equals 2 plus its
number of subdirectory children; mkdir increments the parent's nlinks,
rmdir decrements it, and a rename of a directory between distinct
parents decrements the source parent's nlinks and increments the
destination parent's only when the destination name was previously
unbound — when the rename overwrites an existing (empty directory)
target, the destination parent's nlinks is unchanged. -/
theorem C9_amended :
    (∀ ops : List FsOp, legalFsOps fs_init ops = true →
        ∀ i n, (applyFsOps fs_init ops).nodes i = some n → n.isDir = true →
          n.nlinks = 2 + subdirCount (applyFsOps fs_init ops) i)
    ∧ (∀ (ops : List FsOp) (p nm ι : Nat), legalFsOps fs_init ops = true →
        legalFsOp (applyFsOps fs_init ops) (FsOp.mkdir p nm ι) = true →
        nlinksOf (applyFsOp (applyFsOps fs_init ops) (FsOp.mkdir p nm ι)) p
          = nlinksOf (applyFsOps fs_init ops) p + 1)
    ∧ (∀ (ops : List FsOp) (p nm ι : Nat), legalFsOps fs_init ops = true →
        legalFsOp (applyFsOps fs_init ops) (FsOp.rmdir p nm ι) = true →
        nlinksOf (applyFsOp (applyFsOps fs_init ops) (FsOp.rmdir p nm ι)) p
            + 1
          = nlinksOf (applyFsOps fs_init ops) p)
    ∧ (∀ (ops : List FsOp) (sp sn dp dn ι : Nat),
        legalFsOps fs_init ops = true → sp ≠ dp →
        isDirB (applyFsOps fs_init ops) ι = true →
        legalFsOp (applyFsOps fs_init ops)
          (FsOp.rename sp sn dp dn ι Option.none) = true →
        nlinksOf (applyFsOp (applyFsOps fs_init ops)
            (FsOp.rename sp sn dp dn ι Option.none)) sp + 1
          = nlinksOf (applyFsOps fs_init ops) sp
        ∧ nlinksOf (applyFsOp (applyFsOps fs_init ops)
            (FsOp.rename sp sn dp dn ι Option.none)) dp
          = nlinksOf (applyFsOps fs_init ops) dp + 1)
    ∧ (∀ (ops : List FsOp) (sp sn dp dn ι τ : Nat),
        legalFsOps fs_init ops = true → sp ≠ dp →
        isDirB (applyFsOps fs_init ops) ι = true →
        legalFsOp (applyFsOps fs_init ops)
          (FsOp.rename sp sn dp dn ι (some τ)) = true →
        nlinksOf (applyFsOp (applyFsOps fs_init ops)
            (FsOp.rename sp sn dp dn ι (some τ))) dp
          = nlinksOf (applyFsOps fs_init ops) dp) := by
  refine ⟨?_, ?_, ?_, ?_, ?_⟩
  · intro ops hleg i n hn hd
    exact (fsInv_run ops fs_init fsInv_init hleg).dir_nlinks i n hn hd
  · intro ops p nm ι hops hleg
    exact nlinks_mkdir hleg
  · intro ops p nm ι hops hleg
    exact nlinks_rmdir (fsInv_run ops fs_init fsInv_init hops) hleg
  · intro ops sp sn dp dn ι hops hspdp hb hleg
    exact nlinks_rename_none (fsInv_run ops fs_init fsInv_init hops)
      hspdp hb hleg
  · intro ops sp sn dp dn ι τ hops hspdp hb hleg
    exact nlinks_rename_some hspdp hleg

theorem C9_witness :
    nlinksOf (applyFsOp c9_pre (FsOp.mkdir 2 14 6)) 2
        = nlinksOf c9_pre 2 + 1
    ∧ nlinksOf c9_post 3 = nlinksOf c9_pre 3 := by
  constructor
  · exact C9_amended.2.1
      [FsOp.mkdir 1 10 2, FsOp.mkdir 1 11 3,
       FsOp.mkdir 2 12 4, FsOp.mkdir 3 13 5]
      2 14 6 (by decide) (by decide)
  · exact C9_amended.2.2.2.2
      [FsOp.mkdir 1 10 2, FsOp.mkdir 1 11 3,
       FsOp.mkdir 2 12 4, FsOp.mkdir 3 13 5]
      2 12 3 13 4 5 (by decide) (by decide) (by decide) (by decide)

/-! ## C1/C2: the block-tree crawler

The write path is `fuse_write` → `crawl_data` → `crawl_tree` on the
file's tree root with `COMMIT_ATOMIC` and `callback_write`; the read
path is `fuse_read` → `crawl_data` with `COMMIT_NONE` and
`callback_read`. The persistent region is a map from block numbers to
block contents; the block allocator is the staged `Bitmap` from above
(block numbers are bitmap index + 1, `BPFS_BLOCKNO_INVALID = 0`).
Block contents are total functions `Nat → Nat`; data blocks are indexed
by byte (0..4095) and indirect blocks by 8-byte blockno slot (0..511) —
every `indir->addr[i]` access in the source touches exactly the
8-byte-aligned bytes [8i, 8i+8), so the one `cow_block_hole` call made
on an indirect block is translated with its three byte arguments divided
by 8. Freshly allocated blocks keep whatever contents the map already
holds for that number: like the C code, allocation does not zero, and
theorems quantify over the store, so nothing proved can depend on such
contents. The tree root (`struct bpfs_tree_root`, the packed
`ha = {height, addr}` plus `nbytes`) is carried as a value; `container`
is the number of the block holding the root (`*prev_blockno` in
`crawl_tree`). Every function returns the store as of the moment it
returns, so the state a failed (-ENOSPC) crawl leaves behind is
observable, as it is in BPRAM. -/

structure BlockStore where
  blocks : Nat → Nat → Nat
  bm : Bitmap

def getBlock (st : BlockStore) (b : Nat) : Nat → Nat := st.blocks b

def setBlock (st : BlockStore) (b : Nat) (f : Nat → Nat) : BlockStore :=
  { st with blocks := fun b' => if b' = b then f else st.blocks b' }

/-- alloc_block on the store (the staged-entry malloc assumed to
succeed; its failure path is claim C10). Returns `BPFS_BLOCKNO_INVALID`
on bitmap exhaustion. -/
def st_alloc (st : BlockStore) : BlockStore × Nat :=
  let r := alloc_block st.bm true
  ({ st with bm := r.1 }, r.2)

def st_free (st : BlockStore) (b : Nat) : BlockStore :=
  { st with bm := free_block st.bm b }

def memcpy_into (f : Nat → Nat) (off : Nat) (src : Nat → Nat)
    (srcoff size : Nat) : Nat → Nat :=
  fun i => if off ≤ i ∧ i < off + size then src (srcoff + (i - off)) else f i

def memset_zero (f : Nat → Nat) (off size : Nat) : Nat → Nat :=
  fun i => if off ≤ i ∧ i < off + size then 0 else f i

def zero_block : Nat → Nat := fun _ => 0

/-- cow_block (SCSP build, so no freshly-alloced shortcut): allocate a
block, copy bytes [0, off) and — when off + size < valid — bytes
[off + size, valid) from the old block, stage the old block for
freeing. On exhaustion the store is returned unchanged with `false`. -/
def cow_block (st : BlockStore) (old off size valid : Nat) :
    BlockStore × Nat × Bool :=
  let r := st_alloc st
  if r.2 = BPFS_BLOCKNO_INVALID then (st, BPFS_BLOCKNO_INVALID, false)
  else
    let oldf := getBlock st old
    let newf : Nat → Nat := fun i =>
      if i < off then oldf i
      else if off + size ≤ i ∧ i < valid then oldf i
      else getBlock st r.2 i
    (st_free (setBlock r.1 r.2 newf) old, r.2, true)

/-- cow_block_hole: allocate a block and zero bytes [0, off) and
[off + size, valid); the rest keeps its (unconstrained) prior
contents. -/
def cow_block_hole (st : BlockStore) (off size valid : Nat) :
    BlockStore × Nat × Bool :=
  let r := st_alloc st
  if r.2 = BPFS_BLOCKNO_INVALID then (st, BPFS_BLOCKNO_INVALID, false)
  else
    let newf : Nat → Nat := fun i =>
      if i < off then 0
      else if off + size ≤ i ∧ i < valid then 0
      else getBlock st r.2 i
    (setBlock r.1 r.2 newf, r.2, true)

/-- cow_block_entire: allocate, copy the whole block, stage the old one
for freeing. -/
def cow_block_entire (st : BlockStore) (old : Nat) :
    BlockStore × Nat × Bool :=
  let r := st_alloc st
  if r.2 = BPFS_BLOCKNO_INVALID then (st, BPFS_BLOCKNO_INVALID, false)
  else (st_free (setBlock r.1 r.2 (getBlock st old)) old, r.2, true)

/-- struct bpfs_tree_root: the packed `ha` as separate height and addr
fields, plus nbytes. -/
structure TreeRoot where
  height : Nat
  addr : Nat
  nbytes : Nat
deriving Repr, DecidableEq

def tree_max_nblocks (height : Nat) : Nat :=
  BPFS_BLOCKNOS_PER_INDIR ^ height

/-- tree_height: the `while (nblocks > max_nblocks)` loop; `fuel`
bounds the iterations (the loop runs at most `nblocks` times since
`512 ^ h ≥ h + 1`). -/
def tree_height_go : Nat → Nat → Nat → Nat
  | 0, _, height => height
  | fuel + 1, nblocks, height =>
      if nblocks ≤ tree_max_nblocks height then height
      else tree_height_go fuel nblocks (height + 1)

def tree_height (nblocks : Nat) : Nat := tree_height_go nblocks nblocks 0

def NBLOCKS_FOR_NBYTES (nbytes : Nat) : Nat :=
  (nbytes + BPFS_BLOCK_SIZE - 1) / BPFS_BLOCK_SIZE

/-- The indirect-chain growth loop of tree_change_height (bpfs.c
lines 1016-1045): each step allocates an indirect block whose slot 0
points at the previous root and whose slots i ≥ 1 with
`child_max_nbytes * i < min nbytes max_nbytes` are marked sparse
(`BPFS_BLOCKNO_INVALID`) when the file extends past the old subtree
(the `for (; valid < next_valid; i++, valid += child_max_nbytes)`
loop, whose `valid` equals `child_max_nbytes * i`). -/
def tch_grow (nbytes : Nat) :
    Nat → BlockStore → Nat → Nat → BlockStore × Nat × Bool
  | 0, st, addr, _ => (st, addr, true)
  | steps + 1, st, addr, child_max_nbytes =>
      let max_nbytes := BPFS_BLOCKNOS_PER_INDIR * child_max_nbytes
      let r := st_alloc st
      if r.2 = BPFS_BLOCKNO_INVALID then (st, addr, false)
      else
        let content : Nat → Nat := fun i =>
          if i = 0 then addr
          else if child_max_nbytes < nbytes ∧ 1 ≤ i
                  ∧ child_max_nbytes * i < min nbytes max_nbytes then
            BPFS_BLOCKNO_INVALID
          else getBlock st r.2 i
        tch_grow nbytes steps (setBlock r.1 r.2 content) r.2 max_nbytes

/-- The shrink walk of tree_change_height: follow slot 0 down
`height_delta` levels (stopping at a hole). -/
def tch_shrink (st : BlockStore) : Nat → Nat → Nat
  | 0, addr => addr
  | delta + 1, addr =>
      if addr = BPFS_BLOCKNO_INVALID then addr
      else tch_shrink st delta (getBlock st addr 0)

/-- tree_change_height as crawl_tree invokes it: COMMIT_ATOMIC, so the
final ha_set updates the root in place (the COMMIT_COPY tail is not
taken). On allocation failure the already-built part of the chain stays
allocated and the root is untouched, as in the source. -/
def tree_change_height (st : BlockStore) (root : TreeRoot)
    (new_height : Nat) : BlockStore × TreeRoot × Bool :=
  if root.height = new_height then (st, root, true)
  else if root.height < new_height then
    if root.nbytes ≠ 0 ∧ root.addr ≠ BPFS_BLOCKNO_INVALID then
      match tch_grow root.nbytes (new_height - root.height) st root.addr
          (BPFS_BLOCK_SIZE * tree_max_nblocks root.height) with
      | (st1, _, false) => (st1, root, false)
      | (st1, new_root_addr, true) =>
          (st1, ⟨new_height, new_root_addr, root.nbytes⟩, true)
    else (st, ⟨new_height, BPFS_BLOCKNO_INVALID, root.nbytes⟩, true)
  else
    (st, ⟨new_height, tch_shrink st (root.height - new_height) root.addr,
      root.nbytes⟩, true)

/-- truncate_block_zero_leaf (COW_OPT build: the cow_block call is
compiled out, so the leaf is zeroed in place over [begin, end)). -/
def truncate_block_zero_leaf (st : BlockStore)
    (blockno begin_ end_ valid : Nat) : BlockStore × Nat × Bool :=
  (setBlock st blockno
    (memset_zero (getBlock st blockno) begin_ (end_ - begin_)),
   blockno, true)

/-- truncate_block_zero_indir (COW_OPT build: no cow of the indirect
block): clear slots beginno+1..endno-1, clear slot beginno when `begin`
is child-aligned, otherwise recurse into that child. -/
def truncate_block_zero_indir :
    Nat → BlockStore → Nat → Nat → Nat → Nat → Nat →
    BlockStore × Nat × Bool
  | 0, st, blockno, _, _, _, _ => (st, blockno, true)
  | height + 1, st, blockno, begin_, end_, valid, max_nblocks =>
    let child_max_nblocks := max_nblocks / BPFS_BLOCKNOS_PER_INDIR
    let child_max_nbytes := BPFS_BLOCK_SIZE * child_max_nblocks
    let validno := (valid + child_max_nbytes - 1) / child_max_nbytes
    let beginno := begin_ / child_max_nbytes
    let endno := (end_ + child_max_nbytes - 1) / child_max_nbytes
    let st1 := setBlock st blockno (fun i =>
        if beginno + 1 ≤ i ∧ i < endno then BPFS_BLOCKNO_INVALID
        else getBlock st blockno i)
    if begin_ % child_max_nbytes = 0 then
      (setBlock st1 blockno (fun i =>
        if i = beginno then BPFS_BLOCKNO_INVALID
        else getBlock st1 blockno i), blockno, true)
    else if getBlock st1 blockno beginno ≠ BPFS_BLOCKNO_INVALID then
      let child_begin := begin_ - beginno * child_max_nbytes
      let child_end := min (end_ - beginno * child_max_nbytes)
          child_max_nbytes
      let child_valid := if beginno + 1 = validno
          then min (valid - beginno * child_max_nbytes) child_max_nbytes
          else 0
      let child_blockno := getBlock st1 blockno beginno
      match (if height = 0 then
               truncate_block_zero_leaf st1 child_blockno child_begin
                 child_end child_valid
             else
               truncate_block_zero_indir height st1 child_blockno
                 child_begin child_end child_valid
                 child_max_nblocks) with
      | (st2, _, false) => (st2, blockno, false)
      | (st2, child', true) =>
          ((if getBlock st2 blockno beginno ≠ child' then
              setBlock st2 blockno (fun i =>
                if i = beginno then child' else getBlock st2 blockno i)
            else st2), blockno, true)
    else (st1, blockno, true)

/-- truncate_block_zero (COW_OPT build: no root-block cow; crawl_tree
passes begin, end and valid explicitly, never BPFS_EOF). -/
def truncate_block_zero (st : BlockStore) (root : TreeRoot)
    (begin_ end_ valid : Nat) : BlockStore × TreeRoot × Bool :=
  let max_nblocks := tree_max_nblocks root.height
  let max_nbytes := max_nblocks * BPFS_BLOCK_SIZE
  if max_nbytes ≤ root.nbytes then (st, root, true)
  else
    let end1 := min end_ (max_nblocks * BPFS_BLOCK_SIZE)
    if end1 < begin_ then (st, root, true)
    else if root.addr = BPFS_BLOCKNO_INVALID then (st, root, true)
    else if begin_ = 0 then
      (st, ⟨root.height, BPFS_BLOCKNO_INVALID, root.nbytes⟩, true)
    else
      match (if root.height = 0 then
               truncate_block_zero_leaf st root.addr begin_ end1 valid
             else
               truncate_block_zero_indir root.height st root.addr begin_
                 end1 valid max_nblocks) with
      | (st1, _, false) => (st1, root, false)
      | (st1, child', true) =>
          (st1, (if root.addr ≠ child'
                 then ⟨root.height, child', root.nbytes⟩ else root), true)

/-- The crawl_callback signature (bpfs.c:133-137): blockoff, the block
contents, off, size, valid, crawl_start, commit, and the in/out
`*blockno`; the result is the store, the user state, the (possibly
replaced) block number, the `r == 1` stop flag, and the success flag
(false = -ENOSPC, with the store as left at the failure point). -/
def CrawlCB (σ : Type) :=
  BlockStore → σ → Nat → (Nat → Nat) → Nat → Nat → Nat → Nat → Commit →
    Nat → BlockStore × σ × Nat × Bool × Bool

/-- crawl_leaf (bpfs.c:1080-1133) for crawls that carry a data callback
(the bcallback-only mode serves the read-only blockno walks, which the
read/write paths do not use). -/
def crawl_leaf {σ : Type} (cb : CrawlCB σ) (st : BlockStore) (user : σ)
    (prev_blockno blockoff off size valid crawl_start : Nat)
    (commit : Commit) : BlockStore × σ × Nat × Bool × Bool :=
  let is_hole := prev_blockno = BPFS_BLOCKNO_INVALID ∧ commit = Commit.none
  match (if commit ≠ Commit.none ∧ prev_blockno = BPFS_BLOCKNO_INVALID then
           cow_block_hole st off size valid
         else (st, prev_blockno, true)) with
  | (st1, _, false) => (st1, user, prev_blockno, false, false)
  | (st1, blockno, true) =>
      let child_commit := if blockno = prev_blockno then commit
                          else Commit.free
      let child_block := if is_hole then zero_block else getBlock st1 blockno
      cb st1 user blockoff child_block off size valid crawl_start
        child_commit blockno

/-- The `while (off < end)` loop of crawl_hole (bpfs.c:1136-1166); each
iteration covers one block and jumps to the next block boundary, so it
runs once per spanned block, which is the fuel passed by crawl_hole. -/
def crawl_hole_go {σ : Type} (cb : CrawlCB σ) (valid crawl_start : Nat) :
    Nat → BlockStore → σ → Nat → Nat → Nat → BlockStore × σ × Bool × Bool
  | 0, st, user, _, _, _ => (st, user, false, true)
  | n + 1, st, user, blockoff, off, end_ =>
      let off_block := off / BPFS_BLOCK_SIZE * BPFS_BLOCK_SIZE
      let child_off := off % BPFS_BLOCK_SIZE
      let child_size := min (end_ - off) BPFS_BLOCK_SIZE
      let child_valid := min (valid - off_block) BPFS_BLOCK_SIZE
      match cb st user blockoff zero_block child_off child_size child_valid
          crawl_start Commit.none BPFS_BLOCKNO_INVALID with
      | (st1, u1, _, _, false) => (st1, u1, false, false)
      | (st1, u1, _, stop, true) =>
          if stop then (st1, u1, true, true)
          else crawl_hole_go cb valid crawl_start n st1 u1 (blockoff + 1)
                 (off_block + BPFS_BLOCK_SIZE) end_

def crawl_hole {σ : Type} (cb : CrawlCB σ) (st : BlockStore) (user : σ)
    (blockoff off size valid crawl_start : Nat) :
    BlockStore × σ × Bool × Bool :=
  let end_ := off + size
  let n := if size = 0 then 0
           else (end_ - 1) / BPFS_BLOCK_SIZE - off / BPFS_BLOCK_SIZE + 1
  crawl_hole_go cb valid crawl_start n st user blockoff off end_

/-- The per-child loop of crawl_indir (bpfs.c:1220-1296). `child` is
the recursive descent (crawl_leaf at height 1). The loop state is the
store, the user state and the current indirect block number (COWed at
most once, since afterwards `prev_blockno != blockno`). -/
def crawl_indir_loop {σ : Type}
    (child : BlockStore → σ → Nat → Nat → Nat → Nat → Nat → Commit →
      BlockStore × σ × Nat × Bool × Bool)
    (prev_blockno blockoff off size valid : Nat)
    (commit child_commit : Commit)
    (child_max_nblocks child_max_nbytes firstno lastno validno : Nat)
    (in_hole : Bool) :
    Nat → Nat → BlockStore → σ → Nat → BlockStore × σ × Nat × Bool × Bool
  | 0, _, st, user, blockno => (st, user, blockno, false, true)
  | count + 1, no, st, user, blockno =>
      let child_off := if no = firstno then off % child_max_nbytes else 0
      let child_blockoff :=
        if no = firstno then blockoff
        else blockoff + (no - firstno) * child_max_nblocks
             - (off % child_max_nbytes) / BPFS_BLOCK_SIZE
      let child_size :=
        if no = lastno then off + size - (no * child_max_nbytes + child_off)
        else child_max_nbytes - child_off
      let child_valid :=
        if no < validno then
          (if no + 1 ≤ validno then child_max_nbytes
           else valid % child_max_nbytes)
        else 0
      let child_blockno :=
        if child_valid = 0 ∨ in_hole = true then BPFS_BLOCKNO_INVALID
        else getBlock st blockno no
      match child st user child_blockno child_blockoff child_off child_size
          child_valid child_commit with
      | (st1, u1, _, _, false) => (st1, u1, blockno, false, false)
      | (st1, u1, child_new, stop, true) =>
          match (if child_new ≠ child_blockno ∨ in_hole = true then
                  let single := firstno = lastno ∨ stop = true
                  if prev_blockno = blockno
                     ∧ ¬(COW_OPT = true
                         ∧ ((commit = Commit.atomic ∧ single)
                            ∨ child_valid = 0)) then
                    match cow_block_entire st1 blockno with
                    | (st2, _, false) => (st2, blockno, false)
                    | (st2, b2, true) =>
                        (setBlock st2 b2 (fun i =>
                          if i = no then child_new else getBlock st2 b2 i),
                         b2, true)
                  else
                    (setBlock st1 blockno (fun i =>
                      if i = no then child_new else getBlock st1 blockno i),
                     blockno, true)
                else (st1, blockno, true)) with
          | (st3, blockno3, false) => (st3, u1, blockno3, false, false)
          | (st3, blockno3, true) =>
              if stop then (st3, u1, blockno3, true, true)
              else crawl_indir_loop child prev_blockno blockoff off size
                     valid commit child_commit child_max_nblocks
                     child_max_nbytes firstno lastno validno in_hole
                     count (no + 1) st3 u1 blockno3

/-- crawl_indir (bpfs.c:1169-1308) for data callbacks; structural on
height (the source recurses with height - 1, reaching crawl_leaf at
height 1; it is never called with height 0). -/
def crawl_indir {σ : Type} (cb : CrawlCB σ) :
    Nat → BlockStore → σ → Nat → Nat → Nat → Nat → Nat → Nat →
    Commit → Nat → BlockStore × σ × Nat × Bool × Bool
  | 0, st, user, prev_blockno, _, _, _, _, _, _, _ =>
      (st, user, prev_blockno, false, true)
  | h0 + 1, st, user, prev_blockno, blockoff, off, size, valid,
      crawl_start, commit, max_nblocks =>
      let child_max_nblocks := max_nblocks / BPFS_BLOCKNOS_PER_INDIR
      let child_max_nbytes := child_max_nblocks * BPFS_BLOCK_SIZE
      let firstno := off / child_max_nbytes
      let lastno := (off + size - 1) / child_max_nbytes
      let validno := (valid + child_max_nbytes - 1) / child_max_nbytes
      let child_commit :=
        match commit with
        | Commit.atomic => if firstno = lastno then commit else Commit.copy
        | _ => commit
      let child : BlockStore → σ → Nat → Nat → Nat → Nat → Nat → Commit →
          BlockStore × σ × Nat × Bool × Bool :=
        fun st' u bno boff coff csize cvalid ccommit =>
          if h0 = 0 then
            crawl_leaf cb st' u bno boff coff csize cvalid crawl_start
              ccommit
          else
            crawl_indir cb h0 st' u bno boff coff csize cvalid
              crawl_start ccommit child_max_nblocks
      if prev_blockno = BPFS_BLOCKNO_INVALID ∧ commit = Commit.none then
        match crawl_hole cb st user blockoff off size valid crawl_start with
        | (st1, u1, _, false) => (st1, u1, prev_blockno, false, false)
        | (st1, u1, stop, true) => (st1, u1, prev_blockno, stop, true)
      else
        match (if prev_blockno = BPFS_BLOCKNO_INVALID then
                 -- indirect-block hole: byte arguments firstno*8,
                 -- (lastno+1-firstno)*8, validno*8 in the source, i.e.
                 -- these slot ranges
                 cow_block_hole st firstno (lastno + 1 - firstno) validno
               else (st, prev_blockno, true)) with
        | (st1, _, false) => (st1, user, prev_blockno, false, false)
        | (st1, blockno1, true) =>
            let in_hole := prev_blockno = BPFS_BLOCKNO_INVALID
            crawl_indir_loop child prev_blockno blockoff off size valid
              commit child_commit child_max_nblocks child_max_nbytes
              firstno lastno validno in_hole
              (lastno + 1 - firstno) firstno st1 user blockno1

/-- crawl_tree (bpfs.c:1366-1529) with explicit off and size (the
BPFS_EOF conveniences are unused by the read and write paths).
`container` is `*prev_blockno`, the number of the block holding this
tree root; with the commits the read and write paths produce
(COMMIT_NONE and COMMIT_ATOMIC), tree_change_height (invoked with
COMMIT_ATOMIC) and truncate_block_zero (COW_OPT) leave the container in
place, so `change_height_holes` stays false and the
`*prev_blockno != new_blockno` early-inplace test stays false. -/
def crawl_tree {σ : Type} (cb : CrawlCB σ) (st : BlockStore) (user : σ)
    (root : TreeRoot) (off size : Nat) (commit : Commit)
    (container : Nat) : BlockStore × σ × TreeRoot × Nat × Bool × Bool :=
  let end_ := off + size
  match (if commit ≠ Commit.none then
           let requested_height := tree_height (NBLOCKS_FOR_NBYTES end_)
           let new_height := max root.height requested_height
           let int_valid := min root.nbytes
             (BPFS_BLOCK_SIZE * tree_max_nblocks new_height)
           match (if root.height < new_height then
                    tree_change_height st root new_height
                  else (st, root, true)) with
           | (st1, root1, false) => (st1, root1, false)
           | (st1, root1, true) =>
               (if int_valid < off then
                  truncate_block_zero st1 root1 int_valid off int_valid
                else (st1, root1, true))
         else (st, root, true)) with
  | (st1, root1, false) => (st1, user, root1, container, false, false)
  | (st1, root1, true) =>
      let child_new0 := if root1.nbytes ≠ 0 then root1.addr
                        else BPFS_BLOCKNO_INVALID
      let max_nblocks := tree_max_nblocks root1.height
      let child_size := if commit ≠ Commit.none then size
                        else min size (max_nblocks * BPFS_BLOCK_SIZE - off)
      let child_valid := min root1.nbytes (max_nblocks * BPFS_BLOCK_SIZE)
      let child_commit :=
        match commit with
        | Commit.atomic =>
            if off < root1.nbytes ∧ root1.nbytes < end_ then Commit.copy
            else commit
        | _ => commit
      match (if root1.height = 0 then
               (if child_size ≠ 0 then
                  crawl_leaf cb st1 user child_new0 0 off child_size
                    child_valid off child_commit
                else (st1, user, child_new0, false, true))
             else
               crawl_indir cb root1.height st1 user child_new0
                 (off / BPFS_BLOCK_SIZE) off child_size child_valid off
                 child_commit max_nblocks) with
      | (st2, u2, _, _, false) => (st2, u2, root1, container, false, false)
      | (st2, u2, child_new, stop, true) =>
          let change_addr := root1.addr ≠ child_new
          let change_size := root1.nbytes < end_
          if commit = Commit.none then
            if stop then (st2, u2, root1, container, true, true)
            else
              match crawl_hole cb st2 u2
                  ((off + child_size) / BPFS_BLOCK_SIZE) child_size
                  (size - child_size) root1.nbytes off with
              | (st3, u3, _, false) =>
                  (st3, u3, root1, container, false, false)
              | (st3, u3, stop3, true) =>
                  (st3, u3, root1, container, stop3, true)
          else if change_addr ∨ change_size then
            let overwrite := off < root1.nbytes
            let inplace :=
              if change_addr ∧ overwrite ∧ change_size then
                commit = Commit.free
              else commit = Commit.free ∨ commit = Commit.atomic
            match (if ¬inplace then cow_block_entire st2 container
                   else (st2, container, true)) with
            | (st3, _, false) => (st3, u2, root1, container, false, false)
            | (st3, container3, true) =>
                let root2 : TreeRoot :=
                  ⟨root1.height,
                   if change_addr then child_new else root1.addr,
                   if change_size then end_ else root1.nbytes⟩
                (st3, u2, root2, container3, stop, true)
          else (st2, u2, root1, container, stop, true)

/-- callback_write (bpfs.c:3899-3922): unless the write may go in place
(COMMIT_FREE, or COMMIT_ATOMIC with a single-word or beyond-valid
write), cow_block first; then copy the bytes from the user buffer at
`blockoff * BPFS_BLOCK_SIZE + off - crawl_start`. -/
def callback_write (buf : Nat → Nat) : CrawlCB Unit :=
  fun st _ blockoff _ off size valid crawl_start commit blockno =>
    let buf_offset := blockoff * BPFS_BLOCK_SIZE + off - crawl_start
    if callback_write_inplace commit off size valid then
      (setBlock st blockno
        (memcpy_into (getBlock st blockno) off buf buf_offset size),
       (), blockno, false, true)
    else
      match cow_block st blockno off size valid with
      | (st1, _, false) => (st1, (), blockno, false, false)
      | (st1, newno, true) =>
          (setBlock st1 newno
            (memcpy_into (getBlock st1 newno) off buf buf_offset size),
           (), newno, false, true)

/-- An iovec: the segment's block contents, byte offset, and length. -/
def IoVec := Nat → (Nat → Nat) × Nat × Nat

/-- callback_read (bpfs.c:3840-3851):
`iov[blockoff - crawl_start / BPFS_BLOCK_SIZE] = (block + off, size)`. -/
def callback_read : CrawlCB IoVec :=
  fun st iov blockoff block off size _ crawl_start _ blockno =>
    (st,
     (fun idx => if idx = blockoff - crawl_start / BPFS_BLOCK_SIZE
                 then (block, off, size) else iov idx),
     blockno, false, true)

/-- fuse_read's reply: the iov segments concatenated in index order. -/
def iov_bytes (iov : IoVec) : Nat → List Nat
  | 0 => []
  | n + 1 => iov_bytes iov n ++
      (List.range (iov n).2.2).map (fun j => (iov n).1 ((iov n).2.1 + j))

/-- The data write as fuse_write drives it (bpfs.c:3952-3960):
crawl_data = the data tree's crawl_tree with COMMIT_ATOMIC and
callback_write (the enclosing single-inode crawl hands the inode's tree
root exactly this commit, and the inode block's relocation is the
container). -/
def write_path (st : BlockStore) (root : TreeRoot)
    (container off size : Nat) (buf : Nat → Nat) :
    BlockStore × TreeRoot × Nat × Bool :=
  match crawl_tree (callback_write buf) st () root off size Commit.atomic
      container with
  | (st1, _, root1, c1, _, ok) => (st1, root1, c1, ok)

/-- The read as fuse_read drives it (bpfs.c:3852-3897) with the size
already clamped to nbytes - off: crawl_data with COMMIT_NONE and
callback_read over calloc'd (empty) iovs covering the spanned blocks,
replied as their concatenation. -/
def read_path (st : BlockStore) (root : TreeRoot) (off size : Nat) :
    List Nat × Bool :=
  let first_blockoff := off / BPFS_BLOCK_SIZE
  let last_blockoff := if off + size ≠ 0
                       then (off + size - 1) / BPFS_BLOCK_SIZE else 0
  let nblocks := last_blockoff - first_blockoff + 1
  let iov0 : IoVec := fun _ => (zero_block, 0, 0)
  match crawl_tree callback_read st iov0 root off size Commit.none 0 with
  | (_, iov, _, _, _, ok) => (iov_bytes iov nblocks, ok)

/-- fuse_write including its failure handling (bpfs.c:3964-3983): on a
negative return the handler calls bpfs_abort, i.e. bitmap_abort on the
block bitmap (SCSP build: there is no superblock revert), while every
in-place BPRAM update the failed crawl already made — including a
tree_change_height ha_set on the root — stays. The mtime crawl runs
only on success and touches the inode block, not the data tree. -/
def fuse_write (st : BlockStore) (root : TreeRoot)
    (container off size : Nat) (buf : Nat → Nat) :
    BlockStore × TreeRoot × Nat × Bool :=
  match write_path st root container off size buf with
  | (st1, root1, c1, false) =>
      ({ st1 with bm := bitmap_abort st1.bm }, root1, c1, false)
  | (st1, root1, c1, true) =>
      ({ st1 with bm := bitmap_commit st1.bm }, root1, c1, true)

/-! ### C2: a write that hits ENOSPC mid-crawl -/

/-- One free block (block 5) remains: blocks 1 and 2 are the supers,
block 3 holds the inode (the container), block 4 is the single data
block of a 4096-byte file of height 0. -/
def c2_st : BlockStore :=
  ⟨fun _ _ => 0, ⟨[true, true, true, true, false], 1, [], [], 0⟩⟩

def c2_root : TreeRoot := ⟨0, 4, 4096⟩

/-- Extending the file to 5000 bytes: crawl_tree first grows the tree to
height 1 (tree_change_height, COMMIT_ATOMIC, consuming the last free
block for the new indirect block and updating the root's ha in place),
then the data COW for block 0 finds the bitmap exhausted. -/
def c2_run : BlockStore × TreeRoot × Nat × Bool :=
  fuse_write c2_st c2_root 3 0 5000 (fun _ => 7)

/-- C2: the write does return ENOSPC and bpfs_abort does restore the
block bitmap exactly — but the observable state is NOT the pre-write
state: tree_change_height already updated the root's ha in place under
COMMIT_ATOMIC, so after the abort the tree's shape has changed (height
0 → 1) and its root address is block 5, whose allocation the abort just
discarded (its bitmap bit is clear), contradicting the claim that the
entire observable state, tree shape included, equals the pre-write
state. -/
theorem C2_abort_leaves_grown_root :
    c2_run.2.2.2 = false
    ∧ c2_run.1.bm = c2_st.bm
    ∧ c2_root.height = 0
    ∧ c2_run.2.1 = (⟨1, 5, 4096⟩ : TreeRoot)
    ∧ bitD c2_run.1.bm.bits (5 - 1) = false := by
  refine ⟨by decide, by decide, by decide, by decide, by decide⟩

/-! ### C1: infrastructure — store lemmas and the tree abstraction -/

def capat (h : Nat) : Nat := BPFS_BLOCK_SIZE * tree_max_nblocks h

theorem B_pos : 0 < BPFS_BLOCK_SIZE := by decide

theorem K_pos : 0 < BPFS_BLOCKNOS_PER_INDIR := by decide

theorem capat_pos (h : Nat) : 0 < capat h :=
  Nat.mul_pos B_pos (Nat.pos_pow_of_pos h K_pos)

theorem capat_succ (h : Nat) :
    capat (h + 1) = capat h * BPFS_BLOCKNOS_PER_INDIR := by
  unfold capat tree_max_nblocks
  rw [pow_succ]
  ring

theorem capat_zero : capat 0 = BPFS_BLOCK_SIZE := by
  unfold capat tree_max_nblocks
  simp

theorem B_le_capat (h : Nat) : BPFS_BLOCK_SIZE ≤ capat h :=
  Nat.le_mul_of_pos_right _ (Nat.pos_pow_of_pos h K_pos)

theorem getBlock_setBlock_same (st : BlockStore) (b : Nat) (f : Nat → Nat) :
    getBlock (setBlock st b f) b = f := by
  unfold getBlock setBlock
  simp

theorem getBlock_setBlock_other {st : BlockStore} {b b' : Nat}
    (f : Nat → Nat) (hne : b' ≠ b) :
    getBlock (setBlock st b f) b' = getBlock st b' := by
  unfold getBlock setBlock
  simp [hne]

theorem bm_setBlock (st : BlockStore) (b : Nat) (f : Nat → Nat) :
    (setBlock st b f).bm = st.bm := rfl

theorem blocks_st_free (st : BlockStore) (b : Nat) :
    (st_free st b).blocks = st.blocks := rfl

theorem bits_st_free (st : BlockStore) (b : Nat) :
    (st_free st b).bm.bits = st.bm.bits := rfl

theorem ntotal_st_free (st : BlockStore) (b : Nat) :
    (st_free st b).bm.ntotal = st.bm.ntotal := rfl

/-- st_alloc when the bitmap is exhausted: nothing changes. -/
theorem st_alloc_none {st : BlockStore}
    (hfc : firstClear st.bm.bits = Option.none) :
    st_alloc st = (st, 0) := by
  unfold st_alloc alloc_block bitmap_alloc
  rw [hfc]
  simp [BPFS_BLOCKNO_INVALID]

/-- st_alloc on a successful scan: the clear bit i is set, the staged
entry recorded, and block i + 1 returned. -/
theorem st_alloc_some {st : BlockStore} {i : Nat}
    (hfc : firstClear st.bm.bits = some i) :
    st_alloc st = ({ st with bm :=
      { st.bm with bits := st.bm.bits.set i true,
                   allocs := i :: st.bm.allocs,
                   nfree := st.bm.nfree - 1 } }, i + 1) := by
  have hlt := (firstClear_spec hfc).1
  have hne : ¬(i = st.bm.ntotal) := by
    simp only [Bitmap.ntotal]
    omega
  unfold st_alloc alloc_block bitmap_alloc
  rw [hfc]
  simp [hne]

/-- The read-path value of byte i of a subtree of the given height
rooted at addr: descend by dividing out the child capacity; a hole
(`BPFS_BLOCKNO_INVALID`) reads as zero. -/
def subGet (st : BlockStore) : Nat → Nat → Nat → Nat
  | 0, addr, i =>
      if addr = BPFS_BLOCKNO_INVALID then 0 else getBlock st addr i
  | h + 1, addr, i =>
      if addr = BPFS_BLOCKNO_INVALID then 0
      else subGet st h (getBlock st addr (i / capat h)) (i % capat h)

/-- The block numbers a subtree with the given valid byte count owns:
the subtree root and, per child slot below `ceil(valid / child
capacity)`, the child's blocks. -/
def blockList (st : BlockStore) : Nat → Nat → Nat → List Nat
  | _, 0, _ => []
  | 0, addr, _ => [addr]
  | h + 1, addr, valid =>
      addr :: (List.range ((valid + capat h - 1) / capat h)).flatMap
        (fun no => blockList st h (getBlock st addr no)
          (min (valid - no * capat h) (capat h)))

/-- Allocation hygiene for a list of tree blocks: no duplicates, and
every block is nonzero with its bitmap bit set. -/
def goodList (st : BlockStore) (L : List Nat) : Prop :=
  L.Nodup ∧ ∀ b ∈ L, b ≠ 0 ∧ bitD st.bm.bits (b - 1) = true

theorem subGet_zero (st : BlockStore) (h : Nat) (i : Nat) :
    subGet st h 0 i = 0 := by
  cases h <;> simp [subGet, BPFS_BLOCKNO_INVALID]

theorem blockList_zero (st : BlockStore) (h : Nat) (v : Nat) :
    blockList st h 0 v = [] := by
  cases h <;> rfl

theorem blockList_leaf (st : BlockStore) {addr : Nat} (valid : Nat)
    (h0 : addr ≠ 0) : blockList st 0 addr valid = [addr] := by
  cases addr with
  | zero => exact absurd rfl h0
  | succ a => rfl

theorem blockList_succ (st : BlockStore) (h : Nat) {addr : Nat}
    (valid : Nat) (h0 : addr ≠ 0) :
    blockList st (h + 1) addr valid
      = addr :: (List.range ((valid + capat h - 1) / capat h)).flatMap
          (fun no => blockList st h (getBlock st addr no)
            (min (valid - no * capat h) (capat h))) := by
  cases addr with
  | zero => exact absurd rfl h0
  | succ a => rfl

/-- i < valid implies the child index of i is below ceil(valid/c). -/
theorem div_lt_ceil {c i valid : Nat} (hc : 0 < c) (hi : i < valid) :
    i / c < (valid + c - 1) / c := by
  have h1 : i / c ≤ (valid - 1) / c := Nat.div_le_div_right (by omega)
  have h2 : (valid + c - 1) / c = (valid - 1) / c + 1 := by
    rw [show valid + c - 1 = (valid - 1) + 1 * c by omega,
      Nat.add_mul_div_right _ _ hc]
  omega

/-- subGet reads only blocks in the subtree's list (for bytes below
valid): stores agreeing on the listed blocks agree on subGet. -/
theorem subGet_congr {st st' : BlockStore} :
    ∀ (h : Nat) (addr valid : Nat),
    (∀ b ∈ blockList st h addr valid, getBlock st' b = getBlock st b) →
    ∀ i, i < valid → subGet st' h addr i = subGet st h addr i := by
  intro h
  induction h with
  | zero =>
    intro addr valid hag i hi
    by_cases h0 : addr = 0
    · subst h0
      rw [subGet_zero, subGet_zero]
    · have hm := hag addr (by
        rw [blockList_leaf st valid h0]
        exact List.mem_singleton.mpr rfl)
      simp only [subGet, BPFS_BLOCKNO_INVALID, if_neg h0]
      rw [hm]
  | succ h ih =>
    intro addr valid hag i hi
    by_cases h0 : addr = 0
    · subst h0
      rw [subGet_zero, subGet_zero]
    · have hlist := blockList_succ st h valid h0
      have haddr : getBlock st' addr = getBlock st addr := by
        apply hag
        rw [hlist]
        exact List.mem_cons_self _ _
      simp only [subGet, BPFS_BLOCKNO_INVALID, if_neg h0]
      rw [haddr]
      have hc := capat_pos h
      have hnolt : i / capat h < (valid + capat h - 1) / capat h :=
        div_lt_ceil hc hi
      have hdm : i / capat h * capat h + i % capat h = i :=
        Nat.div_add_mod' i (capat h)
      refine ih (getBlock st addr (i / capat h))
        (min (valid - i / capat h * capat h) (capat h)) ?_ (i % capat h) ?_
      · intro b hb
        apply hag
        rw [hlist]
        refine List.mem_cons_of_mem _ (List.mem_flatMap.mpr
          ⟨i / capat h, List.mem_range.mpr hnolt, hb⟩)
      · have hmod : i % capat h < capat h := Nat.mod_lt _ hc
        have : i / capat h * capat h ≤ i := Nat.div_mul_le_self i _
        omega

theorem flatMap_congr_mem {α β : Type} {l : List α} {f g : α → List β}
    (h : ∀ a ∈ l, f a = g a) : l.flatMap f = l.flatMap g := by
  induction l with
  | nil => rfl
  | cons hd tl ih =>
    simp only [List.flatMap_cons]
    rw [h hd (List.mem_cons_self hd tl),
      ih fun a ha => h a (List.mem_cons_of_mem hd ha)]

theorem mem_blockList_head {st : BlockStore} {h addr : Nat} (valid : Nat)
    (h0 : addr ≠ 0) : addr ∈ blockList st h addr valid := by
  cases h with
  | zero => rw [blockList_leaf st valid h0]; exact List.mem_singleton.mpr rfl
  | succ h => rw [blockList_succ st h valid h0]; exact List.mem_cons_self _ _

theorem mem_blockList_child {st : BlockStore} {h addr valid no b : Nat}
    (h0 : addr ≠ 0) (hno : no < (valid + capat h - 1) / capat h)
    (hb : b ∈ blockList st h (getBlock st addr no)
      (min (valid - no * capat h) (capat h))) :
    b ∈ blockList st (h + 1) addr valid := by
  rw [blockList_succ st h valid h0]
  exact List.mem_cons_of_mem _
    (List.mem_flatMap.mpr ⟨no, List.mem_range.mpr hno, hb⟩)

/-- blockList reads only slots of listed blocks: stores agreeing on the
listed blocks produce the same list. -/
theorem blockList_congr {st st' : BlockStore} :
    ∀ (h : Nat) (addr valid : Nat),
    (∀ b ∈ blockList st h addr valid, getBlock st' b = getBlock st b) →
    blockList st' h addr valid = blockList st h addr valid := by
  intro h
  induction h with
  | zero =>
    intro addr valid hag
    by_cases h0 : addr = 0
    · subst h0
      rw [blockList_zero, blockList_zero]
    · rw [blockList_leaf st' valid h0, blockList_leaf st valid h0]
  | succ h ih =>
    intro addr valid hag
    by_cases h0 : addr = 0
    · subst h0
      rw [blockList_zero, blockList_zero]
    · have haddr : getBlock st' addr = getBlock st addr :=
        hag addr (mem_blockList_head valid h0)
      rw [blockList_succ st' h valid h0, blockList_succ st h valid h0]
      congr 1
      apply flatMap_congr_mem
      intro no hno
      rw [haddr]
      exact ih (getBlock st addr no) _ fun b hb =>
        hag b (mem_blockList_child h0 (List.mem_range.mp hno) hb)

theorem subGet_leaf {st : BlockStore} {addr : Nat} (i : Nat)
    (h0 : addr ≠ 0) : subGet st 0 addr i = getBlock st addr i := by
  simp [subGet, BPFS_BLOCKNO_INVALID, h0]

theorem subGet_succ {st : BlockStore} {addr : Nat} (h i : Nat)
    (h0 : addr ≠ 0) : subGet st (h + 1) addr i
      = subGet st h (getBlock st addr (i / capat h)) (i % capat h) := by
  simp [subGet, BPFS_BLOCKNO_INVALID, h0]

theorem memcpy_into_lt {f : Nat → Nat} {off : Nat} {src : Nat → Nat}
    {so size i : Nat} (hi : i < off) :
    memcpy_into f off src so size i = f i := by
  unfold memcpy_into
  rw [if_neg (by omega)]

theorem memcpy_into_ge {f : Nat → Nat} {off : Nat} {src : Nat → Nat}
    {so size i : Nat} (hi : off + size ≤ i) :
    memcpy_into f off src so size i = f i := by
  unfold memcpy_into
  rw [if_neg (by omega)]

theorem memcpy_into_mid {f : Nat → Nat} {off : Nat} {src : Nat → Nat}
    {so size i : Nat} (h1 : off ≤ i) (h2 : i < off + size) :
    memcpy_into f off src so size i = src (so + (i - off)) := by
  unfold memcpy_into
  rw [if_pos ⟨h1, h2⟩]

/-! ### C1: the write crawl's subtree contract -/

/-- Dispatch a crawl of a subtree of the given height (crawl_leaf at
height 0, crawl_indir above, with the max_nblocks the parent passes). -/
def crawlAt {σ : Type} (cb : CrawlCB σ) (h : Nat) (st : BlockStore)
    (user : σ) (addr blockoff off size valid cs : Nat) (commit : Commit) :
    BlockStore × σ × Nat × Bool × Bool :=
  match h with
  | 0 => crawl_leaf cb st user addr blockoff off size valid cs commit
  | h + 1 => crawl_indir cb (h + 1) st user addr blockoff off size valid cs
      commit (tree_max_nblocks (h + 1))

/-- What a successful write crawl of one subtree guarantees. `base` is
the absolute byte offset of the subtree's first byte, `cs` the crawl's
start offset (callback_write indexes buf by absolute offset − cs). -/
structure WriteOut (st : BlockStore) (h addr valid off size : Nat)
    (buf : Nat → Nat) (base cs : Nat)
    (st' : BlockStore) (addr' : Nat) : Prop where
  bitsLE : ∀ j, bitD st.bm.bits j = true → bitD st'.bm.bits j = true
  ntotal_eq : st'.bm.ntotal = st.bm.ntotal
  frame : ∀ b, bitD st.bm.bits (b - 1) = true →
      b ∉ blockList st h addr valid → getBlock st' b = getBlock st b
  newFrom : ∀ b ∈ blockList st' h addr' (max valid (off + size)),
      b ∈ blockList st h addr valid ∨ bitD st.bm.bits (b - 1) = false
  good : goodList st' (blockList st' h addr' (max valid (off + size)))
  pre : ∀ i, i < off → subGet st' h addr' i = subGet st h addr i
  mid : ∀ i, off ≤ i → i < off + size →
      subGet st' h addr' i = buf (base + i - cs)
  post : ∀ i, off + size ≤ i → i < valid →
      subGet st' h addr' i = subGet st h addr i

theorem bitD_set_true_self {l : List Bool} {i : Nat} (hlt : i < l.length) :
    bitD (l.set i true) i = true := by
  rw [bitD_set]
  simp [hlt]

theorem bitD_set_true_other {l : List Bool} {i j : Nat} (hne : i ≠ j) :
    bitD (l.set i true) j = bitD l j := by
  rw [bitD_set]
  simp [hne]

/-- The bitmap component a successful st_alloc produces. -/
def allocBm (b : Bitmap) (i : Nat) : Bitmap :=
  { b with bits := b.bits.set i true, allocs := i :: b.allocs,
           nfree := b.nfree - 1 }

theorem cow_block_eq_none {st : BlockStore} (old off size valid : Nat)
    (hfc : firstClear st.bm.bits = Option.none) :
    cow_block st old off size valid = (st, BPFS_BLOCKNO_INVALID, false) := by
  unfold cow_block
  rw [st_alloc_none hfc]
  simp [BPFS_BLOCKNO_INVALID]

theorem cow_block_eq_some {st : BlockStore} (old off size valid : Nat)
    {i : Nat} (hfc : firstClear st.bm.bits = some i) :
    cow_block st old off size valid
      = (st_free (setBlock { st with bm := allocBm st.bm i } (i + 1)
          (fun j => if j < off then getBlock st old j
                    else if off + size ≤ j ∧ j < valid then getBlock st old j
                    else getBlock st (i + 1) j)) old, i + 1, true) := by
  unfold cow_block allocBm
  rw [st_alloc_some hfc]
  simp [BPFS_BLOCKNO_INVALID]

theorem cow_block_hole_eq_none {st : BlockStore} (off size valid : Nat)
    (hfc : firstClear st.bm.bits = Option.none) :
    cow_block_hole st off size valid = (st, BPFS_BLOCKNO_INVALID, false) := by
  unfold cow_block_hole
  rw [st_alloc_none hfc]
  simp [BPFS_BLOCKNO_INVALID]

theorem cow_block_hole_eq_some {st : BlockStore} (off size valid : Nat)
    {i : Nat} (hfc : firstClear st.bm.bits = some i) :
    cow_block_hole st off size valid
      = (setBlock { st with bm := allocBm st.bm i } (i + 1)
          (fun j => if j < off then 0
                    else if off + size ≤ j ∧ j < valid then 0
                    else getBlock st (i + 1) j), i + 1, true) := by
  unfold cow_block_hole allocBm
  rw [st_alloc_some hfc]
  simp [BPFS_BLOCKNO_INVALID]

theorem cow_block_entire_eq_none {st : BlockStore} (old : Nat)
    (hfc : firstClear st.bm.bits = Option.none) :
    cow_block_entire st old = (st, BPFS_BLOCKNO_INVALID, false) := by
  unfold cow_block_entire
  rw [st_alloc_none hfc]
  simp [BPFS_BLOCKNO_INVALID]

theorem cow_block_entire_eq_some {st : BlockStore} (old : Nat)
    {i : Nat} (hfc : firstClear st.bm.bits = some i) :
    cow_block_entire st old
      = (st_free (setBlock { st with bm := allocBm st.bm i } (i + 1)
          (getBlock st old)) old, i + 1, true) := by
  unfold cow_block_entire allocBm
  rw [st_alloc_some hfc]
  simp [BPFS_BLOCKNO_INVALID]

theorem getBlock_st_free (st : BlockStore) (b b' : Nat) :
    getBlock (st_free st b) b' = getBlock st b' := rfl

theorem getBlock_bmMod (st : BlockStore) (bm' : Bitmap) (b' : Nat) :
    getBlock { st with bm := bm' } b' = getBlock st b' := rfl

/-- What a successful cow_block guarantees: a fresh nonzero block whose
bitmap bit goes clear → set, every other block's contents untouched
(the staged-freed old block keeps its bit and bytes until commit), and
the new block carrying the old bytes below off and on
[off + size, valid). -/
theorem cow_block_spec {st : BlockStore} {old off size valid : Nat}
    {st1 : BlockStore} {b1 : Nat}
    (h : cow_block st old off size valid = (st1, b1, true)) :
    b1 ≠ 0 ∧ b1 - 1 < st.bm.bits.length
    ∧ bitD st.bm.bits (b1 - 1) = false
    ∧ st1.bm.bits = st.bm.bits.set (b1 - 1) true
    ∧ st1.bm.ntotal = st.bm.ntotal
    ∧ (∀ b', b' ≠ b1 → getBlock st1 b' = getBlock st b')
    ∧ (∀ j, j < off → getBlock st1 b1 j = getBlock st old j)
    ∧ (∀ j, off + size ≤ j → j < valid →
        getBlock st1 b1 j = getBlock st old j) := by
  match hfc : firstClear st.bm.bits with
  | Option.none =>
      rw [cow_block_eq_none old off size valid hfc] at h
      simp at h
  | some i =>
      have hspec := firstClear_bitD hfc
      rw [cow_block_eq_some old off size valid hfc] at h
      simp only [Prod.mk.injEq] at h
      obtain ⟨hst, hb, -⟩ := h
      subst hst
      subst hb
      refine ⟨by omega, by simpa using hspec.1, by simpa using hspec.2,
        ?_, ?_, ?_, ?_, ?_⟩
      · show st.bm.bits.set i true = st.bm.bits.set (i + 1 - 1) true
        simp
      · show (st.bm.bits.set i true).length = st.bm.ntotal
        simp [Bitmap.ntotal]
      · intro b' hne
        rw [getBlock_st_free, getBlock_setBlock_other _ hne, getBlock_bmMod]
      · intro j hj
        rw [getBlock_st_free, getBlock_setBlock_same]
        rw [if_pos hj]
      · intro j h1 h2
        rw [getBlock_st_free, getBlock_setBlock_same]
        rw [if_neg (by omega), if_pos ⟨h1, h2⟩]

/-- What a successful cow_block_hole guarantees. -/
theorem cow_block_hole_spec {st : BlockStore} {off size valid : Nat}
    {st1 : BlockStore} {b1 : Nat}
    (h : cow_block_hole st off size valid = (st1, b1, true)) :
    b1 ≠ 0 ∧ b1 - 1 < st.bm.bits.length
    ∧ bitD st.bm.bits (b1 - 1) = false
    ∧ st1.bm.bits = st.bm.bits.set (b1 - 1) true
    ∧ st1.bm.ntotal = st.bm.ntotal
    ∧ (∀ b', b' ≠ b1 → getBlock st1 b' = getBlock st b')
    ∧ (∀ j, j < off → getBlock st1 b1 j = 0)
    ∧ (∀ j, off + size ≤ j → j < valid → getBlock st1 b1 j = 0) := by
  match hfc : firstClear st.bm.bits with
  | Option.none =>
      rw [cow_block_hole_eq_none off size valid hfc] at h
      simp at h
  | some i =>
      have hspec := firstClear_bitD hfc
      rw [cow_block_hole_eq_some off size valid hfc] at h
      simp only [Prod.mk.injEq] at h
      obtain ⟨hst, hb, -⟩ := h
      subst hst
      subst hb
      refine ⟨by omega, by simpa using hspec.1, by simpa using hspec.2,
        ?_, ?_, ?_, ?_, ?_⟩
      · show st.bm.bits.set i true = st.bm.bits.set (i + 1 - 1) true
        simp
      · show (st.bm.bits.set i true).length = st.bm.ntotal
        simp [Bitmap.ntotal]
      · intro b' hne
        rw [getBlock_setBlock_other _ hne, getBlock_bmMod]
      · intro j hj
        rw [getBlock_setBlock_same]
        rw [if_pos hj]
      · intro j h1 h2
        rw [getBlock_setBlock_same]
        rw [if_neg (by omega), if_pos ⟨h1, h2⟩]

/-- What a successful cow_block_entire guarantees. -/
theorem cow_block_entire_spec {st : BlockStore} {old : Nat}
    {st1 : BlockStore} {b1 : Nat}
    (h : cow_block_entire st old = (st1, b1, true)) :
    b1 ≠ 0 ∧ b1 - 1 < st.bm.bits.length
    ∧ bitD st.bm.bits (b1 - 1) = false
    ∧ st1.bm.bits = st.bm.bits.set (b1 - 1) true
    ∧ st1.bm.ntotal = st.bm.ntotal
    ∧ (∀ b', b' ≠ b1 → getBlock st1 b' = getBlock st b')
    ∧ getBlock st1 b1 = getBlock st old := by
  match hfc : firstClear st.bm.bits with
  | Option.none =>
      rw [cow_block_entire_eq_none old hfc] at h
      simp at h
  | some i =>
      have hspec := firstClear_bitD hfc
      rw [cow_block_entire_eq_some old hfc] at h
      simp only [Prod.mk.injEq] at h
      obtain ⟨hst, hb, -⟩ := h
      subst hst
      subst hb
      refine ⟨by omega, by simpa using hspec.1, by simpa using hspec.2,
        ?_, ?_, ?_, ?_⟩
      · show st.bm.bits.set i true = st.bm.bits.set (i + 1 - 1) true
        simp
      · show (st.bm.bits.set i true).length = st.bm.ntotal
        simp [Bitmap.ntotal]
      · intro b' hne
        rw [getBlock_st_free, getBlock_setBlock_other _ hne, getBlock_bmMod]
      · rw [getBlock_st_free, getBlock_setBlock_same]

/-! ### Equation lemmas for crawl_leaf and callback_write -/

theorem crawl_leaf_nohole_eq {σ : Type} (cb : CrawlCB σ) (st : BlockStore)
    (user : σ) (addr bo off size valid cs : Nat) {commit : Commit}
    (hC : commit ≠ Commit.none) (hA : addr ≠ BPFS_BLOCKNO_INVALID) :
    crawl_leaf cb st user addr bo off size valid cs commit
      = cb st user bo (getBlock st addr) off size valid cs commit addr := by
  unfold crawl_leaf
  rw [if_neg (fun hc : _ ∧ _ => hA hc.2)]
  show cb st user bo
      (if addr = BPFS_BLOCKNO_INVALID ∧ commit = Commit.none then zero_block
       else getBlock st addr) off size valid cs
      (if addr = addr then commit else Commit.free) addr = _
  rw [if_neg (fun hc : _ ∧ _ => hA hc.1), if_pos rfl]

theorem crawl_leaf_hole_eq {σ : Type} (cb : CrawlCB σ) (st : BlockStore)
    (user : σ) (bo off size valid cs : Nat) {commit : Commit}
    (hC : commit ≠ Commit.none) {st1 : BlockStore} {b1 : Nat}
    (hcow : cow_block_hole st off size valid = (st1, b1, true))
    (hb1 : b1 ≠ 0) :
    crawl_leaf cb st user 0 bo off size valid cs commit
      = cb st1 user bo (getBlock st1 b1) off size valid cs Commit.free b1 := by
  unfold crawl_leaf
  rw [if_pos ⟨hC, rfl⟩, hcow]
  show cb st1 user bo
      (if (0 : Nat) = BPFS_BLOCKNO_INVALID ∧ commit = Commit.none
       then zero_block else getBlock st1 b1) off size valid cs
      (if b1 = (0 : Nat) then commit else Commit.free) b1 = _
  rw [if_neg (fun hc : _ ∧ _ => hC hc.2), if_neg hb1]

theorem crawl_leaf_hole_fail_eq {σ : Type} (cb : CrawlCB σ)
    (st : BlockStore) (user : σ) (bo off size valid cs : Nat)
    {commit : Commit} (hC : commit ≠ Commit.none) {st1 : BlockStore}
    {b1 : Nat} (hcow : cow_block_hole st off size valid = (st1, b1, false)) :
    crawl_leaf cb st user 0 bo off size valid cs commit
      = (st1, user, 0, false, false) := by
  unfold crawl_leaf
  rw [if_pos ⟨hC, rfl⟩, hcow]

theorem callback_write_inplace_eq (buf : Nat → Nat) (st : BlockStore)
    (bo : Nat) (block : Nat → Nat) (off size valid cs : Nat)
    (commit : Commit) (bno : Nat)
    (hip : callback_write_inplace commit off size valid = true) :
    callback_write buf st () bo block off size valid cs commit bno
      = (setBlock st bno (memcpy_into (getBlock st bno) off buf
          (bo * BPFS_BLOCK_SIZE + off - cs) size), (), bno, false, true) := by
  unfold callback_write
  rw [if_pos hip]

theorem callback_write_cow_eq (buf : Nat → Nat) (st : BlockStore)
    (bo : Nat) (block : Nat → Nat) (off size valid cs : Nat)
    (commit : Commit) (bno : Nat)
    (hip : callback_write_inplace commit off size valid = false)
    {st1 : BlockStore} {b1 : Nat}
    (hcow : cow_block st bno off size valid = (st1, b1, true)) :
    callback_write buf st () bo block off size valid cs commit bno
      = (setBlock st1 b1 (memcpy_into (getBlock st1 b1) off buf
          (bo * BPFS_BLOCK_SIZE + off - cs) size), (), b1, false, true) := by
  unfold callback_write
  rw [if_neg (by simp [hip]), hcow]

theorem callback_write_cow_fail_eq (buf : Nat → Nat) (st : BlockStore)
    (bo : Nat) (block : Nat → Nat) (off size valid cs : Nat)
    (commit : Commit) (bno : Nat)
    (hip : callback_write_inplace commit off size valid = false)
    {st1 : BlockStore} {b1 : Nat}
    (hcow : cow_block st bno off size valid = (st1, b1, false)) :
    callback_write buf st () bo block off size valid cs commit bno
      = (st1, (), bno, false, false) := by
  unfold callback_write
  rw [if_neg (by simp [hip]), hcow]

/-- The write crawl's contract at a leaf (height 0). -/
theorem crawl_leaf_write {buf : Nat → Nat} {st : BlockStore}
    {addr off size valid base cs : Nat} {commit : Commit}
    {st' : BlockStore} {u' : Unit} {addr' : Nat} {stop ok : Bool}
    (hC : commit ≠ Commit.none)
    (hsz : 0 < size) (hend : off + size ≤ BPFS_BLOCK_SIZE)
    (hval : valid ≤ BPFS_BLOCK_SIZE)
    (hgood : goodList st (blockList st 0 addr valid))
    (hbase : BPFS_BLOCK_SIZE ∣ base)
    (hcs : cs ≤ base + off)
    (hrun : crawl_leaf (callback_write buf) st () addr
        ((base + off) / BPFS_BLOCK_SIZE) off size valid cs commit
      = (st', u', addr', stop, ok)) (hok : ok = true) :
    stop = false ∧ addr' ≠ 0
    ∧ WriteOut st 0 addr valid off size buf base cs st' addr' := by
  subst hok
  have hoff : off < BPFS_BLOCK_SIZE := by omega
  have hboB : (base + off) / BPFS_BLOCK_SIZE * BPFS_BLOCK_SIZE = base := by
    obtain ⟨q, hq⟩ := hbase
    subst hq
    rw [Nat.mul_add_div B_pos, Nat.div_eq_of_lt hoff, Nat.add_zero,
      Nat.mul_comm]
  have hbufo : (base + off) / BPFS_BLOCK_SIZE * BPFS_BLOCK_SIZE + off - cs
      = base + off - cs := by rw [hboB]
  by_cases haddr : addr = 0
  · -- hole leaf: cow_block_hole then an in-place (COMMIT_FREE) write
    subst haddr
    match hcow : cow_block_hole st off size valid with
    | (st1, b1, false) =>
        rw [crawl_leaf_hole_fail_eq (callback_write buf) st () _ off size
          valid cs hC hcow] at hrun
        simp at hrun
    | (st1, b1, true) =>
        obtain ⟨hb1, hlt1, hfresh1, hbits1, hnt1, hother1, hzlo1, hzhi1⟩ :=
          cow_block_hole_spec hcow
        rw [crawl_leaf_hole_eq (callback_write buf) st () _ off size valid
          cs hC hcow hb1] at hrun
        rw [callback_write_inplace_eq buf st1 _ (getBlock st1 b1) off size
          valid cs Commit.free b1 (by simp [callback_write_inplace])] at hrun
        simp only [Prod.mk.injEq] at hrun
        obtain ⟨hst', -, haddr', hstop, -⟩ := hrun
        subst hst'
        subst haddr'
        subst hstop
        have hglk : getBlock (setBlock st1 b1 (memcpy_into (getBlock st1 b1)
            off buf ((base + off) / BPFS_BLOCK_SIZE * BPFS_BLOCK_SIZE + off
              - cs) size)) b1 = memcpy_into (getBlock st1 b1) off buf
            ((base + off) / BPFS_BLOCK_SIZE * BPFS_BLOCK_SIZE + off - cs)
            size := getBlock_setBlock_same _ _ _
        refine ⟨rfl, hb1, ?_⟩
        refine ⟨?_, ?_, ?_, ?_, ?_, ?_, ?_, ?_⟩
        · intro j hj
          show bitD st1.bm.bits j = true
          rw [hbits1]
          by_cases hje : b1 - 1 = j
          · rw [← hje] at hj
            rw [hfresh1] at hj
            cases hj
          · rw [bitD_set_true_other hje]
            exact hj
        · show st1.bm.ntotal = st.bm.ntotal
          exact hnt1
        · intro b hb hbl
          have hbne : b ≠ b1 := by
            intro hc
            rw [hc, hfresh1] at hb
            cases hb
          rw [getBlock_setBlock_other _ hbne]
          exact hother1 b hbne
        · intro b hbmem
          rw [blockList_leaf _ _ hb1] at hbmem
          rw [List.mem_singleton.mp hbmem]
          exact Or.inr hfresh1
        · constructor
          · rw [blockList_leaf _ _ hb1]
            exact List.nodup_singleton _
          · intro b hbmem
            rw [blockList_leaf _ _ hb1] at hbmem
            rw [List.mem_singleton.mp hbmem]
            refine ⟨hb1, ?_⟩
            show bitD st1.bm.bits (b1 - 1) = true
            rw [hbits1]
            exact bitD_set_true_self hlt1
        · intro i hi
          rw [subGet_leaf i hb1, subGet_zero, hglk, memcpy_into_lt hi]
          exact hzlo1 i hi
        · intro i h1 h2
          rw [subGet_leaf i hb1, hglk, memcpy_into_mid h1 h2, hbufo]
          congr 1
          omega
        · intro i h1 h2
          rw [subGet_leaf i hb1, subGet_zero, hglk, memcpy_into_ge h1]
          exact hzhi1 i h1 h2
  · -- existing leaf: in place or cow_block, per callback_write_inplace
    have hmem : addr ∈ blockList st 0 addr valid := mem_blockList_head _ haddr
    have haddrbit : bitD st.bm.bits (addr - 1) = true :=
      (hgood.2 addr hmem).2
    rw [crawl_leaf_nohole_eq (callback_write buf) st () addr _ off size
      valid cs hC haddr] at hrun
    by_cases hip : callback_write_inplace commit off size valid = true
    · rw [callback_write_inplace_eq buf st _ (getBlock st addr) off size
        valid cs commit addr hip] at hrun
      simp only [Prod.mk.injEq] at hrun
      obtain ⟨hst', -, haddr', hstop, -⟩ := hrun
      subst hst'
      subst haddr'
      subst hstop
      have hglk : getBlock (setBlock st addr (memcpy_into (getBlock st addr)
          off buf ((base + off) / BPFS_BLOCK_SIZE * BPFS_BLOCK_SIZE + off
            - cs) size)) addr = memcpy_into (getBlock st addr) off buf
          ((base + off) / BPFS_BLOCK_SIZE * BPFS_BLOCK_SIZE + off - cs)
          size := getBlock_setBlock_same _ _ _
      refine ⟨rfl, haddr, ?_⟩
      refine ⟨?_, ?_, ?_, ?_, ?_, ?_, ?_, ?_⟩
      · intro j hj
        exact hj
      · rfl
      · intro b hb hbl
        have hbne : b ≠ addr := fun hc => hbl (hc ▸ hmem)
        rw [getBlock_setBlock_other _ hbne]
      · intro b hbmem
        rw [blockList_leaf _ _ haddr] at hbmem
        rw [List.mem_singleton.mp hbmem]
        exact Or.inl hmem
      · constructor
        · rw [blockList_leaf _ _ haddr]
          exact List.nodup_singleton _
        · intro b hbmem
          rw [blockList_leaf _ _ haddr] at hbmem
          rw [List.mem_singleton.mp hbmem]
          exact ⟨haddr, haddrbit⟩
      · intro i hi
        rw [subGet_leaf i haddr, subGet_leaf i haddr, hglk,
          memcpy_into_lt hi]
      · intro i h1 h2
        rw [subGet_leaf i haddr, hglk, memcpy_into_mid h1 h2, hbufo]
        congr 1
        omega
      · intro i h1 h2
        rw [subGet_leaf i haddr, subGet_leaf i haddr, hglk,
          memcpy_into_ge h1]
    · have hip' : callback_write_inplace commit off size valid = false := by
        cases hq : callback_write_inplace commit off size valid
        · rfl
        · exact absurd hq hip
      match hcow : cow_block st addr off size valid with
      | (st1, b1, false) =>
          rw [callback_write_cow_fail_eq buf st _ (getBlock st addr) off
            size valid cs commit addr hip' hcow] at hrun
          simp at hrun
      | (st1, b1, true) =>
          obtain ⟨hb1, hlt1, hfresh1, hbits1, hnt1, hother1, hlo1, hhi1⟩ :=
            cow_block_spec hcow
          rw [callback_write_cow_eq buf st _ (getBlock st addr) off size
            valid cs commit addr hip' hcow] at hrun
          simp only [Prod.mk.injEq] at hrun
          obtain ⟨hst', -, haddr', hstop, -⟩ := hrun
          subst hst'
          subst haddr'
          subst hstop
          have hglk : getBlock (setBlock st1 b1 (memcpy_into
              (getBlock st1 b1) off buf ((base + off) / BPFS_BLOCK_SIZE
                * BPFS_BLOCK_SIZE + off - cs) size)) b1
              = memcpy_into (getBlock st1 b1) off buf
                ((base + off) / BPFS_BLOCK_SIZE * BPFS_BLOCK_SIZE + off
                  - cs) size := getBlock_setBlock_same _ _ _
          refine ⟨rfl, hb1, ?_⟩
          refine ⟨?_, ?_, ?_, ?_, ?_, ?_, ?_, ?_⟩
          · intro j hj
            show bitD st1.bm.bits j = true
            rw [hbits1]
            by_cases hje : b1 - 1 = j
            · rw [← hje] at hj
              rw [hfresh1] at hj
              cases hj
            · rw [bitD_set_true_other hje]
              exact hj
          · exact hnt1
          · intro b hb hbl
            have hbne : b ≠ b1 := by
              intro hc
              rw [hc, hfresh1] at hb
              cases hb
            rw [getBlock_setBlock_other _ hbne]
            exact hother1 b hbne
          · intro b hbmem
            rw [blockList_leaf _ _ hb1] at hbmem
            rw [List.mem_singleton.mp hbmem]
            exact Or.inr hfresh1
          · constructor
            · rw [blockList_leaf _ _ hb1]
              exact List.nodup_singleton _
            · intro b hbmem
              rw [blockList_leaf _ _ hb1] at hbmem
              rw [List.mem_singleton.mp hbmem]
              refine ⟨hb1, ?_⟩
              show bitD st1.bm.bits (b1 - 1) = true
              rw [hbits1]
              exact bitD_set_true_self hlt1
          · intro i hi
            rw [subGet_leaf i hb1, subGet_leaf i haddr, hglk,
              memcpy_into_lt hi]
            exact hlo1 i hi
          · intro i h1 h2
            rw [subGet_leaf i hb1, hglk, memcpy_into_mid h1 h2, hbufo]
            congr 1
            omega
          · intro i h1 h2
            rw [subGet_leaf i hb1, subGet_leaf i haddr, hglk,
              memcpy_into_ge h1]
            exact hhi1 i h1 h2

/-! ### C1: a write that succeeds but does not read back

`crawl_indir` computes, for each child it visits,

    if (no < validno) {
        if (no + 1 <= validno) child_valid = child_max_nbytes;
        else                   child_valid = valid % child_max_nbytes;
    } else child_valid = 0;

Since `no < validno` and `no + 1 <= validno` are the same condition on
integers, the `valid % child_max_nbytes` branch is dead and the LAST
partially-valid child is treated as entirely valid, at every level of
the tree. The `!child_valid → treat the slot as a hole` guard is what
keeps the crawler from dereferencing slot entries beyond the file's
valid length — entries that are never initialized (cow_block_hole only
zeroes up to `validno` slots, and a recycled block keeps its previous
contents). With the guard defeated, a write landing on such a slot
dereferences a stale block number, and when the COMMIT_ATOMIC
single-word in-place path applies (a small aligned write, `can_atomic_
write`), the user's bytes are memcpy'd straight through the stale
pointer. If the stale entry aliases an indirect block of the file's own
lookup path, the write clobbers a slot entry there (slot j of an
indirect block is stored in bytes [8j, 8j+8), which the model indexes
as cell j), and the read of the just-written range descends through
the clobbered slot and returns the wrong bytes.

The concrete state: a height-3 file of nbytes = 1 GiB + 4100, sparse
below 1 GiB. Block 4 is the root indirect block (slot 1 → block 5),
block 5 the height-2 indirect block for [1 GiB, 2 GiB) (slot 0 →
block 6), block 6 the height-1 indirect block (slot 0 → leaf 7, slot 1
→ leaf 8, and a STALE slot 3 containing 5 — leftover contents of a
recycled block; mount's bitmap rebuild only walks [0, nbytes), so it
never reads this slot and the image is consistent). The 8-byte write at
offset 1 GiB + 3·4096 (block-aligned, so truncate_block_zero's
unaligned-tail clearing misses slot 3) dereferences the stale 5 and
memcpys the data over block 5's slot 0, severing the path to the
just-written leaf: the read returns zeros. -/

def GiB : Nat := 1073741824

def c1_blocks : Nat → Nat → Nat := fun b i =>
  if b = 4 then (if i = 1 then 5 else 0)
  else if b = 5 then (if i = 0 then 6 else 0)
  else if b = 6 then
    (if i = 0 then 7 else if i = 1 then 8 else if i = 3 then 5 else 0)
  else 0

def c1_st : BlockStore :=
  ⟨c1_blocks, ⟨List.replicate 8 true, 0, [], [], 0⟩⟩

def c1_root : TreeRoot := ⟨3, 4, GiB + 4100⟩

def c1_off : Nat := GiB + 3 * 4096

def c1_wr : BlockStore × TreeRoot × Nat × Bool :=
  write_path c1_st c1_root 3 c1_off 8 (fun _ => 9)

def c1_rd : List Nat × Bool :=
  read_path c1_wr.1 c1_wr.2.1 c1_off 8

/-! ### Helpers for the indirect level -/

theorem flatMap_sublist_of_forall {α β : Type} {l : List α}
    {f g : α → List β} (h : ∀ a ∈ l, (f a).Sublist (g a)) :
    (l.flatMap f).Sublist (l.flatMap g) := by
  induction l with
  | nil => exact List.Sublist.refl _
  | cons hd tl ih =>
    simp only [List.flatMap_cons]
    exact List.Sublist.append (h hd (List.mem_cons_self hd tl))
      (ih fun a ha => h a (List.mem_cons_of_mem hd ha))

theorem range_sublist_range {n1 n2 : Nat} (h : n1 ≤ n2) :
    (List.range n1).Sublist (List.range n2) := by
  rw [show n2 = n1 + (n2 - n1) by omega, List.range_add]
  exact List.sublist_append_left _ _

theorem sublist_flatMap {α β : Type} {l1 l2 : List α} (h : l1.Sublist l2)
    (f : α → List β) : (l1.flatMap f).Sublist (l2.flatMap f) := by
  induction h with
  | slnil => exact List.Sublist.refl _
  | cons a h ih =>
    simp only [List.flatMap_cons]
    exact ih.trans (List.sublist_append_right _ _)
  | cons₂ a h ih =>
    simp only [List.flatMap_cons]
    exact List.Sublist.append (List.Sublist.refl _) ih

/-- blockList is monotone (as a sublist) in the valid byte count. -/
theorem blockList_mono_valid {st : BlockStore} :
    ∀ (h : Nat) (addr : Nat) {v1 v2 : Nat}, v1 ≤ v2 →
    (blockList st h addr v1).Sublist (blockList st h addr v2) := by
  intro h
  induction h with
  | zero =>
    intro addr v1 v2 hv
    by_cases h0 : addr = 0
    · subst h0
      rw [blockList_zero, blockList_zero]
    · rw [blockList_leaf st v1 h0, blockList_leaf st v2 h0]
  | succ h ih =>
    intro addr v1 v2 hv
    by_cases h0 : addr = 0
    · subst h0
      rw [blockList_zero, blockList_zero]
    · rw [blockList_succ st h v1 h0, blockList_succ st h v2 h0]
      refine List.Sublist.cons₂ _ ?_
      have hc := capat_pos h
      have hn : (v1 + capat h - 1) / capat h ≤ (v2 + capat h - 1) / capat h :=
        Nat.div_le_div_right (by omega)
      refine List.Sublist.trans ?_
        (sublist_flatMap (range_sublist_range hn) _)
      refine flatMap_sublist_of_forall fun no hno => ?_
      exact ih (getBlock st addr no) (by omega)

/-- C1: the round-trip identity fails. On the state `c1_st`/`c1_root`
(a consistent, mountable height-3 file of 1 GiB + 4100 bytes whose
height-1 indirect block carries a stale entry in slot 3, beyond the
valid length — leftover contents of a recycled block, which mount's
bitmap rebuild never reads), the 8-byte write at the block-aligned
offset 1 GiB + 3*4096 succeeds — it stages no allocation and no free at
all, so no capacity condition can fail it — and extends the file to
off + 8; yet the read of exactly the written range also "succeeds" and
returns eight zero bytes, not the eight 9-bytes that were written: the
inflated child_valid (the dead `no + 1 <= validno` branch in
crawl_indir) let the crawl dereference the stale slot (block 5, the
file's own height-2 indirect block), and the COMMIT_ATOMIC single-word
in-place path memcpy'd the data over that block's slot 0 (its first 8
bytes), severing the lookup path to the written leaf. -/
theorem C1_stale_slot_breaks_round_trip :
    c1_wr.2.2.2 = true
    ∧ c1_wr.2.1 = ⟨3, 4, c1_off + 8⟩
    ∧ c1_wr.1.bm.allocs = [] ∧ c1_wr.1.bm.frees = []
    ∧ getBlock c1_wr.1 5 0 = 9
    ∧ c1_rd.2 = true
    ∧ c1_rd.1 = [0, 0, 0, 0, 0, 0, 0, 0]
    ∧ c1_rd.1 ≠ List.replicate 8 9 := by
  refine ⟨rfl, rfl, rfl, rfl, rfl, rfl, rfl, by intro hcon; cases hcon⟩

end Bpfs
